import Mathlib

/-!
Verification of the Merkle Patricia Forestry (MPF) library: a shallow
embedding of the off-chain JavaScript trie engine (lib/index.js and its
helpers) and of the on-chain Aiken verifier (merkle_patricia_forestry and
its merkling / helpers modules), together with proofs about proof
generation and verification.

Modelling conventions:

* Byte strings are modelled by the inductive type `Bs`: a byte string is a
  sequence of tokens, each token being either a literal byte or an opaque
  32-byte blake2b-256 digest of another byte string.  Equality of `Bs`
  values is structural; identifying digest blocks with their preimages is
  the standard collision-resistance idealisation of blake2b-256.  The
  constant `NULL_HASH` (32 zero bytes) is kept as literal bytes, exactly
  as in the sources.
* Hex strings (the off-chain code routes tries by hex-encoded digests) are
  modelled as lists of nibble values (`List Nat`, each element < 16);
  byte arrays (the on-chain code) as lists of byte values.
* The layout of the file is: all definitions first, then all theorems.
-/

namespace MPF

/-- Symbolic byte strings: `byte b m` is the literal byte `b` followed by
`m`; `dig d m` is the 32-byte blake2b-256 digest of the byte string `d`,
followed by `m`. -/
inductive Bs : Type where
  | nil : Bs
  | byte : Nat → Bs → Bs
  | dig : Bs → Bs → Bs
deriving DecidableEq

namespace Bs

/-- Concatenation of byte strings (Buffer.concat / bytearray.concat). -/
def app : Bs → Bs → Bs
  | .nil, r => r
  | .byte b m, r => .byte b (app m r)
  | .dig d m, r => .dig d (app m r)

/-- Token length of a byte string (a digest block counts as one token). -/
def len : Bs → Nat
  | .nil => 0
  | .byte _ m => len m + 1
  | .dig _ m => len m + 1

end Bs

/-- Literal byte strings (a list of byte values). -/
def bs : List Nat → Bs
  | [] => .nil
  | b :: r => .byte b (bs r)

/-- Digest of a byte string: `digest(msg)` off-chain / `blake2b_256` on-chain,
as a standalone 32-byte byte string. -/
def hashB (m : Bs) : Bs := .dig m .nil

/-- Hashing two byte strings together: `combine(left, right) =
blake2b_256(bytearray.concat(left, right))` (on-chain helpers.ak), identical
to the off-chain `digest(Buffer.concat([l, r]))`. -/
def combine (l r : Bs) : Bs := hashB (l.app r)

/-- NULL_HASH: 32 zero bytes, the conventional hash of an empty (sub-)trie. -/
def nullHash : Bs := bs (List.replicate 32 0)

-- -----------------------------------------------------------------------------
-- Byte packing (Buffer.from(hex) / hex nibbles of a byte array)
-- -----------------------------------------------------------------------------

/-- Packing a hex string (list of nibbles) into bytes, two nibbles per byte:
`Buffer.from(str, 'hex')`.  A trailing incomplete digit is dropped, as
Buffer.from does. -/
def pack : List Nat → List Nat
  | a :: b :: r => (16 * a + b) :: pack r
  | _ => []

/-- Hex nibbles of a byte array: `buffer.toString('hex')` viewed as a list of
nibble values. -/
def unpack : List Nat → List Nat
  | [] => []
  | b :: r => b / 16 :: b % 16 :: unpack r

-- -----------------------------------------------------------------------------
-- Merkle roots of child vectors (off-chain helpers: merkleRoot, merkleProof)
-- -----------------------------------------------------------------------------

/-- One pass of the off-chain `merkleRoot` loop: combine adjacent pairs.
The source loop (`for (let i = 0; 2*i < n; i++) nodes.push(digest(concat(
nodes.splice(0,2))))`) does exactly this for the even-sized inputs enforced
by its assertions (sizes 16, 8, 4, 2). -/
def merklePass : List Bs → List Bs
  | a :: b :: r => combine a b :: merklePass r
  | l => l

/-- The off-chain `merkleRoot` do/while loop, with an explicit fuel so that
the definition is structurally recursive; `merkleRoot` supplies fuel equal
to the list length, which always suffices since each pass halves the
length.  An empty input is never produced by the sources (the source
asserts the length). -/
def merkleRootGo : Nat → List Bs → Bs
  | _, [a] => a
  | fuel + 1, a :: b :: r => merkleRootGo fuel (merklePass (a :: b :: r))
  | _, _ => nullHash

/-- Merkle root of a vector of child hashes (off-chain helpers `merkleRoot`,
restricted to inputs that are already hashes; callers map children through
`childHash` first, mirroring `x?.hash ?? x ?? NULL_HASH`). -/
def merkleRoot (l : List Bs) : Bs := merkleRootGo l.length l

/-- Loop body of `Branch.merkleProof` (off-chain): starting from
`pivot = 8, n = 8`, push the Merkle root of the `n`-sized half opposite to
`me`, then halve.  The source's do/while runs for `n = 8, 4, 2, 1`; the
first argument counts the remaining iterations (4 at top level). -/
def merkleProofGo (nodes : List Bs) (me : Nat) : Nat → Nat → Nat → List Bs
  | 0, _, _ => []
  | fuel + 1, pivot, n =>
    if n = 0 then []
    else if me < pivot then
      merkleRoot ((nodes.drop pivot).take n) ::
        merkleProofGo nodes me fuel (pivot - n / 2) (n / 2)
    else
      merkleRoot ((nodes.drop (pivot - n)).take n) ::
        merkleProofGo nodes me fuel (pivot + n / 2) (n / 2)

/-- `Branch.merkleProof(nodes, me)` (off-chain): the four sparse-Merkle
neighbors of child `me` among 16 children. -/
def merkleProof (nodes : List Bs) (me : Nat) : List Bs :=
  merkleProofGo nodes me 4 8 8

-- -----------------------------------------------------------------------------
-- On-chain merkling.ak
-- -----------------------------------------------------------------------------

/-- null_hash_2 = combine(null_hash, null_hash) (merkling.ak). -/
def null_hash_2 : Bs := combine nullHash nullHash

/-- null_hash_4 = combine(null_hash_2, null_hash_2) (merkling.ak). -/
def null_hash_4 : Bs := combine null_hash_2 null_hash_2

/-- null_hash_8 = combine(null_hash_4, null_hash_4) (merkling.ak). -/
def null_hash_8 : Bs := combine null_hash_4 null_hash_4

/-- merkle_4 from merkling.ak. -/
def merkle_4 (branch : Nat) (root neighbor_2 neighbor_1 : Bs) : Bs :=
  if branch ≤ 1 then
    combine
      (if branch = 0 then combine root neighbor_1 else combine neighbor_1 root)
      neighbor_2
  else
    combine neighbor_2
      (if branch = 2 then combine root neighbor_1 else combine neighbor_1 root)

/-- merkle_8 from merkling.ak. -/
def merkle_8 (branch : Nat) (root neighbor_4 neighbor_2 neighbor_1 : Bs) : Bs :=
  if branch ≤ 3 then
    combine (merkle_4 branch root neighbor_2 neighbor_1) neighbor_4
  else
    combine neighbor_4 (merkle_4 (branch - 4) root neighbor_2 neighbor_1)

/-- merkle_16 from merkling.ak. -/
def merkle_16 (branch : Nat)
    (root neighbor_8 neighbor_4 neighbor_2 neighbor_1 : Bs) : Bs :=
  if branch ≤ 7 then
    combine (merkle_8 branch root neighbor_4 neighbor_2 neighbor_1) neighbor_8
  else
    combine neighbor_8 (merkle_8 (branch - 8) root neighbor_4 neighbor_2 neighbor_1)

/-- sparse_merkle_4 from merkling.ak. -/
def sparse_merkle_4 (me : Nat) (me_hash : Bs) (neighbor : Nat)
    (neighbor_hash : Bs) : Bs :=
  let combine_me : Bs → Bs :=
    if me % 2 = 0 then fun x => combine me_hash x else fun x => combine x me_hash
  let combine_neighbor : Bs → Bs :=
    if neighbor % 2 = 0 then fun x => combine neighbor_hash x
    else fun x => combine x neighbor_hash
  if me ≤ 1 then
    if neighbor ≤ 1 then
      combine (combine_me neighbor_hash) null_hash_2
    else
      combine (combine_me nullHash) (combine_neighbor nullHash)
  else
    if neighbor ≥ 2 then
      combine null_hash_2 (combine_me neighbor_hash)
    else
      combine (combine_neighbor nullHash) (combine_me nullHash)

/-- sparse_merkle_8 from merkling.ak. -/
def sparse_merkle_8 (me : Nat) (me_hash : Bs) (neighbor : Nat)
    (neighbor_hash : Bs) : Bs :=
  if me ≤ 3 then
    if neighbor ≤ 3 then
      combine (sparse_merkle_4 me me_hash neighbor neighbor_hash) null_hash_4
    else
      combine (merkle_4 me me_hash null_hash_2 nullHash)
        (merkle_4 (neighbor - 4) neighbor_hash null_hash_2 nullHash)
  else
    if neighbor ≥ 4 then
      combine null_hash_4
        (sparse_merkle_4 (me - 4) me_hash (neighbor - 4) neighbor_hash)
    else
      combine (merkle_4 neighbor neighbor_hash null_hash_2 nullHash)
        (merkle_4 (me - 4) me_hash null_hash_2 nullHash)

/-- sparse_merkle_16 from merkling.ak. -/
def sparse_merkle_16 (me : Nat) (me_hash : Bs) (neighbor : Nat)
    (neighbor_hash : Bs) : Bs :=
  if me ≤ 7 then
    if neighbor ≤ 7 then
      combine (sparse_merkle_8 me me_hash neighbor neighbor_hash) null_hash_8
    else
      combine (merkle_8 me me_hash null_hash_4 null_hash_2 nullHash)
        (merkle_8 (neighbor - 8) neighbor_hash null_hash_4 null_hash_2 nullHash)
  else
    if neighbor ≥ 8 then
      combine null_hash_8
        (sparse_merkle_8 (me - 8) me_hash (neighbor - 8) neighbor_hash)
    else
      combine (merkle_8 neighbor neighbor_hash null_hash_4 null_hash_2 nullHash)
        (merkle_8 (me - 8) me_hash null_hash_4 null_hash_2 nullHash)

/-- Vector of 16 child hashes holding `x` at index `i`, `y` at index `j`,
and NULL_HASH everywhere else. -/
def sparseSlots (i : Nat) (x : Bs) (j : Nat) (y : Bs) : List Bs :=
  (List.range 16).map fun k => if k = i then x else if k = j then y else nullHash

/-- The 16-case reconstruction table inside the off-chain `Proof.verify`
BRANCH step, where `h(l, r) = digest(concat(l ?? NULL_HASH, r ?? NULL_HASH))`
and callers resolve a missing `me` to NULL_HASH before entry.  The catch-all
arm is unreachable: the verifier only reaches the table with a nibble in
0..15 (otherwise the JS object lookup yields undefined and the subsequent
digest-length assertion throws). -/
def merkleTable (nib : Nat) (me lvl1 lvl2 lvl3 lvl4 : Bs) : Bs :=
  match nib with
  | 0 => combine (combine (combine (combine me lvl4) lvl3) lvl2) lvl1
  | 1 => combine (combine (combine (combine lvl4 me) lvl3) lvl2) lvl1
  | 2 => combine (combine (combine lvl3 (combine me lvl4)) lvl2) lvl1
  | 3 => combine (combine (combine lvl3 (combine lvl4 me)) lvl2) lvl1
  | 4 => combine (combine lvl2 (combine (combine me lvl4) lvl3)) lvl1
  | 5 => combine (combine lvl2 (combine (combine lvl4 me) lvl3)) lvl1
  | 6 => combine (combine lvl2 (combine lvl3 (combine me lvl4))) lvl1
  | 7 => combine (combine lvl2 (combine lvl3 (combine lvl4 me))) lvl1
  | 8 => combine lvl1 (combine (combine (combine me lvl4) lvl3) lvl2)
  | 9 => combine lvl1 (combine (combine (combine lvl4 me) lvl3) lvl2)
  | 10 => combine lvl1 (combine (combine lvl3 (combine me lvl4)) lvl2)
  | 11 => combine lvl1 (combine (combine lvl3 (combine lvl4 me)) lvl2)
  | 12 => combine lvl1 (combine lvl2 (combine (combine me lvl4) lvl3))
  | 13 => combine lvl1 (combine lvl2 (combine (combine lvl4 me) lvl3))
  | 14 => combine lvl1 (combine lvl2 (combine lvl3 (combine me lvl4)))
  | 15 => combine lvl1 (combine lvl2 (combine lvl3 (combine lvl4 me)))
  | _ => nullHash

-- -----------------------------------------------------------------------------
-- On-chain helpers.ak: nibble, nibbles, suffix
-- -----------------------------------------------------------------------------

/-- `nibble(self, index)` from the on-chain helpers: upper or lower 4 bits of
byte `index / 2`.  Out-of-range access is modelled with default byte 0; the
Aiken `bytearray.at` fails there, and theorems only use in-range indices. -/
def nibble (p : List Nat) (i : Nat) : Nat :=
  if i % 2 = 0 then p.getD (i / 2) 0 / 16 else p.getD (i / 2) 0 % 16

/-- `nibbles(path, start, end)` from the on-chain helpers: one byte per
nibble of the path between the two positions.  Written with `List.range` so
the definition is structural; `nibbles_eq_cons` recovers the source's
recursion `nibbles p s e = push (nibbles p (s+1) e) (nibble p s)`. -/
def nibbles (p : List Nat) (s e : Nat) : List Nat :=
  (List.range (e - s)).map fun k => nibble p (s + k)

/-- `suffix(path, cursor)` from the on-chain helpers: the leaf suffix byte
encoding.  Even cursor: 0xFF then the bytes from `cursor / 2`; odd cursor:
0x00, then the single nibble at `cursor`, then the bytes from
`(cursor + 1) / 2`. -/
def suffix (p : List Nat) (c : Nat) : List Nat :=
  if c % 2 = 0 then 255 :: p.drop (c / 2)
  else 0 :: nibble p c :: p.drop ((c + 1) / 2)

-- -----------------------------------------------------------------------------
-- Off-chain hashing (Leaf.computeHash, Branch.computeHash)
-- -----------------------------------------------------------------------------

/-- Suffix byte encoding used inside the off-chain `Leaf.computeHash`: for an
odd-length nibble string, 0x00, then the first nibble as one byte, then the
remaining nibbles packed two per byte; for an even length, 0xFF and the
nibbles packed two per byte. -/
def leafSuffixBytes (suf : List Nat) : List Nat :=
  if suf.length % 2 = 1 then 0 :: suf.headD 0 :: pack (suf.drop 1)
  else 255 :: pack suf

/-- `Leaf.computeHash(prefix, value)` (off-chain, part_006): hash of the
suffix encoding followed by the 32-byte value digest. -/
def Leaf_computeHash (suf : List Nat) (valueHash : Bs) : Bs :=
  hashB ((bs (leafSuffixBytes suf)).app valueHash)

/-- `Branch.computeHash(prefix, root)` (off-chain): hash of the prefix as
one byte per nibble followed by the 32-byte Merkle root of the children. -/
def Branch_computeHash (pfx : List Nat) (root : Bs) : Bs :=
  hashB ((bs pfx).app root)

-- -----------------------------------------------------------------------------
-- Concrete example data used by counterexamples and witnesses
-- -----------------------------------------------------------------------------

/-- Sixteen pairwise distinct child hashes, used to exhibit the ordering of
`merkleProof`. -/
def exChildren : List Bs := (List.range 16).map fun i => hashB (bs [i])

-- -----------------------------------------------------------------------------
-- The off-chain trie (lib/index.js: Trie / Leaf / Branch)
-- -----------------------------------------------------------------------------

/-- Trie nodes.  `leaf suf full v` models a JS `Leaf` whose `prefix` (the
remaining suffix of the key's path) is `suf`, whose key hashes to the
64-nibble path `full` (the code only ever uses the key through
`intoPath(key)` and through equality, and `intoPath` is injective under the
collision-resistance idealisation, so the path stands for the key), and
whose serialised value is `v`.  `branch pfx cs` models a JS `Branch` with
its 16-slot children vector (`undefined` = `none`). -/
inductive Trie : Type where
  | empty : Trie
  | leaf : List Nat → List Nat → Bs → Trie
  | branch : List Nat → List (Option Trie) → Trie

mutual

/-- Node hash: NULL_HASH for the empty trie (the convention used by
`save`, by the non-persistent engine and by the spec; the persistent
engine's in-memory `null` is serialised as NULL_HASH), `Leaf.computeHash`
for leaves, `Branch.computeHash` of the children's Merkle root for
branches. -/
def trieHash : Trie → Bs
  | .empty => nullHash
  | .leaf suf _ v => Leaf_computeHash suf (hashB v)
  | .branch pfx cs => Branch_computeHash pfx (merkleRoot (childHashes cs))

/-- Hashes of a children vector, mirroring `merkleRoot`'s input mapping
`x?.hash ?? x ?? NULL_HASH`. -/
def childHashes : List (Option Trie) → List Bs
  | [] => []
  | none :: r => nullHash :: childHashes r
  | some t :: r => trieHash t :: childHashes r

end

/-- Hash of an optional child (`x?.hash ?? NULL_HASH`). -/
def childHash : Option Trie → Bs
  | none => nullHash
  | some t => trieHash t

mutual

/-- Number of leaves of a trie (the `size` field). -/
def sizeT : Trie → Nat
  | .empty => 0
  | .leaf _ _ _ => 1
  | .branch _ cs => sizeL cs

/-- Total size of a children vector. -/
def sizeL : List (Option Trie) → Nat
  | [] => 0
  | none :: r => sizeL r
  | some t :: r => sizeT t + sizeL r

end

mutual

/-- The key/value bindings stored in a trie, as (full path, value) pairs. -/
def binds : Trie → List (List Nat × Bs)
  | .empty => []
  | .leaf _ full v => [(full, v)]
  | .branch _ cs => bindsL cs

/-- Bindings of a children vector, in slot order. -/
def bindsL : List (Option Trie) → List (List Nat × Bs)
  | [] => []
  | none :: r => bindsL r
  | some t :: r => binds t ++ bindsL r

end

/-- Longest common prefix of two nibble strings: the net effect of one step
of the helpers' `commonPrefix` fold (truncate the accumulated prefix to the
word's length, then cut at the first mismatch). -/
def cp2 : List Nat → List Nat → List Nat
  | a :: as_, b :: bs_ => if a = b then a :: cp2 as_ bs_ else []
  | _, _ => []

/-- `commonPrefix(words)` from the off-chain helpers: fold the pairwise
common prefix over the list.  The source asserts the list is non-empty; the
empty case returns `[]` and is never reached. -/
def commonPrefixL : List (List Nat) → List Nat
  | [] => []
  | w :: ws => ws.foldl cp2 w

/-- `sparseVector` applied to a two-entry map `{i: x, j: y}` of sub-tries:
a 16-slot vector with `undefined` in the other slots.  The callers always
supply `i ≠ j` (two JS object keys). -/
def vec2 (i : Nat) (x : Trie) (j : Nat) (y : Trie) : List (Option Trie) :=
  (List.range 16).map fun k =>
    if k = i then some x else if k = j then some y else none

/-- Number of populated slots of a children vector. -/
def countSome (cs : List (Option Trie)) : Nat :=
  (cs.filter fun c => c.isSome).length

/-- Populated children together with their slot indices, starting the index
count at `s`. -/
def someChildrenGo : Nat → List (Option Trie) → List (Trie × Nat)
  | _, [] => []
  | s, none :: r => someChildrenGo (s + 1) r
  | s, some t :: r => (t, s) :: someChildrenGo (s + 1) r

/-- Populated children together with their slot indices
(`children.flatMap((n, ix) => n === undefined ? [] : [[n, ix]])`). -/
def someChildren (cs : List (Option Trie)) : List (Trie × Nat) :=
  someChildrenGo 0 cs

/-- `insert` (off-chain): the walk of `Branch.insert` together with
`Leaf.insert` and the empty-trie `Trie.insert`.  Arguments: the node, the
remaining path at this node, the full 64-nibble path of the key, and the
value.  `none` models the thrown assertion errors: element already in the
trie, empty leaf prefix, nibble collisions, and the `sparseVector` /
child-indexing assertions (the latter can only fire on paths shorter than
the trie is deep, which cannot happen for 64-nibble paths). -/
def insertGo (t : Trie) (rest full : List Nat) (v : Bs) : Option Trie :=
  match t with
  | .empty => some (.leaf full full v)
  | .leaf suf0 full0 v0 =>
    if suf0.length = 0 then none
    else
      let newPath := full.drop (full.length - suf0.length)
      if suf0 = newPath then none
      else
        let c := cp2 suf0 newPath
        let thisNib := suf0.getD c.length 16
        let newNib := newPath.getD c.length 16
        if thisNib = newNib then none
        else if 16 ≤ thisNib ∨ 16 ≤ newNib then none
        else
          some (.branch c
            (vec2 thisNib (.leaf (suf0.drop (c.length + 1)) full0 v0)
              newNib (.leaf (newPath.drop (c.length + 1)) full v)))
  | .branch pfx cs =>
    -- source: `node.prefix.length > 0 ? commonPrefix([node.prefix, path]) : ''`;
    -- since `cp2 [] path = []`, the empty-prefix special case is the same value
    let c := cp2 pfx rest
    let rest' := rest.drop c.length
    let thisNib := rest'.headD 16
    if c.length < pfx.length then
      let newNib := (pfx.drop c.length).headD 16
      if thisNib = newNib then none
      else if 16 ≤ thisNib ∨ 16 ≤ newNib then none
      else
        some (.branch c
          (vec2 thisNib (.leaf (rest'.drop 1) full v)
            newNib (.branch (pfx.drop (c.length + 1)) cs)))
    else
      if thisNib < 16 then
        match hch : cs.getD thisNib none with
        | none =>
          some (.branch pfx (cs.set thisNib (some (.leaf (rest'.drop 1) full v))))
        | some ch =>
          match insertGo ch (rest'.drop 1) full v with
          | none => none
          | some ch' => some (.branch pfx (cs.set thisNib (some ch')))
      else none
termination_by sizeOf t
decreasing_by
  have hlt : thisNib < cs.length := by
    by_contra hge
    rw [List.getD_eq_default _ _ (Nat.le_of_not_lt hge)] at hch
    exact Option.noConfusion hch
  have hmem : some ch ∈ cs := by
    rw [List.getD_eq_getElem _ _ hlt] at hch
    exact hch ▸ List.getElem_mem hlt
  have h1 : sizeOf (some ch) < sizeOf cs := List.sizeOf_lt_of_mem hmem
  simp only [Option.some.sizeOf_spec] at h1
  simp only [Trie.branch.sizeOf_spec]
  omega

/-- `trie.insert(key, value)` at the root (path = full path of the key). -/
def insertFn (t : Trie) (full : List Nat) (v : Bs) : Option Trie :=
  insertGo t full full v

/-- Folding `insert` over a list of (path, value) pairs, starting from a
given trie. -/
def insertList (t : Trie) (l : List (List Nat × Bs)) : Option Trie :=
  l.foldlM (fun acc kv => insertFn acc kv.1 kv.2) t

/-- The recursion of `Branch.delete` / `Leaf.delete`: returns `some none`
when the node itself disappears (a deleted leaf), `some (some t')` for a
modified node (with single-child branches collapsed into their unique
child), and `none` for the thrown errors (key not in trie). -/
def deleteGo (t : Trie) (p full : List Nat) : Option (Option Trie) :=
  match t with
  | .empty => none
  | .leaf _ full0 _ => if full0 = full then some none else none
  | .branch pfx cs =>
    let cursor := pfx.length
    let nib := p.getD cursor 16
    if nib < 16 then
      match hch : cs.getD nib none with
      | none => none
      | some child =>
        match deleteGo child (p.drop (cursor + 1)) full with
        | none => none
        | some r =>
          let cs' := cs.set nib r
          match someChildren cs' with
          | [(n, ixn)] =>
            match n with
            | .leaf nsuf nfull nv => some (some (.leaf (pfx ++ ixn :: nsuf) nfull nv))
            | .branch npfx ncs => some (some (.branch (pfx ++ ixn :: npfx) ncs))
            | .empty => none
          | _ => some (some (.branch pfx cs'))
    else none
termination_by sizeOf t
decreasing_by
  have hlt : nib < cs.length := by
    by_contra hge
    rw [List.getD_eq_default _ _ (Nat.le_of_not_lt hge)] at hch
    exact Option.noConfusion hch
  have hmem : some child ∈ cs := by
    rw [List.getD_eq_getElem _ _ hlt] at hch
    exact hch ▸ List.getElem_mem hlt
  have h1 : sizeOf (some child) < sizeOf cs := List.sizeOf_lt_of_mem hmem
  simp only [Option.some.sizeOf_spec] at h1
  simp only [Trie.branch.sizeOf_spec]
  omega

/-- `trie.delete(key)` at the root: a deleted leaf root leaves the empty
trie (`Leaf.delete` does `into(Trie)`). -/
def deleteFn (t : Trie) (full : List Nat) : Option Trie :=
  match deleteGo t full full with
  | none => none
  | some none => some .empty
  | some (some t') => some t'

-- -----------------------------------------------------------------------------
-- Off-chain proofs (Proof: rewind, verify)
-- -----------------------------------------------------------------------------

/-- Proof steps, as recorded by `Proof.rewind`: a Branch step stores the
four `merkleProof` neighbors; a Fork step the neighbor's slot nibble, its
prefix (as nibbles) and the Merkle root of its children; a Leaf step the
neighbor leaf's full 64-nibble path and its value digest. -/
inductive Step : Type where
  | branch : Nat → List Bs → Step
  | fork : Nat → Nat → List Nat → Bs → Step
  | leaf : Nat → List Nat → Bs → Step
deriving DecidableEq

/-- Skip field of a step (the length of the prefix consumed at its level). -/
def Step.skipOf : Step → Nat
  | .branch s _ => s
  | .fork s _ _ _ => s
  | .leaf s _ _ => s

/-- An off-chain `Proof`: the target's 64-nibble path, the optional value,
and the steps from the root down. -/
structure PF : Type where
  path : List Nat
  val : Option Bs
  steps : List Step
deriving DecidableEq

/-- One call of `Proof.rewind(target, skip, children)`: locate `me` as the
first slot whose hash equals the target's hash, and record a Leaf / Fork /
Branch step depending on the number of other populated slots.  `none`
models the `me !== -1` assertion and the crash on an empty-trie neighbor
(which `Branch` never stores). -/
def rewindStep (target : Trie) (skip : Nat) (cs : List (Option Trie)) :
    Option Step :=
  let me := cs.findIdx fun c => childHash c == trieHash target
  if me < cs.length then
    match (someChildren cs).filter fun q => q.2 != me with
    | [(n, ixn)] =>
      match n with
      | .leaf _ nfull nv => some (.leaf skip nfull (hashB nv))
      | .branch npfx ncs => some (.fork skip ixn npfx (merkleRoot (childHashes ncs)))
      | .empty => none
    | _ => some (.branch skip (merkleProof (childHashes cs) me))
  else none

/-- `walk(path)` (off-chain): descend the trie along the remaining path,
building the proof bottom-up through `rewind`.  `none` models the thrown
assertions (non-matching prefix, missing child, walking an empty trie). -/
def walkGo (t : Trie) (p : List Nat) : Option PF :=
  match t with
  | .empty => none
  | .leaf suf full v =>
    if suf.isPrefixOf p then some ⟨full, if p = suf then some v else none, []⟩
    else none
  | .branch pfx cs =>
    if pfx.isPrefixOf p then
      let rest := p.drop pfx.length
      let b := rest.headD 16
      if b < 16 then
        match hch : cs.getD b none with
        | none => none
        | some child =>
          match walkGo child (rest.drop 1) with
          | none => none
          | some pf =>
            match rewindStep child pfx.length cs with
            | none => none
            | some st => some ⟨pf.path, pf.val, st :: pf.steps⟩
      else none
    else none
termination_by sizeOf t
decreasing_by
  have hlt : b < cs.length := by
    by_contra hge
    rw [List.getD_eq_default _ _ (Nat.le_of_not_lt hge)] at hch
    exact Option.noConfusion hch
  have hmem : some child ∈ cs := by
    rw [List.getD_eq_getElem _ _ hlt] at hch
    exact hch ▸ List.getElem_mem hlt
  have h1 : sizeOf (some child) < sizeOf cs := List.sizeOf_lt_of_mem hmem
  simp only [Option.some.sizeOf_spec] at h1
  simp only [Trie.branch.sizeOf_spec]
  omega

/-- `trie.prove(key)`: walk from the root with the key's full path. -/
def proveFn (t : Trie) (full : List Nat) : Option PF := walkGo t full

/-- The recursion inside the off-chain `Proof.verify` (part_006, the current
engine): processes the steps left to right with a nibble cursor.  The outer
`Option` models thrown assertion errors; the inner `Option` models the JS
`undefined` returned (as a value, not an exception) past the last step in
excluding mode. -/
def verifyGo (path : List Nat) (value : Option Bs) (incl : Bool)
    (cursor : Nat) : List Step → Option (Option Bs)
  | [] =>
    if incl then
      match value with
      | none => none
      | some v => some (some (Leaf_computeHash (path.drop cursor) (hashB v)))
    else some none
  | st :: rest =>
    let isLast := rest.isEmpty
    let nextCursor := cursor + 1 + st.skipOf
    match verifyGo path value incl nextCursor rest with
    | none => none
    | some me? =>
      let me := me?.getD nullHash
      let thisNib := path.getD (nextCursor - 1) 16
      match st with
      | .branch _ ns =>
        if thisNib < 16 then
          some (some (Branch_computeHash
            ((path.drop cursor).take (nextCursor - 1 - cursor))
            (merkleTable thisNib me (ns.getD 0 nullHash) (ns.getD 1 nullHash)
              (ns.getD 2 nullHash) (ns.getD 3 nullHash))))
        else none
      | .fork skip nib pfxN rt =>
        if ¬incl ∧ isLast = true then
          if skip = 0 then some (some (hashB ((bs (nib :: pfxN)).app rt)))
          else
            some (some (hashB
              ((bs (((path.drop cursor).take skip) ++ nib :: pfxN)).app rt)))
        else
          if nib = thisNib then none
          else if thisNib < 16 ∧ nib < 16 then
            some (some (Branch_computeHash
              ((path.drop cursor).take (nextCursor - 1 - cursor))
              (merkleRoot (sparseSlots thisNib me nib
                (hashB ((bs pfxN).app rt))))))
          else none
      | .leaf _ nkey nval =>
        if nkey.take cursor = path.take cursor then
          let nNib := nkey.getD (nextCursor - 1) 16
          if nNib = thisNib then none
          else if ¬incl ∧ isLast = true then
            some (some (Leaf_computeHash (nkey.drop cursor) nval))
          else if thisNib < 16 ∧ nNib < 16 then
            some (some (Branch_computeHash
              ((path.drop cursor).take (nextCursor - 1 - cursor))
              (merkleRoot (sparseSlots thisNib me nNib
                (Leaf_computeHash (nkey.drop nextCursor) nval)))))
          else none
        else none

/-- `proof.verify(includingItem)`: the hash it computes, or `none` when the
source throws or returns `undefined` (which happens exactly on an empty
step list in excluding mode). -/
def verify (pf : PF) (incl : Bool) : Option Bs :=
  match verifyGo pf.path pf.val incl 0 pf.steps with
  | some (some h) => some h
  | _ => none

-- -----------------------------------------------------------------------------
-- On-chain verifier (merkle_patricia_forestry.ak, as printed in the
-- on-chain README)
-- -----------------------------------------------------------------------------

/-- On-chain proof steps.  A Branch step's `neighbors` is a 128-byte
bytearray that `do_branch` slices at offsets 0, 32, 64, 96; the four
32-byte slices are modelled as four fields.  A Fork step carries a
`Neighbor { nibble, prefix, root }`; a Leaf step the neighbor's 32-byte
key (path) and 32-byte value digest. -/
inductive OStep : Type where
  | branch : Nat → Bs → Bs → Bs → Bs → OStep
  | fork : Nat → Nat → List Nat → Bs → OStep
  | leaf : Nat → List Nat → Bs → OStep
deriving DecidableEq

/-- do_branch from the on-chain module. -/
def do_branch (path : List Nat) (cursor next_cursor : Nat) (root : Bs)
    (n8 n4 n2 n1 : Bs) : Bs :=
  let branch := nibble path next_cursor
  let pfx := nibbles path cursor next_cursor
  combine (bs pfx) (merkle_16 branch root n8 n4 n2 n1)

/-- do_fork from the on-chain module; `none` models the failed
`expect branch != neighbor.nibble`. -/
def do_fork (path : List Nat) (cursor next_cursor : Nat) (root : Bs)
    (nib : Nat) (npfx : List Nat) (nroot : Bs) : Option Bs :=
  let branch := nibble path next_cursor
  let pfx := nibbles path cursor next_cursor
  if branch = nib then none
  else some (combine (bs pfx)
    (sparse_merkle_16 branch root nib (combine (bs npfx) nroot)))

/-- do_including from the on-chain module. -/
def do_including (path : List Nat) (value : Bs) (cursor : Nat) :
    List OStep → Option Bs
  | [] => some (combine (bs (suffix path cursor)) value)
  | .branch skip n8 n4 n2 n1 :: steps =>
    let next_cursor := cursor + skip
    (do_including path value (next_cursor + 1) steps).map fun root =>
      do_branch path cursor next_cursor root n8 n4 n2 n1
  | .fork skip nib npfx nroot :: steps =>
    let next_cursor := cursor + skip
    (do_including path value (next_cursor + 1) steps).bind fun root =>
      do_fork path cursor next_cursor root nib npfx nroot
  | .leaf skip key nvalue :: steps =>
    let next_cursor := cursor + skip
    (do_including path value (next_cursor + 1) steps).bind fun root =>
      do_fork path cursor next_cursor root (nibble key next_cursor)
        (suffix key (next_cursor + 1)) nvalue

/-- do_excluding from the on-chain module, v2.1.0: the terminal Fork case
takes the `skip` prefix nibbles from the caller's path. -/
def do_excluding (path : List Nat) (cursor : Nat) : List OStep → Option Bs
  | [] => some nullHash
  | .branch skip n8 n4 n2 n1 :: steps =>
    let next_cursor := cursor + skip
    (do_excluding path (next_cursor + 1) steps).map fun root =>
      do_branch path cursor next_cursor root n8 n4 n2 n1
  | [.fork skip nib npfx nroot] =>
    let neighbor_prefix := nib :: npfx
    let pfx :=
      if skip = 0 then neighbor_prefix
      else nibbles path cursor (cursor + skip) ++ neighbor_prefix
    some (combine (bs pfx) nroot)
  | .fork skip nib npfx nroot :: steps =>
    let next_cursor := cursor + skip
    (do_excluding path (next_cursor + 1) steps).bind fun root =>
      do_fork path cursor next_cursor root nib npfx nroot
  | [.leaf _ key nvalue] => some (combine (bs (suffix key cursor)) nvalue)
  | .leaf skip key nvalue :: steps =>
    let next_cursor := cursor + skip
    (do_excluding path (next_cursor + 1) steps).bind fun root =>
      do_fork path cursor next_cursor root (nibble key next_cursor)
        (suffix key (next_cursor + 1)) nvalue

/-- On-chain `including(key, value, proof)`, with the key replaced by its
path `blake2b_256(key)` and the value pre-hashed (symbolic digests have no
extractable nibbles, and the function only uses the hashes). -/
def including (path : List Nat) (valueHash : Bs) (proof : List OStep) :
    Option Bs :=
  do_including path valueHash 0 proof

/-- On-chain `excluding(key, proof)`, with the key replaced by its path. -/
def excluding (path : List Nat) (proof : List OStep) : Option Bs :=
  do_excluding path 0 proof

/-- On-chain `has(self, key, value, proof)`: the recomputed inclusion root
equals the trie root (an `expect` failure inside the computation fails the
transaction; it is modelled as a non-match). -/
def hasFn (root : Bs) (path : List Nat) (valueHash : Bs)
    (proof : List OStep) : Bool :=
  including path valueHash proof == some root

/-- On-chain `miss(self, key, proof)`. -/
def missFn (root : Bs) (path : List Nat) (proof : List OStep) : Bool :=
  excluding path proof == some root

/-- On-chain `insert(self, key, value, proof)`: expect the exclusion root
to match, then return the inclusion root; `none` models a failed
transaction. -/
def onInsert (root : Bs) (path : List Nat) (valueHash : Bs)
    (proof : List OStep) : Option Bs :=
  (excluding path proof).bind fun e =>
    if e = root then including path valueHash proof else none

/-- Wire conversion of an off-chain step to the on-chain step it decodes
to: the Branch neighbors are concatenated (toCBOR/toJSON) and re-sliced by
the on-chain `do_branch` into four 32-byte lanes; the Leaf neighbor's hex
key becomes a 32-byte bytearray. -/
def toOn : Step → OStep
  | .branch s ns =>
    .branch s (ns.getD 0 nullHash) (ns.getD 1 nullHash) (ns.getD 2 nullHash)
      (ns.getD 3 nullHash)
  | .fork s nib pfx rt => .fork s nib pfx rt
  | .leaf s key val => .leaf s (pack key) val

-- -----------------------------------------------------------------------------
-- Well-formedness
-- -----------------------------------------------------------------------------

/-- Valid 64-nibble paths. -/
def pathOK (p : List Nat) : Prop := p.length = 64 ∧ ∀ x ∈ p, x < 16

/-- Structural well-formedness of a trie hanging below the consumed nibble
string `pre`: leaves carry exactly the rest of their 64-nibble path;
branches have 16 slots, at least two populated, and well-formed non-empty
children. -/
inductive WFS : List Nat → Trie → Prop where
  | leaf : ∀ pre suf v, (∀ x ∈ pre ++ suf, x < 16) →
      (pre ++ suf).length = 64 → WFS pre (.leaf suf (pre ++ suf) v)
  | branch : ∀ pre pfx cs, cs.length = 16 → (∀ x ∈ pfx, x < 16) →
      2 ≤ countSome cs →
      (∀ i t, cs.getD i none = some t → t ≠ .empty) →
      (∀ i t, cs.getD i none = some t → WFS (pre ++ pfx ++ [i]) t) →
      WFS pre (.branch pfx cs)

/-- Sibling hash-distinctness, recursively: no two populated slots of any
branch hold sub-tries with the same hash.  In the real system this holds
except with negligible probability (it would require two blake2b-256
digests related by a structural collision); with symbolic hashes it is the
faithful rendering of that assumption, and it is what makes `rewind`'s
hash-based `findIndex` recover the routing slot. -/
inductive HDist : Trie → Prop where
  | empty : HDist .empty
  | leaf : ∀ suf full v, HDist (.leaf suf full v)
  | branch : ∀ pfx cs,
      (∀ i j ti tj, i ≠ j → cs.getD i none = some ti →
        cs.getD j none = some tj → trieHash ti ≠ trieHash tj) →
      (∀ i t, cs.getD i none = some t → HDist t) →
      HDist (.branch pfx cs)

-- -----------------------------------------------------------------------------
-- Trie.fromList
-- -----------------------------------------------------------------------------

/-- Elements carried by the `fromList` recursion: the remaining path at the
current depth, the full path (standing for the key, see `Trie`), and the
value. -/
structure KV : Type where
  rem : List Nat
  full : List Nat
  val : Bs
deriving DecidableEq

/-- The recursion of `Trie.fromList` with an explicit fuel (the recursion
consumes at least one nibble of every remaining path per level, so fuel 65
suffices for 64-nibble paths; `none` on fuel exhaustion is unreachable from
`fromListFn`).  `none` otherwise models the source assertions: the
`commonPrefix` helper's assert that every word is non-empty (the loop calls
it before the singleton check, so a lone element with an empty remaining
path throws), a stripped element with an empty remaining path, and
`Branch.from`'s requirement of at least two children. -/
def fromLoopF : Nat → List KV → Option Trie
  | _, [] => some .empty
  | _, [kv] =>
    if kv.rem.isEmpty then none
    else some (.leaf (commonPrefixL [kv.rem]) kv.full kv.val)
  | 0, _ => none
  | fuel + 1, kvs =>
    let pfx := commonPrefixL (kvs.map KV.rem)
    let stripped := kvs.map fun kv => { kv with rem := kv.rem.drop pfx.length }
    if stripped.any fun kv => kv.rem.isEmpty then none
    else
      let subs := (List.range 16).map fun d =>
        fromLoopF fuel
          ((stripped.filter fun kv => kv.rem.headD 16 == d).map
            fun kv => { kv with rem := kv.rem.drop 1 })
      match subs.mapM id with
      | none => none
      | some ts =>
        let children := ts.map fun t => if sizeT t = 0 then none else some t
        if 2 ≤ countSome children then some (.branch pfx children) else none

/-- `Trie.fromList(elements)`. -/
def fromListFn (l : List (List Nat × Bs)) : Option Trie :=
  fromLoopF 65 (l.map fun kv => ⟨kv.1, kv.1, kv.2⟩)

-- -----------------------------------------------------------------------------
-- Store model (store.js) for the atomicity claim
-- -----------------------------------------------------------------------------

/-- Store keys: the reserved `__root__` key, or a node hash. -/
inductive DKey : Type where
  | rootK : DKey
  | hashK : Bs → DKey
deriving DecidableEq

/-- Serialised store values (`serialise()` of Leaf and Branch, and the root
hash stored under `__root__`). -/
inductive SBlob : Type where
  | leafB : List Nat → List Nat → Bs → SBlob
  | branchB : List Nat → List (Option Bs) → Nat → SBlob
  | rootB : Bs → SBlob
deriving DecidableEq

/-- Node serialisation (`Leaf.serialise` / `Branch.serialise`); an empty
trie is never stored as a node, only its NULL_HASH root under `__root__`. -/
def serialiseT : Trie → SBlob
  | .empty => .rootB nullHash
  | .leaf suf full v => .leafB suf full v
  | .branch pfx cs => .branchB pfx (cs.map fun c => c.map trieHash) (sizeL cs)

/-- The backing key/value store, as an association list with unique keys
maintained by `dbPut`. -/
def DB : Type := List (DKey × SBlob)

/-- Read a key. -/
def dbGet : DB → DKey → Option SBlob
  | [], _ => none
  | (k', v') :: r, k => if k' = k then some v' else dbGet r k

/-- Write a key (overwriting in place). -/
def dbPut : DB → DKey → SBlob → DB
  | [], k, v => [(k, v)]
  | (k', v') :: r, k, v =>
    if k' = k then (k, v) :: r else (k', v') :: dbPut r k v

/-- `save()` of a node: put its blob under its hash, and, for the root
node, record the root hash under `__root__`. -/
def saveNode (db : DB) (t : Trie) : DB :=
  dbPut (dbPut db (.hashK (trieHash t)) (serialiseT t)) .rootK
    (.rootB (trieHash t))

/-- Store-level behaviour of a top-level `insert` on a Branch root
(part_006 lines 1820-1894 with store.js `batch`): the walk runs inside
`store.batch`; on success the pending operations (`ops`, whose contents no
claim concerns — they are universally quantified) are applied; when the
walk throws, `batch` discards the pending operations, the catch block
re-saves the unmodified root node, and the error propagates.  The result
carries the outcome, the in-memory trie afterwards, and the store
afterwards. -/
def insertTop (db : DB) (t : Trie) (full : List Nat) (v : Bs)
    (ops : List (DKey × SBlob)) : Option Trie × Trie × DB :=
  match insertFn t full v with
  | some t' => (some t', t', ops.foldl (fun d e => dbPut d e.1 e.2) db)
  | none => (none, t, saveNode db t)

-- -----------------------------------------------------------------------------
-- Concrete example paths (witness data)
-- -----------------------------------------------------------------------------

/-- Cursor-accounting of a list of proof steps: the nibble cursor, advanced
by `1 + skip` per step, stays within the 64 nibbles of a path.  Every proof
produced by `walk` on a well-formed trie satisfies this. -/
def stepsB : Nat → List Step → Bool
  | c, [] => c ≤ 64
  | c, st :: r => stepsB (c + 1 + st.skipOf) r

/-- Well-formedness of the data carried by proof steps: a Leaf step's
neighbor key is a valid 64-nibble path.  Every proof produced by `walk` on a
well-formed trie satisfies this. -/
def stepsOK : List Step → Bool
  | [] => true
  | .leaf _ key _ :: r =>
    (key.length == 64 && key.all fun x => x < 16) && stepsOK r
  | _ :: r => stepsOK r

/-- A 64-nibble path of zeros. -/
def exP0 : List Nat := List.replicate 64 0

/-- A 64-nibble path starting with nibble 1. -/
def exP1 : List Nat := 1 :: List.replicate 63 0

/-- A 64-nibble path sharing its first 63 nibbles with `exP0`. -/
def exP2 : List Nat := List.replicate 63 0 ++ [1]

/-- A one-leaf trie holding `exP0`. -/
def exLeaf : Trie := .leaf exP0 exP0 (bs [1])

/-- The leaf under slot 0 of the two-leaf example trie. -/
def exL2 : Trie := .leaf (exP0.drop 1) exP0 (bs [1])

/-- The leaf under slot 1 of the two-leaf example trie. -/
def exL3 : Trie := .leaf (exP1.drop 1) exP1 (bs [2])

/-- A two-leaf trie: the result of inserting `exP1` into `exLeaf`. -/
def exBr : Trie := .branch [] (vec2 0 exL2 1 exL3)

/-- A store holding exactly the saved `exLeaf` root. -/
def exDB : DB :=
  [(.hashK (trieHash exLeaf), serialiseT exLeaf),
   (.rootK, .rootB (trieHash exLeaf))]

-- =============================================================================
-- Theorems
-- =============================================================================

namespace Bs

theorem app_nil (m : Bs) : m.app .nil = m := by
  induction m with
  | nil => rfl
  | byte b m ih => simp [app, ih]
  | dig d m _ ih => simp [app, ih]

theorem app_assoc (a b c : Bs) : (a.app b).app c = a.app (b.app c) := by
  induction a with
  | nil => rfl
  | byte x m ih => simp [app, ih]
  | dig d m _ ih => simp [app, ih]

theorem len_app (a b : Bs) : (a.app b).len = a.len + b.len := by
  induction a with
  | nil => simp [app, len]
  | byte x m ih => simp [app, len, ih]; omega
  | dig d m _ ih => simp [app, len, ih]; omega

theorem app_cancel_left {l a b : Bs} (h : l.app a = l.app b) : a = b := by
  induction l with
  | nil => exact h
  | byte x m ih => exact ih (by simpa [app] using h)
  | dig d m _ ih => exact ih (by simpa [app] using h)

theorem app_cancel_right {a b r : Bs} (h : a.app r = b.app r) : a = b := by
  induction a generalizing b with
  | nil =>
    cases b with
    | nil => rfl
    | byte x m =>
      exfalso
      have := congrArg len h
      simp [app, len_app, len] at this
      omega
    | dig d m =>
      exfalso
      have := congrArg len h
      simp [app, len_app, len] at this
      omega
  | byte x m ih =>
    cases b with
    | nil =>
      exfalso
      have := congrArg len h
      simp [app, len_app, len] at this
      omega
    | byte y n =>
      simp only [app, byte.injEq] at h
      obtain ⟨rfl, h2⟩ := h
      exact congrArg (byte x) (ih h2)
    | dig d n => simp [app] at h
  | dig d m _ ih =>
    cases b with
    | nil =>
      exfalso
      have := congrArg len h
      simp [app, len_app, len] at this
      omega
    | byte y n => simp [app] at h
    | dig e n =>
      simp only [app, dig.injEq] at h
      obtain ⟨rfl, h2⟩ := h
      exact congrArg (dig d) (ih h2)

end Bs

theorem bs_append (a b : List Nat) : bs (a ++ b) = (bs a).app (bs b) := by
  induction a with
  | nil => rfl
  | cons x r ih => simp [bs, Bs.app, ih]

theorem hashB_inj {a b : Bs} (h : hashB a = hashB b) : a = b := by
  simpa [hashB] using h

theorem combine_inj_left {a b r : Bs} (h : combine a r = combine b r) :
    a = b :=
  Bs.app_cancel_right (hashB_inj h)

theorem combine_inj_right {l a b : Bs} (h : combine l a = combine l b) :
    a = b :=
  Bs.app_cancel_left (hashB_inj h)

theorem nullHash_ne_hashB (m : Bs) : nullHash ≠ hashB m := by
  simp [nullHash, hashB, List.replicate, bs]

-- -----------------------------------------------------------------------------
-- C6: sparse_merkle_16 agrees with the full 16-leaf Merkle root
-- -----------------------------------------------------------------------------

set_option maxHeartbeats 2000000 in
theorem sparse16_merkleRoot (me nb : Nat) (hme : me < 16) (hnb : nb < 16)
    (hne : me ≠ nb) (x y : Bs) :
    sparse_merkle_16 me x nb y = merkleRoot (sparseSlots me x nb y) := by
  interval_cases me <;> interval_cases nb <;>
    first
      | exact absurd rfl hne
      | rfl

/-- C6: for all indices `me ≠ neighbor` in 0..15 and all hashes `h_me`,
`h_n`, `sparse_merkle_16 me h_me neighbor h_n` equals the full 16-leaf
binary Merkle root (`merkleRoot`) of the vector holding `h_me` at position
`me`, `h_n` at position `neighbor`, and NULL_HASH in the remaining 14
slots. -/
theorem claim_C6 (me nb : Nat) (hme : me < 16) (hnb : nb < 16)
    (hne : me ≠ nb) (x y : Bs) :
    sparse_merkle_16 me x nb y = merkleRoot (sparseSlots me x nb y) :=
  sparse16_merkleRoot me nb hme hnb hne x y

/-- Witness for C6 at `me = 2`, `neighbor = 11`. -/
theorem claim_C6_witness :
    (2 : Nat) < 16 ∧ (11 : Nat) < 16 ∧ (2 : Nat) ≠ 11 ∧
      sparse_merkle_16 2 (hashB (bs [7])) 11 (hashB (bs [9])) =
        merkleRoot (sparseSlots 2 (hashB (bs [7])) 11 (hashB (bs [9]))) :=
  ⟨by decide, by decide, by decide,
    claim_C6 2 11 (by decide) (by decide) (by decide) _ _⟩

-- -----------------------------------------------------------------------------
-- The verifier's reconstruction table and merkleProof
-- -----------------------------------------------------------------------------

theorem merkleTable_eq_merkle_16 (nib : Nat) (h : nib < 16)
    (me l1 l2 l3 l4 : Bs) :
    merkleTable nib me l1 l2 l3 l4 = merkle_16 nib me l1 l2 l3 l4 := by
  interval_cases nib <;> rfl

theorem exists_sixteen {α : Type} (cs : List α) (h : cs.length = 16) :
    ∃ c0 c1 c2 c3 c4 c5 c6 c7 c8 c9 c10 c11 c12 c13 c14 c15,
      cs = [c0, c1, c2, c3, c4, c5, c6, c7, c8, c9, c10, c11, c12, c13, c14,
        c15] := by
  match cs, h with
  | [c0, c1, c2, c3, c4, c5, c6, c7, c8, c9, c10, c11, c12, c13, c14, c15],
    _ =>
    exact ⟨c0, c1, c2, c3, c4, c5, c6, c7, c8, c9, c10, c11, c12, c13, c14,
      c15, rfl⟩

set_option maxHeartbeats 1000000 in
/-- Reconstruction correctness of the off-chain 16-case table: plugging an
arbitrary hash `x` at position `me` together with the four recorded
neighbors of `merkleProof` yields the Merkle root of the child vector with
slot `me` replaced by `x`. -/
theorem merkleTable_merkleProof (cs : List Bs) (h : cs.length = 16)
    (me : Nat) (hme : me < 16) (x : Bs) :
    merkleTable me x
      ((merkleProof cs me).getD 0 nullHash)
      ((merkleProof cs me).getD 1 nullHash)
      ((merkleProof cs me).getD 2 nullHash)
      ((merkleProof cs me).getD 3 nullHash) =
    merkleRoot (cs.set me x) := by
  obtain ⟨c0, c1, c2, c3, c4, c5, c6, c7, c8, c9, c10, c11, c12, c13, c14,
    c15, rfl⟩ := exists_sixteen cs h
  interval_cases me <;> rfl

-- -----------------------------------------------------------------------------
-- C5: ordering of the four Branch-step neighbors
-- -----------------------------------------------------------------------------

/-- C5 counterexample: with sixteen pairwise distinct children and target
index 0, the bottom-most neighbor is the sibling hash at index 1; the
claimed ordering `[lvl4, lvl3, lvl2, lvl1]` (bottom-most first) would put
it first, but the recorded list puts it last: the first recorded neighbor
is the Merkle root of the opposite 8-leaf half-tree. -/
theorem claim_C5_counterexample :
    (merkleProof exChildren 0).getD 0 nullHash ≠ hashB (bs [1]) ∧
      (merkleProof exChildren 0).getD 3 nullHash = hashB (bs [1]) ∧
      (merkleProof exChildren 0).getD 0 nullHash =
        merkleRoot (exChildren.drop 8) := by
  refine ⟨?_, rfl, rfl⟩
  decide

set_option maxHeartbeats 1000000 in
/-- C5 (amended): for a Branch step the four recorded neighbor hashes are
ordered `[lvl1, lvl2, lvl3, lvl4]` — one per Merkle level, going *down*
from the top-most half-tree to the bottom-most sibling: the first is the
Merkle root of the opposite 8-leaf half, the last is the sibling hash at
index `me XOR 1` — and the verifier reconstructs the 16-leaf Merkle root
from `(nibble, child root)` and the four neighbors under exactly that
ordering via the 16-case table. -/
theorem claim_C5 (cs : List Bs) (h : cs.length = 16) (me : Nat)
    (hme : me < 16) (x : Bs) :
    (merkleProof cs me).getD 3 nullHash = cs.getD (Nat.xor me 1) nullHash ∧
      (merkleProof cs me).getD 0 nullHash =
        merkleRoot (if me ≤ 7 then cs.drop 8 else cs.take 8) ∧
      merkleTable me x
        ((merkleProof cs me).getD 0 nullHash)
        ((merkleProof cs me).getD 1 nullHash)
        ((merkleProof cs me).getD 2 nullHash)
        ((merkleProof cs me).getD 3 nullHash) =
      merkleRoot (cs.set me x) := by
  obtain ⟨c0, c1, c2, c3, c4, c5, c6, c7, c8, c9, c10, c11, c12, c13, c14,
    c15, rfl⟩ := exists_sixteen cs h
  interval_cases me <;> exact ⟨rfl, rfl, rfl⟩

-- -----------------------------------------------------------------------------
-- Packing lemmas and C7
-- -----------------------------------------------------------------------------

theorem pack_unpack (l : List Nat) : pack (unpack l) = l := by
  induction l with
  | nil => rfl
  | cons b r ih =>
    simp only [unpack, pack, ih, List.cons.injEq, and_true]
    omega

theorem unpack_length (l : List Nat) : (unpack l).length = 2 * l.length := by
  induction l with
  | nil => rfl
  | cons b r ih => simp [unpack, ih]; omega

theorem unpack_drop (l : List Nat) (k : Nat) :
    (unpack l).drop (2 * k) = unpack (l.drop k) := by
  induction l generalizing k with
  | nil => simp [unpack]
  | cons b r ih =>
    cases k with
    | zero => simp
    | succ k =>
      have h2 : 2 * (k + 1) = 2 * k + 1 + 1 := by ring
      simp only [unpack, h2, List.drop_succ_cons]
      exact ih k

theorem unpack_drop_odd (l : List Nat) (k : Nat) (hk : k < l.length) :
    (unpack l).drop (2 * k + 1) =
      l.getD k 0 % 16 :: unpack (l.drop (k + 1)) := by
  have h1 : (unpack l).drop (2 * k + 1) = ((unpack l).drop (2 * k)).drop 1 := by
    rw [List.drop_drop]
  rw [h1, unpack_drop]
  rw [List.drop_eq_getElem_cons hk]
  simp [unpack, List.getElem?_eq_getElem hk]

theorem leafSuffix_suffix (pb : List Nat) (c : Nat) (hc : c ≤ 2 * pb.length) :
    leafSuffixBytes ((unpack pb).drop c) = suffix pb c := by
  rcases Nat.even_or_odd c with he | ho
  · obtain ⟨k, rfl⟩ := he
    have hk : k + k = 2 * k := by ring
    rw [hk, unpack_drop]
    have hlen : (unpack (pb.drop k)).length % 2 = 0 := by
      rw [unpack_length]; omega
    have h2 : ¬(unpack (pb.drop k)).length % 2 = 1 := by omega
    have h3 : (2 * k) % 2 = 0 := by omega
    have h4 : 2 * k / 2 = k := by omega
    simp only [leafSuffixBytes, h2, if_false, pack_unpack, suffix, h3,
      if_pos rfl, h4, eq_self_iff_true, if_true]
  · obtain ⟨k, rfl⟩ := ho
    have hk : k < pb.length := by omega
    rw [unpack_drop_odd pb k hk]
    have hlen : (pb.getD k 0 % 16 :: unpack (pb.drop (k + 1))).length % 2
        = 1 := by
      simp [unpack_length]; omega
    have hodd : ¬(2 * k + 1) % 2 = 0 := by omega
    have h1 : nibble pb (2 * k + 1) = pb.getD k 0 % 16 := by
      have e1 : (2 * k + 1) % 2 = 1 := by omega
      have e2 : (2 * k + 1) / 2 = k := by omega
      simp [nibble, e1, e2]
    have h2 : (2 * k + 1 + 1) / 2 = k + 1 := by omega
    simp only [leafSuffixBytes, hlen, if_pos rfl, List.headD_cons,
      List.drop_succ_cons, List.drop_zero, pack_unpack, suffix, hodd,
      if_false, h1, h2, eq_self_iff_true, if_true]

/-- C7: for every path (byte array) and cursor within it, the leaf suffix
encoding is: even cursor — the byte 0xFF, then the path's bytes from byte
`cursor / 2`; odd cursor — the byte 0x00, one byte holding the nibble at
`cursor`, then the bytes from `(cursor + 1) / 2`.  The JavaScript
`Leaf.computeHash` encoding (computed from the hex nibbles of the path)
produces exactly the bytes of the Aiken `suffix`, and the leaf hash is the
digest of this encoding followed by the value's digest. -/
theorem claim_C7 (pb : List Nat) (c : Nat) (hc : c ≤ 2 * pb.length)
    (v : Bs) :
    leafSuffixBytes ((unpack pb).drop c) = suffix pb c ∧
      Leaf_computeHash ((unpack pb).drop c) (hashB v) =
        hashB ((bs (suffix pb c)).app (hashB v)) :=
  ⟨leafSuffix_suffix pb c hc, by
    rw [Leaf_computeHash, leafSuffix_suffix pb c hc]⟩

/-- Witness for C7 at path bytes `[171, 205]`, cursor 1. -/
theorem claim_C7_witness :
    (1 : Nat) ≤ 2 * ([171, 205] : List Nat).length ∧
      (leafSuffixBytes ((unpack [171, 205]).drop 1) = suffix [171, 205] 1 ∧
        Leaf_computeHash ((unpack [171, 205]).drop 1) (hashB Bs.nil) =
          hashB ((bs (suffix [171, 205] 1)).app (hashB Bs.nil))) :=
  ⟨by decide, claim_C7 [171, 205] 1 (by decide) Bs.nil⟩

-- -----------------------------------------------------------------------------
-- C4: terminal Fork step in excluding mode
-- -----------------------------------------------------------------------------

theorem nibbles_nil (p : List Nat) (c : Nat) : nibbles p c c = [] := by
  simp [nibbles]

/-- C4: in excluding mode, a proof whose last step is a Fork with skip `s`
evaluated at cursor `c` yields
`H(nibbles(path, c, c+s) ‖ neighbor.nibble ‖ neighbor.prefix ‖
neighbor.root)` — the `s` prepended nibbles are taken from the caller's
path between `c` and `c + s`, and for `s = 0` the nibble list is empty, so
this degenerates to `H(neighbor.nibble ‖ neighbor.prefix ‖ neighbor.root)`.
The off-chain verifier computes the same hash from its hex-string path. -/
theorem claim_C4 (path pnib : List Nat) (c s nib : Nat) (npfx : List Nat)
    (rt : Bs) :
    do_excluding path c [.fork s nib npfx rt] =
      some (combine (bs (nibbles path c (c + s) ++ nib :: npfx)) rt) ∧
    verifyGo pnib none false c [.fork s nib npfx rt] =
      some (some (hashB
        ((bs ((pnib.drop c).take s ++ nib :: npfx)).app rt))) := by
  constructor
  · by_cases hs : s = 0
    · subst hs
      simp [do_excluding, nibbles_nil, combine]
    · simp [do_excluding, hs, combine]
  · by_cases hs : s = 0
    · subst hs
      simp [verifyGo]
    · simp [verifyGo, hs]

-- -----------------------------------------------------------------------------
-- C9: the on-chain insert
-- -----------------------------------------------------------------------------

/-- C9 counterexample: a proof consisting of one Fork step whose neighbor
nibble collides with the path's first nibble.  Exclusion verification
succeeds (terminal Fork steps check no nibble collision) and matches the
chosen root, so `miss` holds — yet `insert` fails, because inclusion
verification runs `do_fork` on the same step and its
`expect branch != neighbor.nibble` fails.  Hence "fails exactly when
excluding differs from the root" is false: insert can fail although the
exclusion root matches. -/
theorem claim_C9_counterexample :
    excluding (List.replicate 32 0) [.fork 0 0 [] nullHash] =
      some (combine (bs [0]) nullHash) ∧
    missFn (combine (bs [0]) nullHash) (List.replicate 32 0)
      [.fork 0 0 [] nullHash] = true ∧
    onInsert (combine (bs [0]) nullHash) (List.replicate 32 0) (hashB Bs.nil)
      [.fork 0 0 [] nullHash] = none := by
  refine ⟨rfl, by decide, ?_⟩
  decide

/-- C9 (amended): `insert(handle, key, value, proof)` fails whenever
`excluding(key, proof)` differs from (or fails to produce) the handle's
root — so success requires `miss` on the old root — and it can additionally
fail when `including(key, value, proof)` fails; whenever it succeeds, the
returned handle's root is exactly `including(key, value, proof)`, so
`has(new handle, key, value, proof)` necessarily holds for the result. -/
theorem claim_C9 (root : Bs) (path : List Nat) (vH : Bs)
    (prf : List OStep) :
    (∀ h, onInsert root path vH prf = some h →
      excluding path prf = some root ∧ including path vH prf = some h ∧
        hasFn h path vH prf = true) ∧
    (excluding path prf ≠ some root → onInsert root path vH prf = none) := by
  constructor
  · intro h hins
    unfold onInsert at hins
    cases he : excluding path prf with
    | none => rw [he] at hins; exact Option.noConfusion hins
    | some e =>
      rw [he] at hins
      have hins2 : (if e = root then including path vH prf else none) =
          some h := hins
      by_cases heq : e = root
      · subst heq
        rw [if_pos rfl] at hins2
        refine ⟨rfl, hins2, ?_⟩
        simp [hasFn, hins2]
      · rw [if_neg heq] at hins2
        exact Option.noConfusion hins2
  · intro hne
    unfold onInsert
    cases he : excluding path prf with
    | none => rfl
    | some e =>
      have : e ≠ root := fun h => hne (h ▸ he)
      simp [this]

/-- Witness for C9 (amended): empty proof against the NULL_HASH root. -/
theorem claim_C9_witness :
    onInsert nullHash (List.replicate 32 0) (hashB Bs.nil) [] =
      some (combine (bs (suffix (List.replicate 32 0) 0)) (hashB Bs.nil)) ∧
    (excluding (List.replicate 32 0) [] = some nullHash ∧
      including (List.replicate 32 0) (hashB Bs.nil) [] =
        some (combine (bs (suffix (List.replicate 32 0) 0)) (hashB Bs.nil)) ∧
      hasFn (combine (bs (suffix (List.replicate 32 0) 0)) (hashB Bs.nil))
        (List.replicate 32 0) (hashB Bs.nil) [] = true) := by
  have h := (claim_C9 nullHash (List.replicate 32 0) (hashB Bs.nil) []).1
  have hins : onInsert nullHash (List.replicate 32 0) (hashB Bs.nil) [] =
      some (combine (bs (suffix (List.replicate 32 0) 0)) (hashB Bs.nil)) := by
    decide
  exact ⟨hins, h _ hins⟩

-- -----------------------------------------------------------------------------
-- C10: failed inserts are atomic
-- -----------------------------------------------------------------------------

theorem dbPut_eq_of_get {db : DB} {k : DKey} {v : SBlob}
    (h : dbGet db k = some v) : dbPut db k v = db := by
  induction db with
  | nil => simp [dbGet] at h
  | cons e r ih =>
    by_cases hk : e.1 = k
    · simp only [dbGet, hk, if_pos rfl] at h
      obtain rfl := Option.some.inj h
      show dbPut (e :: r) k e.2 = e :: r
      rw [show e = (e.1, e.2) from rfl, dbPut]
      simp [hk]
    · rw [show e = (e.1, e.2) from rfl] at h ⊢
      simp only [dbGet, if_neg hk] at h
      rw [dbPut]
      simp [hk, ih h]

theorem bindsL_mem {cs : List (Option Trie)} {x : List Nat × Bs}
    (h : x ∈ bindsL cs) :
    ∃ i t, cs.getD i none = some t ∧ x ∈ binds t := by
  induction cs with
  | nil => simp [bindsL] at h
  | cons c r ih =>
    cases c with
    | none =>
      rw [bindsL] at h
      obtain ⟨i, t, hget, hmem⟩ := ih h
      exact ⟨i + 1, t, hget, hmem⟩
    | some t0 =>
      rw [bindsL] at h
      rcases List.mem_append.1 h with h1 | h2
      · exact ⟨0, t0, rfl, h1⟩
      · obtain ⟨i, t, hget, hmem⟩ := ih h2
        exact ⟨i + 1, t, hget, hmem⟩

theorem binds_full {pre : List Nat} {t : Trie} (hwf : WFS pre t)
    {full : List Nat} {v0 : Bs} (hmem : (full, v0) ∈ binds t) :
    ∃ tail, full = pre ++ tail := by
  induction hwf generalizing full v0 with
  | leaf pre suf v hn hl =>
    rw [binds] at hmem
    simp only [List.mem_singleton, Prod.mk.injEq] at hmem
    exact ⟨suf, hmem.1⟩
  | branch pre pfx cs hlen hnib hcount hne hch ih =>
    rw [binds] at hmem
    obtain ⟨i, ti, hget, hmi⟩ := bindsL_mem hmem
    obtain ⟨tail, htail⟩ := ih i ti hget hmi
    exact ⟨pfx ++ i :: tail, by simp [htail]⟩

theorem cp2_self_append (p r : List Nat) : cp2 p (p ++ r) = p := by
  induction p with
  | nil => cases r <;> rfl
  | cons a p ih => simp [cp2, ih]

theorem getD_lt_length {cs : List (Option Trie)} {i : Nat} {t : Trie}
    (h : cs.getD i none = some t) : i < cs.length := by
  by_contra hge
  rw [List.getD_eq_default _ _ (Nat.le_of_not_lt hge)] at h
  exact Option.noConfusion h

/-- Inserting at a key whose path is already bound in a well-formed trie
fails (`AlreadyPresent`). -/
theorem insert_present {t : Trie} {pre full rest : List Nat} {v0 v : Bs}
    (hwf : WFS pre t) (hmem : (full, v0) ∈ binds t)
    (hrest : rest = full.drop pre.length) :
    insertGo t rest full v = none := by
  induction hwf generalizing full v0 rest with
  | leaf pre suf vl hn hl =>
    rw [binds] at hmem
    simp only [List.mem_singleton, Prod.mk.injEq] at hmem
    obtain ⟨rfl, rfl⟩ := hmem.imp Eq.symm Eq.symm
    rw [insertGo]
    by_cases hz : suf.length = 0
    · simp [hz]
    · have hdrop : (pre ++ suf).drop ((pre ++ suf).length - suf.length)
          = suf := by
        have hl2 : (pre ++ suf).length - suf.length = pre.length := by
          rw [List.length_append]
          omega
        rw [hl2, List.drop_left]
      simp [hz, hdrop]
  | branch pre pfx cs hlen hnib hcount hne hch ih =>
    rw [binds] at hmem
    obtain ⟨i, ti, hget, hmi⟩ := bindsL_mem hmem
    obtain ⟨tail, htail⟩ := binds_full (hch i ti hget) hmi
    subst htail
    have hi16 : i < 16 := hlen ▸ getD_lt_length hget
    have hrest2 : rest = pfx ++ i :: tail := by
      rw [hrest]
      rw [show pre ++ pfx ++ [i] ++ tail = pre ++ (pfx ++ i :: tail) by simp]
      rw [List.drop_left]
    subst hrest2
    rw [insertGo]
    have hcp : cp2 pfx (pfx ++ i :: tail) = pfx := cp2_self_append _ _
    have hrec : insertGo ti tail (pre ++ pfx ++ [i] ++ tail) v = none :=
      ih i ti hget hmi (by exact (List.drop_left _ _).symm)
    split
    · next h => rw [hcp] at h; exact absurd h (lt_irrefl _)
    · next h1 =>
      split
      · next h2 =>
        split
        · next heq =>
          rw [hcp, List.drop_left, List.headD_cons, hget] at heq
          exact Option.noConfusion heq
        · next ch heq =>
          rw [hcp, List.drop_left, List.headD_cons, hget] at heq
          obtain rfl := Option.some.inj heq
          rw [hcp, List.drop_left]
          simp only [List.drop_succ_cons, List.drop_zero, hrec]
      · rfl

set_option maxHeartbeats 1000000 in
/-- C10: a failed off-chain insert — here, the key is already present — is
atomic: the call returns the error, the in-memory trie is unchanged (same
root hash and size), and the backing store is exactly as before the call:
the put/del operations recorded during the attempt were discarded with the
batch (store.js), and the root node re-saved by the catch block rewrites
the entries the saved trie already has. -/
theorem claim_C10 (db : DB) (t : Trie) (k : List Nat) (v v0 : Bs)
    (ops : List (DKey × SBlob)) (hwf : WFS [] t)
    (hmem : (k, v0) ∈ binds t)
    (hsaved : dbGet db (.hashK (trieHash t)) = some (serialiseT t))
    (hroot : dbGet db .rootK = some (.rootB (trieHash t))) :
    insertTop db t k v ops = (none, t, db) := by
  have hfail : insertFn t k v = none :=
    insert_present hwf hmem (by simp)
  rw [insertTop, insertFn] at *
  rw [hfail]
  rw [saveNode, dbPut_eq_of_get hsaved, dbPut_eq_of_get hroot]

/-- Witness for C10: the saved one-leaf trie `exLeaf` and an insert at its
own key. -/
theorem claim_C10_witness :
    WFS [] exLeaf ∧ (exP0, bs [1]) ∈ binds exLeaf ∧
      dbGet exDB (.hashK (trieHash exLeaf)) = some (serialiseT exLeaf) ∧
      dbGet exDB .rootK = some (.rootB (trieHash exLeaf)) ∧
      insertTop exDB exLeaf exP0 (bs [2]) [] = (none, exLeaf, exDB) := by
  have hwf : WFS [] exLeaf := WFS.leaf [] exP0 (bs [1]) (by decide) (by decide)
  have hmem : (exP0, bs [1]) ∈ binds exLeaf := by
    rw [show binds exLeaf = [(exP0, bs [1])] from rfl]
    exact List.mem_singleton.2 rfl
  refine ⟨hwf, hmem, rfl, rfl, ?_⟩
  exact claim_C10 exDB exLeaf exP0 (bs [2]) (bs [1]) [] hwf hmem rfl rfl

-- -----------------------------------------------------------------------------
-- List utilities
-- -----------------------------------------------------------------------------

theorem getD_nil {α : Type} (i : Nat) (d : α) : ([] : List α).getD i d = d := by
  cases i <;> rfl

theorem getD_indep {α : Type} {l : List α} {i : Nat} (h : i < l.length)
    (d₁ d₂ : α) : l.getD i d₁ = l.getD i d₂ := by
  rw [List.getD_eq_getElem _ _ h, List.getD_eq_getElem _ _ h]

theorem getD_at {α : Type} (a : List α) (x : α) (r : List α) (d : α) :
    (a ++ x :: r).getD a.length d = x := by
  have hlen : a.length < (a ++ x :: r).length := by simp
  rw [List.getD_eq_getElem _ _ hlen, List.getElem_append_right (le_refl _)]
  simp

theorem getD_headD_drop {α : Type} (l : List α) (n : Nat) (d : α) :
    (l.drop n).headD d = l.getD n d := by
  induction l generalizing n with
  | nil => cases n <;> rfl
  | cons c r ih =>
    cases n with
    | zero => rfl
    | succ m => simpa [List.getD_cons_succ] using ih m

theorem take_getD_drop {α : Type} {l : List α} {n : Nat} (h : n < l.length)
    (d : α) : l.take n ++ l.getD n d :: l.drop (n + 1) = l := by
  rw [List.getD_eq_getElem _ _ h, ← List.drop_eq_getElem_cons h,
    List.take_append_drop]

theorem getD_set_self {α : Type} {l : List α} {i : Nat} (h : i < l.length)
    (a d : α) : (l.set i a).getD i d = a := by
  rw [List.getD_eq_getElem _ _ (by simpa using h), List.getElem_set]
  simp

theorem getD_set_ne {α : Type} (l : List α) {i j : Nat} (hne : i ≠ j)
    (a d : α) : (l.set i a).getD j d = l.getD j d := by
  by_cases hj : j < l.length
  · rw [List.getD_eq_getElem _ _ (by simpa using hj),
      List.getD_eq_getElem _ _ hj, List.getElem_set, if_neg hne]
  · rw [List.getD_eq_default _ _ (by simpa using Nat.le_of_not_lt hj),
      List.getD_eq_default _ _ (Nat.le_of_not_lt hj)]

theorem set_getD_eq {α : Type} {l : List α} {i : Nat} {a : α} (d : α)
    (h : l.getD i d = a) (hi : i < l.length) : l.set i a = l := by
  apply List.ext_getElem (by simp)
  intro k h1 h2
  rw [List.getElem_set]
  split
  · next heq =>
      subst heq
      rw [List.getD_eq_getElem _ _ hi] at h
      exact h.symm
  · rfl

theorem two_mem_le_length {α : Type} {a b : α} {l : List α} (ha : a ∈ l)
    (hb : b ∈ l) (hne : a ≠ b) : 2 ≤ l.length := by
  induction l with
  | nil => simp at ha
  | cons c r ih =>
    rcases List.mem_cons.1 ha with rfl | ha2
    · rcases List.mem_cons.1 hb with rfl | hb2
      · exact absurd rfl hne
      · have : 1 ≤ r.length := List.length_pos.2 (List.ne_nil_of_mem hb2)
        simp only [List.length_cons]
        omega
    · have : 1 ≤ r.length := List.length_pos.2 (List.ne_nil_of_mem ha2)
      simp only [List.length_cons]
      omega

theorem isPrefixOf_append {p r : List Nat} : p.isPrefixOf (p ++ r) = true := by
  induction p with
  | nil => simp [List.isPrefixOf]
  | cons a t ih => simpa [List.isPrefixOf] using ih

theorem isPrefixOf_self {p : List Nat} : p.isPrefixOf p = true := by
  simpa using isPrefixOf_append (p := p) (r := [])

-- -----------------------------------------------------------------------------
-- Common-prefix (cp2) lemmas
-- -----------------------------------------------------------------------------

theorem cp2_comm (a b : List Nat) : cp2 a b = cp2 b a := by
  induction a generalizing b with
  | nil => cases b <;> rfl
  | cons x t ih =>
    cases b with
    | nil => rfl
    | cons y s =>
      by_cases h : x = y
      · subst h
        simp [cp2, ih]
      · simp [cp2, h, Ne.symm h]

theorem cp2_prefix_left (a b : List Nat) : cp2 a b <+: a := by
  induction a generalizing b with
  | nil => cases b <;> exact List.nil_prefix
  | cons x t ih =>
    cases b with
    | nil => exact List.nil_prefix
    | cons y s =>
      by_cases h : x = y
      · subst h
        have hcp : cp2 (x :: t) (x :: s) = x :: cp2 t s := by simp [cp2]
        rw [hcp]
        exact List.cons_prefix_cons.2 ⟨rfl, ih s⟩
      · simp [cp2, h]

theorem cp2_prefix_right (a b : List Nat) : cp2 a b <+: b := by
  rw [cp2_comm]
  exact cp2_prefix_left b a

theorem prefix_cp2 {q a b : List Nat} (ha : q <+: a) (hb : q <+: b) :
    q <+: cp2 a b := by
  induction q generalizing a b with
  | nil => exact List.nil_prefix
  | cons x t ih =>
    obtain ⟨ra, rfl⟩ := ha
    obtain ⟨rb, rfl⟩ := hb
    simp only [List.cons_append, cp2, if_pos rfl]
    exact List.cons_prefix_cons.2
      ⟨rfl, ih (List.prefix_append t ra) (List.prefix_append t rb)⟩

theorem cp2_mismatch {a b : List Nat} (hne : a ≠ b)
    (hlen : a.length = b.length) (d : Nat) :
    (cp2 a b).length < a.length ∧
      a.getD (cp2 a b).length d ≠ b.getD (cp2 a b).length d := by
  induction a generalizing b with
  | nil =>
    cases b with
    | nil => exact absurd rfl hne
    | cons y s => simp at hlen
  | cons x t ih =>
    cases b with
    | nil => simp at hlen
    | cons y s =>
      by_cases h : x = y
      · subst h
        have hts : t ≠ s := fun hh => hne (by rw [hh])
        obtain ⟨h1, h2⟩ := ih hts (by simpa using hlen)
        have hcp : cp2 (x :: t) (x :: s) = x :: cp2 t s := by simp [cp2]
        rw [hcp]
        refine ⟨?_, ?_⟩
        · simp only [List.length_cons]
          omega
        · simp only [List.length_cons, List.getD_cons_succ]
          exact h2
      · simp only [cp2, if_neg h, List.length_nil, List.getD_cons_zero]
        exact ⟨by simp, h⟩

-- -----------------------------------------------------------------------------
-- vec2, replicate, child-vector lemmas
-- -----------------------------------------------------------------------------

theorem vec2_length (i : Nat) (x : Trie) (j : Nat) (y : Trie) :
    (vec2 i x j y).length = 16 := by
  simp [vec2]

theorem vec2_getD {i j k : Nat} (hk : k < 16) (x y : Trie) :
    (vec2 i x j y).getD k none =
      if k = i then some x else if k = j then some y else none := by
  have hlen : k < ((List.range 16).map fun k =>
      if k = i then some x else if k = j then some y else none).length := by
    simpa using hk
  rw [vec2, List.getD_eq_getElem _ _ hlen, List.getElem_map,
    List.getElem_range]

theorem getD_replicate_none {i n : Nat} :
    (List.replicate n (none : Option Trie)).getD i none = none := by
  by_cases h : i < n
  · rw [List.getD_eq_getElem _ _ (by simpa using h)]
    simp
  · rw [List.getD_eq_default]
    simpa using Nat.le_of_not_lt h

theorem childHashes_eq_map (cs : List (Option Trie)) :
    childHashes cs = cs.map childHash := by
  induction cs with
  | nil => rfl
  | cons c r ih => cases c <;> simp [childHashes, childHash, ih]

theorem length_childHashes (cs : List (Option Trie)) :
    (childHashes cs).length = cs.length := by
  rw [childHashes_eq_map]
  simp

theorem trieHash_hashB {t : Trie} (h : t ≠ .empty) :
    ∃ m, trieHash t = hashB m := by
  cases t with
  | empty => exact absurd rfl h
  | leaf suf full v => exact ⟨_, rfl⟩
  | branch pfx cs => exact ⟨_, rfl⟩

theorem trieHash_ne_null {t : Trie} (h : t ≠ .empty) :
    trieHash t ≠ nullHash := by
  obtain ⟨m, hm⟩ := trieHash_hashB h
  rw [hm]
  exact fun hh => nullHash_ne_hashB m hh.symm

-- -----------------------------------------------------------------------------
-- someChildren and countSome lemmas
-- -----------------------------------------------------------------------------

theorem someChildrenGo_mem {cs : List (Option Trie)} {s : Nat} {u : Trie}
    {k : Nat} :
    (u, k) ∈ someChildrenGo s cs ↔
      ∃ j, k = s + j ∧ cs.getD j none = some u := by
  induction cs generalizing s with
  | nil =>
    simp only [someChildrenGo, List.not_mem_nil, false_iff]
    rintro ⟨j, _, hj⟩
    rw [getD_nil] at hj
    exact Option.noConfusion hj
  | cons c r ih =>
    cases c with
    | none =>
      rw [someChildrenGo, ih]
      constructor
      · rintro ⟨j, rfl, hj⟩
        exact ⟨j + 1, by omega, by simpa [List.getD_cons_succ] using hj⟩
      · rintro ⟨j, hk, hj⟩
        cases j with
        | zero => simp [List.getD_cons_zero] at hj
        | succ m =>
          exact ⟨m, by omega, by simpa [List.getD_cons_succ] using hj⟩
    | some t =>
      rw [someChildrenGo]
      simp only [List.mem_cons, Prod.mk.injEq, ih]
      constructor
      · rintro (⟨rfl, rfl⟩ | ⟨j, rfl, hj⟩)
        · exact ⟨0, by omega, by simp [List.getD_cons_zero]⟩
        · exact ⟨j + 1, by omega, by simpa [List.getD_cons_succ] using hj⟩
      · rintro ⟨j, hk, hj⟩
        cases j with
        | zero =>
          rw [List.getD_cons_zero] at hj
          exact Or.inl ⟨(Option.some.inj hj).symm, by omega⟩
        | succ m =>
          exact Or.inr ⟨m, by omega, by simpa [List.getD_cons_succ] using hj⟩

theorem mem_someChildren {cs : List (Option Trie)} {u : Trie} {k : Nat} :
    (u, k) ∈ someChildren cs ↔ cs.getD k none = some u := by
  rw [someChildren, someChildrenGo_mem]
  constructor
  · rintro ⟨j, rfl, hj⟩
    simpa using hj
  · intro h
    exact ⟨k, by omega, h⟩

theorem someChildrenGo_length (s : Nat) (cs : List (Option Trie)) :
    (someChildrenGo s cs).length = countSome cs := by
  induction cs generalizing s with
  | nil => rfl
  | cons c r ih =>
    cases c with
    | none => simpa [someChildrenGo, countSome, List.filter_cons] using ih (s + 1)
    | some t =>
      show (someChildrenGo (s + 1) r).length + 1 = countSome (some t :: r)
      rw [ih (s + 1)]
      simp [countSome, List.filter_cons]

theorem someChildren_length (cs : List (Option Trie)) :
    (someChildren cs).length = countSome cs :=
  someChildrenGo_length 0 cs

theorem someChildrenGo_nil_of_none {cs : List (Option Trie)}
    (h : ∀ k, cs.getD k none = none) : ∀ s, someChildrenGo s cs = [] := by
  induction cs with
  | nil => intro s; rfl
  | cons c r ih =>
    intro s
    have hc : c = none := by simpa [List.getD_cons_zero] using h 0
    subst hc
    rw [someChildrenGo]
    exact ih (fun k => by simpa [List.getD_cons_succ] using h (k + 1)) (s + 1)

theorem someChildrenGo_single {cs : List (Option Trie)} {i : Nat} {x : Trie}
    (hslots : ∀ k, cs.getD k none = if k = i then some x else none)
    (hi : i < cs.length) : ∀ s, someChildrenGo s cs = [(x, s + i)] := by
  induction cs generalizing i with
  | nil => simp at hi
  | cons c r ih =>
    intro s
    cases i with
    | zero =>
      have hc : c = some x := by simpa [List.getD_cons_zero] using hslots 0
      subst hc
      rw [someChildrenGo]
      rw [someChildrenGo_nil_of_none
        (fun k => by simpa [List.getD_cons_succ] using hslots (k + 1)) (s + 1)]
      simp
    | succ j =>
      have hc : c = none := by simpa [List.getD_cons_zero] using hslots 0
      subst hc
      rw [someChildrenGo]
      have hr : ∀ k, r.getD k none = if k = j then some x else none := by
        intro k
        simpa [List.getD_cons_succ] using hslots (k + 1)
      rw [ih hr (by simpa using hi) (s + 1)]
      have : s + 1 + j = s + (j + 1) := by omega
      rw [this]

theorem someChildren_single {cs : List (Option Trie)} {i : Nat} {x : Trie}
    (hslots : ∀ k, cs.getD k none = if k = i then some x else none)
    (hi : i < cs.length) : someChildren cs = [(x, i)] := by
  rw [someChildren, someChildrenGo_single hslots hi 0]
  simp

theorem countSome_exists {cs : List (Option Trie)}
    (h : 1 ≤ countSome cs) : ∃ i u, cs.getD i none = some u := by
  induction cs with
  | nil => simp [countSome] at h
  | cons c r ih =>
    cases c with
    | none =>
      obtain ⟨i, u, hget⟩ := ih (by simpa [countSome, List.filter_cons] using h)
      exact ⟨i + 1, u, by simpa [List.getD_cons_succ] using hget⟩
    | some t => exact ⟨0, t, by simp [List.getD_cons_zero]⟩

theorem countSome_set_le {cs : List (Option Trie)} {i : Nat} (x : Trie) :
    countSome cs ≤ countSome (cs.set i (some x)) := by
  induction cs generalizing i with
  | nil => simp
  | cons c r ih =>
    cases i with
    | zero =>
      cases c <;>
        simp [countSome, List.filter_cons] <;>
        omega
    | succ j =>
      cases c <;>
        simpa [countSome, List.filter_cons] using ih (i := j)

theorem countSome_set_some_eq {cs : List (Option Trie)} {i : Nat} {y : Trie}
    (h : cs.getD i none = some y) (x : Trie) :
    countSome (cs.set i (some x)) = countSome cs := by
  induction cs generalizing i with
  | nil =>
    rw [getD_nil] at h
    exact Option.noConfusion h
  | cons c r ih =>
    cases i with
    | zero =>
      rw [List.getD_cons_zero] at h
      subst h
      simp [countSome, List.filter_cons]
    | succ j =>
      rw [List.getD_cons_succ] at h
      cases c <;> simpa [countSome, List.filter_cons] using ih h

theorem countSome_two {cs : List (Option Trie)} {i j : Nat} {x y : Trie}
    (hi : cs.getD i none = some x) (hj : cs.getD j none = some y)
    (hne : i ≠ j) : 2 ≤ countSome cs := by
  have h1 : (x, i) ∈ someChildren cs := mem_someChildren.2 hi
  have h2 : (y, j) ∈ someChildren cs := mem_someChildren.2 hj
  rw [← someChildren_length]
  exact two_mem_le_length h1 h2 (by simp [hne])

-- -----------------------------------------------------------------------------
-- Bindings lemmas
-- -----------------------------------------------------------------------------

theorem bindsL_of_getD {cs : List (Option Trie)} {i : Nat} {u : Trie}
    (h : cs.getD i none = some u) {x : List Nat × Bs} (hx : x ∈ binds u) :
    x ∈ bindsL cs := by
  induction cs generalizing i with
  | nil =>
    rw [getD_nil] at h
    exact Option.noConfusion h
  | cons c r ih =>
    cases i with
    | zero =>
      rw [List.getD_cons_zero] at h
      subst h
      rw [bindsL]
      exact List.mem_append.2 (Or.inl hx)
    | succ j =>
      rw [List.getD_cons_succ] at h
      cases c with
      | none =>
        rw [bindsL]
        exact ih h
      | some t =>
        rw [bindsL]
        exact List.mem_append.2 (Or.inr (ih h))

theorem binds_ne_nil {pre : List Nat} {t : Trie} (hwf : WFS pre t) :
    binds t ≠ [] := by
  induction hwf with
  | leaf pre suf v hn hl => simp [binds]
  | branch pre pfx cs hlen hnib hcount hne hch ih =>
    obtain ⟨i, u, hget⟩ := countSome_exists (le_trans one_le_two hcount)
    intro hnil
    cases hbu : binds u with
    | nil => exact ih i u hget hbu
    | cons x xs =>
      have hx : x ∈ bindsL cs :=
        bindsL_of_getD hget (by rw [hbu]; exact List.mem_cons_self x xs)
      rw [binds] at hnil
      rw [hnil] at hx
      exact absurd hx (List.not_mem_nil x)

theorem binds_pathOK {pre : List Nat} {t : Trie} (hwf : WFS pre t) :
    ∀ x ∈ binds t, pathOK x.1 := by
  induction hwf with
  | leaf pre suf v hn hl =>
    intro x hx
    rw [binds] at hx
    rw [List.mem_singleton.1 hx]
    exact ⟨hl, hn⟩
  | branch pre pfx cs hlen hnib hcount hne hch ih =>
    intro x hx
    rw [binds] at hx
    obtain ⟨i, u, hget, hmem⟩ := bindsL_mem hx
    exact ih i u hget x hmem

-- -----------------------------------------------------------------------------
-- Injectivity of the Merkle reconstructions
-- -----------------------------------------------------------------------------

theorem merkleRoot_sixteen (c0 c1 c2 c3 c4 c5 c6 c7 c8 c9 c10 c11 c12 c13
    c14 c15 : Bs) :
    merkleRoot [c0, c1, c2, c3, c4, c5, c6, c7, c8, c9, c10, c11, c12, c13,
      c14, c15] =
      combine
        (combine (combine (combine c0 c1) (combine c2 c3))
          (combine (combine c4 c5) (combine c6 c7)))
        (combine (combine (combine c8 c9) (combine c10 c11))
          (combine (combine c12 c13) (combine c14 c15))) := rfl

set_option maxHeartbeats 1000000 in
theorem merkleRoot_set_inj {cs : List Bs} (hlen : cs.length = 16) {b : Nat}
    (hb : b < 16) {x y : Bs}
    (h : merkleRoot (cs.set b x) = merkleRoot (cs.set b y)) : x = y := by
  obtain ⟨c0, c1, c2, c3, c4, c5, c6, c7, c8, c9, c10, c11, c12, c13, c14,
    c15, rfl⟩ := exists_sixteen cs hlen
  interval_cases b <;>
    simp only [List.set_cons_zero, List.set_cons_succ] at h <;>
    rw [merkleRoot_sixteen, merkleRoot_sixteen] at h <;>
    first
      | exact combine_inj_left (combine_inj_left (combine_inj_left (combine_inj_left h)))
      | exact combine_inj_right (combine_inj_left (combine_inj_left (combine_inj_left h)))
      | exact combine_inj_left (combine_inj_right (combine_inj_left (combine_inj_left h)))
      | exact combine_inj_right (combine_inj_right (combine_inj_left (combine_inj_left h)))
      | exact combine_inj_left (combine_inj_left (combine_inj_right (combine_inj_left h)))
      | exact combine_inj_right (combine_inj_left (combine_inj_right (combine_inj_left h)))
      | exact combine_inj_left (combine_inj_right (combine_inj_right (combine_inj_left h)))
      | exact combine_inj_right (combine_inj_right (combine_inj_right (combine_inj_left h)))
      | exact combine_inj_left (combine_inj_left (combine_inj_left (combine_inj_right h)))
      | exact combine_inj_right (combine_inj_left (combine_inj_left (combine_inj_right h)))
      | exact combine_inj_left (combine_inj_right (combine_inj_left (combine_inj_right h)))
      | exact combine_inj_right (combine_inj_right (combine_inj_left (combine_inj_right h)))
      | exact combine_inj_left (combine_inj_left (combine_inj_right (combine_inj_right h)))
      | exact combine_inj_right (combine_inj_left (combine_inj_right (combine_inj_right h)))
      | exact combine_inj_left (combine_inj_right (combine_inj_right (combine_inj_right h)))
      | exact combine_inj_right (combine_inj_right (combine_inj_right (combine_inj_right h)))

set_option maxHeartbeats 1000000 in
theorem merkleTable_inj {nib : Nat} (h16 : nib < 16) {m1 m2 l1 l2 l3 l4 : Bs}
    (h : merkleTable nib m1 l1 l2 l3 l4 = merkleTable nib m2 l1 l2 l3 l4) :
    m1 = m2 := by
  interval_cases nib <;>
    first
      | exact combine_inj_left (combine_inj_left (combine_inj_left (combine_inj_left h)))
      | exact combine_inj_right (combine_inj_left (combine_inj_left (combine_inj_left h)))
      | exact combine_inj_left (combine_inj_right (combine_inj_left (combine_inj_left h)))
      | exact combine_inj_right (combine_inj_right (combine_inj_left (combine_inj_left h)))
      | exact combine_inj_left (combine_inj_left (combine_inj_right (combine_inj_left h)))
      | exact combine_inj_right (combine_inj_left (combine_inj_right (combine_inj_left h)))
      | exact combine_inj_left (combine_inj_right (combine_inj_right (combine_inj_left h)))
      | exact combine_inj_right (combine_inj_right (combine_inj_right (combine_inj_left h)))
      | exact combine_inj_left (combine_inj_left (combine_inj_left (combine_inj_right h)))
      | exact combine_inj_right (combine_inj_left (combine_inj_left (combine_inj_right h)))
      | exact combine_inj_left (combine_inj_right (combine_inj_left (combine_inj_right h)))
      | exact combine_inj_right (combine_inj_right (combine_inj_left (combine_inj_right h)))
      | exact combine_inj_left (combine_inj_left (combine_inj_right (combine_inj_right h)))
      | exact combine_inj_right (combine_inj_left (combine_inj_right (combine_inj_right h)))
      | exact combine_inj_left (combine_inj_right (combine_inj_right (combine_inj_right h)))
      | exact combine_inj_right (combine_inj_right (combine_inj_right (combine_inj_right h)))

theorem sparseSlots_length (i : Nat) (x : Bs) (j : Nat) (y : Bs) :
    (sparseSlots i x j y).length = 16 := by
  simp [sparseSlots]

theorem sparseSlots_set {i : Nat} (hi : i < 16) (j : Nat) (x z y : Bs) :
    (sparseSlots i z j y).set i x = sparseSlots i x j y := by
  apply List.ext_getElem
  · simp [sparseSlots]
  · intro k h1 h2
    simp only [List.getElem_set, sparseSlots, List.getElem_map,
      List.getElem_range]
    by_cases hik : i = k
    · subst hik
      simp
    · have hki : ¬ k = i := fun hh => hik hh.symm
      simp [hki, hik]

theorem sparse_root_inj {a b : Nat} (ha : a < 16) {m1 m2 X : Bs}
    (h : merkleRoot (sparseSlots a m1 b X) =
      merkleRoot (sparseSlots a m2 b X)) : m1 = m2 := by
  rw [← sparseSlots_set ha b m1 nullHash X,
    ← sparseSlots_set ha b m2 nullHash X] at h
  exact merkleRoot_set_inj (by simp [sparseSlots]) ha h

theorem Leaf_value_inj {suf : List Nat} {a b : Bs}
    (h : Leaf_computeHash suf (hashB a) = Leaf_computeHash suf (hashB b)) :
    a = b :=
  hashB_inj (Bs.app_cancel_left (hashB_inj h))

theorem Branch_root_inj {pfx : List Nat} {r1 r2 : Bs}
    (h : Branch_computeHash pfx r1 = Branch_computeHash pfx r2) : r1 = r2 :=
  Bs.app_cancel_left (hashB_inj h)

theorem childHashes_set_sparse {cs : List (Option Trie)} {b j : Nat}
    {n : Trie} (hlen : cs.length = 16) (hj : cs.getD j none = some n)
    (hbj : b ≠ j) (hb : b < 16)
    (honly : ∀ k u, cs.getD k none = some u → k = b ∨ k = j) (h : Bs) :
    (childHashes cs).set b h = sparseSlots b h j (trieHash n) := by
  rw [childHashes_eq_map]
  apply List.ext_getElem
  · simp [sparseSlots, hlen]
  · intro k h1 h2
    have hk : k < 16 := by simpa [sparseSlots] using h2
    have hkcs : k < cs.length := by omega
    rw [List.getElem_set]
    simp only [sparseSlots, List.getElem_map, List.getElem_range]
    by_cases hbk : b = k
    · subst hbk
      simp
    · have hkb : ¬ k = b := fun hh => hbk hh.symm
      rw [if_neg hbk, if_neg hkb]
      by_cases hkj : k = j
      · subst hkj
        rw [List.getD_eq_getElem _ _ hkcs] at hj
        simp [hj, childHash]
      · have hnone : cs[k] = none := by
          cases hck : cs[k] with
          | none => rfl
          | some u =>
            have hget : cs.getD k none = some u := by
              rw [List.getD_eq_getElem _ _ hkcs, hck]
            rcases honly k u hget with hh | hh
            · exact absurd hh.symm hbk
            · exact absurd hh hkj
        simp [hnone, childHash, hkj]

-- -----------------------------------------------------------------------------
-- Byte/nibble bridge lemmas (off-chain hex paths vs on-chain byte paths)
-- -----------------------------------------------------------------------------

theorem unpack_getD (q : List Nat) (i : Nat) :
    (unpack q).getD i 0 =
      if i % 2 = 0 then q.getD (i / 2) 0 / 16 else q.getD (i / 2) 0 % 16 := by
  induction q generalizing i with
  | nil =>
    rw [unpack, getD_nil, getD_nil]
    simp
  | cons b r ih =>
    match i with
    | 0 => simp [unpack]
    | 1 => simp [unpack]
    | k + 2 =>
      rw [unpack, List.getD_cons_succ, List.getD_cons_succ, ih k]
      have h1 : (k + 2) % 2 = k % 2 := by omega
      have h2 : (k + 2) / 2 = k / 2 + 1 := by omega
      rw [h1, h2, List.getD_cons_succ]

theorem nibble_eq_unpack (q : List Nat) (i : Nat) :
    nibble q i = (unpack q).getD i 0 := by
  rw [nibble, unpack_getD]

theorem unpack_pack : ∀ {p : List Nat}, (∀ x ∈ p, x < 16) →
    p.length % 2 = 0 → unpack (pack p) = p
  | [], _, _ => rfl
  | [a], _, hev => by simp at hev
  | a :: b :: r, hx, hev => by
    have ha : a < 16 := hx a (by simp)
    have hb : b < 16 := hx b (by simp)
    have hd : (16 * a + b) / 16 = a := by omega
    have hm : (16 * a + b) % 16 = b := by omega
    have hr : unpack (pack r) = r :=
      unpack_pack (fun x hxm => hx x (by simp [hxm]))
        (by simp only [List.length_cons] at hev; omega)
    rw [pack, unpack, hd, hm, hr]

theorem pack_length : ∀ (p : List Nat), (pack p).length = p.length / 2
  | [] => rfl
  | [a] => by simp [pack]
  | a :: b :: r => by
    rw [pack, List.length_cons, pack_length r]
    simp only [List.length_cons]
    omega

theorem map_range_getD {α : Type} (p : List α) (c n : Nat) (d : α)
    (h : c + n ≤ p.length) :
    (List.range n).map (fun k => p.getD (c + k) d) = (p.drop c).take n := by
  apply List.ext_getElem
  · simp
    omega
  · intro k h1 h2
    have hk : k < n := by simpa using h1
    have hck : c + k < p.length := by omega
    rw [List.getElem_map, List.getElem_range, List.getElem_take,
      List.getElem_drop, List.getD_eq_getElem _ _ hck]

theorem pathOK_getD {p : List Nat} (hp : pathOK p) {i : Nat}
    (hi : i < 64) : p.getD i 0 < 16 := by
  have hlen : i < p.length := by rw [hp.1]; exact hi
  rw [List.getD_eq_getElem _ _ hlen]
  exact hp.2 _ (List.getElem_mem hlen)

theorem path_getD_pack {p : List Nat} (hp : pathOK p) (i : Nat) :
    nibble (pack p) i = p.getD i 0 := by
  rw [nibble_eq_unpack, unpack_pack hp.2 (by rw [hp.1])]

theorem nibbles_pack {p : List Nat} (hp : pathOK p) {c e : Nat}
    (hce : c ≤ e) (he : e ≤ 64) :
    nibbles (pack p) c e = (p.drop c).take (e - c) := by
  rw [nibbles]
  have h1 : (List.range (e - c)).map (fun k => nibble (pack p) (c + k)) =
      (List.range (e - c)).map (fun k => p.getD (c + k) 0) := by
    apply List.map_congr_left
    intro k _
    exact path_getD_pack hp (c + k)
  rw [h1, map_range_getD p c (e - c) 0 (by rw [hp.1]; omega)]

theorem suffix_pack {p : List Nat} (hp : pathOK p) {c : Nat} (hc : c ≤ 64) :
    suffix (pack p) c = leafSuffixBytes (p.drop c) := by
  have h1 : (unpack (pack p)).drop c = p.drop c := by
    rw [unpack_pack hp.2 (by rw [hp.1])]
  rw [← h1, leafSuffix_suffix]
  rw [pack_length, hp.1]
  omega

-- -----------------------------------------------------------------------------
-- rewind/verify reconstruction at one branch level
-- -----------------------------------------------------------------------------

theorem findIdx_childHash {cs : List (Option Trie)} {b : Nat} {ch : Trie}
    (hget : cs.getD b none = some ch)
    (hnemp : ∀ i u, cs.getD i none = some u → u ≠ .empty)
    (hdis : ∀ i j ti tj, i ≠ j → cs.getD i none = some ti →
      cs.getD j none = some tj → trieHash ti ≠ trieHash tj) :
    cs.findIdx (fun c => childHash c == trieHash ch) = b := by
  have hb : b < cs.length := getD_lt_length hget
  rw [List.findIdx_eq hb]
  constructor
  · have hgetb : cs[b] = some ch := by
      rw [List.getD_eq_getElem _ _ hb] at hget
      exact hget
    rw [hgetb]
    simp [childHash]
  · intro j hj
    have hjlen : j < cs.length := lt_trans hj hb
    cases hcj : cs[j] with
    | none =>
      have hchne : trieHash ch ≠ nullHash := trieHash_ne_null (hnemp b ch hget)
      have hne0 : nullHash ≠ trieHash ch := fun hh => hchne hh.symm
      simp only [childHash]
      simp [hne0]
    | some tj =>
      have hgetj : cs.getD j none = some tj := by
        rw [List.getD_eq_getElem _ _ hjlen, hcj]
      have hne2 : trieHash tj ≠ trieHash ch :=
        hdis j b tj ch (by omega) hgetj hget
      simp [childHash, hne2]

set_option maxHeartbeats 2000000 in
theorem step_verify {pre pfx : List Nat} {cs : List (Option Trie)} {b : Nat}
    {ch : Trie} {full rest2 : List Nat} {val : Option Bs} {incl : Bool}
    {steps2 : List Step} {hchild : Bs}
    (hlen : cs.length = 16)
    (hget : cs.getD b none = some ch)
    (hnemp : ∀ i u, cs.getD i none = some u → u ≠ .empty)
    (hwfn : ∀ i u, cs.getD i none = some u → WFS (pre ++ pfx ++ [i]) u)
    (hdis : ∀ i j ti tj, i ≠ j → cs.getD i none = some ti →
      cs.getD j none = some tj → trieHash ti ≠ trieHash tj)
    (hfull : full = pre ++ pfx ++ b :: rest2)
    (hdeep : verifyGo full val incl (pre.length + pfx.length + 1) steps2 =
      some (some hchild))
    (hsok : stepsOK steps2 = true) :
    ∃ st, rewindStep ch pfx.length cs = some st ∧ st.skipOf = pfx.length ∧
      stepsOK (st :: steps2) = true ∧
      verifyGo full val incl pre.length (st :: steps2) =
        some (some (Branch_computeHash pfx
          (merkleRoot ((childHashes cs).set b hchild)))) := by
  have hblt : b < cs.length := getD_lt_length hget
  have hb16 : b < 16 := hlen ▸ hblt
  have hme : cs.findIdx (fun c => childHash c == trieHash ch) = b :=
    findIdx_childHash hget hnemp hdis
  have hthis : full.getD (pre.length + pfx.length) 16 = b := by
    rw [hfull]
    have := getD_at (pre ++ pfx) b rest2 16
    simpa [List.length_append] using this
  have htake : (full.drop pre.length).take pfx.length = pfx := by
    rw [hfull, List.append_assoc, List.drop_left, List.take_left]
  have harith : pre.length + 1 + pfx.length = pre.length + pfx.length + 1 := by
    omega
  have harith2 : pre.length + pfx.length + 1 - 1 = pre.length + pfx.length := by
    omega
  have harith3 : pre.length + pfx.length + 1 - 1 - pre.length = pfx.length := by
    omega
  have harith4 : pre.length + pfx.length - pre.length = pfx.length := by
    omega
  have hcondF : ¬(¬(incl = true) ∧ (steps2.isEmpty = true)) := by
    rintro ⟨hni, hie⟩
    have hinclF : incl = false := by
      cases incl
      · rfl
      · exact absurd rfl hni
    have hnil : steps2 = [] := by
      cases steps2 with
      | nil => rfl
      | cons a l => simp [List.isEmpty] at hie
    subst hinclF
    subst hnil
    simp [verifyGo] at hdeep
  have hrew0 : rewindStep ch pfx.length cs =
      (match (someChildren cs).filter (fun q => q.2 != b) with
      | [(n, ixn)] =>
        match n with
        | .leaf _ nfull nv => some (.leaf pfx.length nfull (hashB nv))
        | .branch npfx ncs =>
          some (.fork pfx.length ixn npfx (merkleRoot (childHashes ncs)))
        | .empty => none
      | _ => some (.branch pfx.length (merkleProof (childHashes cs) b))) := by
    simp only [rewindStep]
    rw [hme, if_pos hblt]
  have hproofBranch :
      verifyGo full val incl pre.length
        (.branch pfx.length (merkleProof (childHashes cs) b) :: steps2) =
        some (some (Branch_computeHash pfx
          (merkleRoot ((childHashes cs).set b hchild)))) := by
    simp only [verifyGo, Step.skipOf, harith, hdeep, Option.getD_some, hthis,
      harith2, harith3, harith4, htake, if_pos hb16]
    rw [merkleTable_merkleProof (childHashes cs)
      (by rw [length_childHashes, hlen]) b hb16 hchild]
  rcases hfil : (someChildren cs).filter (fun q => q.2 != b) with _ | ⟨⟨n, j⟩, rest3⟩
  · -- no other children recorded: Branch step
    refine ⟨.branch pfx.length (merkleProof (childHashes cs) b), ?_, rfl, ?_, hproofBranch⟩
    · rw [hrew0, hfil]
    · simpa [stepsOK] using hsok
  · cases rest3 with
    | cons q rest4 =>
      refine ⟨.branch pfx.length (merkleProof (childHashes cs) b), ?_, rfl, ?_, hproofBranch⟩
      · rw [hrew0, hfil]
      · simpa [stepsOK] using hsok
    | nil =>
      -- exactly one other child (n, j): Fork or Leaf step
      have hmemnj : (n, j) ∈ (someChildren cs).filter (fun q => q.2 != b) := by
        rw [hfil]
        exact List.mem_singleton.2 rfl
      have hgetj : cs.getD j none = some n :=
        mem_someChildren.1 (List.mem_of_mem_filter hmemnj)
      have hjb : j ≠ b := by
        have h2 := (List.mem_filter.1 hmemnj).2
        simpa using h2
      have hbj : b ≠ j := fun hh => hjb hh.symm
      have hj16 : j < 16 := hlen ▸ getD_lt_length hgetj
      have honly : ∀ k u, cs.getD k none = some u → k = b ∨ k = j := by
        intro k u hk
        by_cases hkb : k = b
        · exact Or.inl hkb
        · right
          have hmemk : (u, k) ∈ (someChildren cs).filter (fun q => q.2 != b) :=
            List.mem_filter.2 ⟨mem_someChildren.2 hk, by simpa using hkb⟩
          rw [hfil] at hmemk
          have := List.mem_singleton.1 hmemk
          exact congrArg Prod.snd this
      have hwfj := hwfn j n hgetj
      have hsparse := childHashes_set_sparse hlen hgetj hbj hb16 honly hchild
      cases n with
      | empty => exact absurd rfl (hnemp j _ hgetj)
      | branch npfx ncs =>
        refine ⟨.fork pfx.length j npfx (merkleRoot (childHashes ncs)), ?_,
          rfl, ?_, ?_⟩
        · rw [hrew0, hfil]
        · simpa [stepsOK] using hsok
        · simp only [verifyGo, Step.skipOf, harith, hdeep, Option.getD_some,
            hthis, harith2, harith3, harith4, htake, if_neg hcondF, if_neg hjb,
            if_pos (And.intro hb16 hj16)]
          rw [hsparse]
          rfl
      | leaf nsuf nfull nv =>
        cases hwfj with
        | leaf _ _ _ hnb hnl =>
          have htkeq : ((pre ++ pfx ++ [j]) ++ nsuf).take pre.length =
              full.take pre.length := by
            rw [hfull]
            rw [show (pre ++ pfx ++ [j]) ++ nsuf =
              pre ++ (pfx ++ [j] ++ nsuf) by simp]
            rw [show pre ++ pfx ++ b :: rest2 =
              pre ++ (pfx ++ b :: rest2) by simp]
            rw [List.take_left, List.take_left]
          have hnNib : ((pre ++ pfx ++ [j]) ++ nsuf).getD
              (pre.length + pfx.length) 16 = j := by
            have := getD_at (pre ++ pfx) j nsuf 16
            simpa [List.length_append] using this
          have hdropn : ((pre ++ pfx ++ [j]) ++ nsuf).drop
              (pre.length + pfx.length + 1) = nsuf := by
            have h1 : ((pre ++ pfx ++ [j]) ++ nsuf).drop
                ((pre ++ pfx ++ [j]).length) = nsuf := List.drop_left _ _
            have h2 : (pre ++ pfx ++ [j]).length =
                pre.length + pfx.length + 1 := by simp; omega
            rw [h2] at h1
            exact h1
          refine ⟨.leaf pfx.length ((pre ++ pfx ++ [j]) ++ nsuf) (hashB nv),
            ?_, rfl, ?_, ?_⟩
          · rw [hrew0, hfil]
          · simp only [stepsOK, Bool.and_eq_true, beq_iff_eq, List.all_eq_true]
            refine ⟨⟨?_, ?_⟩, hsok⟩
            · simpa using hnl
            · intro x hx
              simpa using hnb x hx
          · simp only [verifyGo, Step.skipOf, harith, hdeep, Option.getD_some,
              hthis, harith2, harith3, harith4, htake, htkeq, if_pos rfl, hnNib,
              if_neg hjb, if_neg hcondF, if_pos (And.intro hb16 hj16), hdropn,
              if_true]
            rw [hsparse]
            rfl
-- -----------------------------------------------------------------------------
-- Inclusion: walk produces a proof that verifies to the root
-- -----------------------------------------------------------------------------

theorem walk_incl {pre : List Nat} {t : Trie} (hwf : WFS pre t) :
    HDist t → ∀ {full : List Nat} {v : Bs}, (full, v) ∈ binds t →
    ∃ steps, walkGo t (full.drop pre.length) = some ⟨full, some v, steps⟩ ∧
      stepsB pre.length steps = true ∧ stepsOK steps = true ∧
      verifyGo full (some v) true pre.length steps =
        some (some (trieHash t)) := by
  induction hwf with
  | leaf pre suf vl hn hl =>
    intro hdist full v hmem
    rw [binds] at hmem
    simp only [List.mem_singleton, Prod.mk.injEq] at hmem
    obtain ⟨h1, h2⟩ := hmem
    subst h1
    subst h2
    have hdrop : (pre ++ suf).drop pre.length = suf := List.drop_left _ _
    refine ⟨[], ?_, ?_, rfl, ?_⟩
    · rw [walkGo, hdrop]
      rw [if_pos isPrefixOf_self]
      simp
    · have hple : pre.length ≤ 64 := by
        have := hl
        simp only [List.length_append] at this
        omega
      simp [stepsB, hple]
    · simp only [verifyGo, hdrop]
      rfl
  | branch pre pfx cs hlen hnib hcount hne hch ih =>
    intro hdist full v hmem
    have hdisC : ∀ i j ti tj, i ≠ j → cs.getD i none = some ti →
        cs.getD j none = some tj → trieHash ti ≠ trieHash tj := by
      cases hdist with | branch _ _ hd _ => exact hd
    have hdistC : ∀ i u, cs.getD i none = some u → HDist u := by
      cases hdist with | branch _ _ _ hd => exact hd
    rw [binds] at hmem
    obtain ⟨b, tb, hget, hmi⟩ := bindsL_mem hmem
    have hwfb := hch b tb hget
    obtain ⟨tail2, htail2⟩ := binds_full hwfb hmi
    have hb16 : b < 16 := hlen ▸ getD_lt_length hget
    obtain ⟨steps2, hwalk2, hsb2, hsok2, hver2⟩ :=
      ih b tb hget (hdistC b tb hget) hmi
    have hfull2 : full = pre ++ pfx ++ b :: tail2 := by
      rw [htail2]
      simp
    have hdrop : full.drop pre.length = pfx ++ b :: tail2 := by
      rw [hfull2, List.append_assoc, List.drop_left]
    have hdrop2 : full.drop (pre ++ pfx ++ [b]).length = tail2 := by
      rw [htail2]
      exact List.drop_left _ _
    rw [hdrop2] at hwalk2
    have hlen3 : (pre ++ pfx ++ [b]).length = pre.length + pfx.length + 1 := by
      simp
      omega
    rw [hlen3] at hsb2 hver2
    obtain ⟨st, hrew, hskip, hsokst, hverst⟩ :=
      step_verify hlen hget hne hch hdisC hfull2 hver2 hsok2
    refine ⟨st :: steps2, ?_, ?_, hsokst, ?_⟩
    · rw [hdrop]
      simp only [walkGo, isPrefixOf_append, eq_self_iff_true, if_true,
        List.drop_left, List.headD_cons, List.drop_succ_cons, List.drop_zero,
        if_pos hb16]
      split
      · next heq =>
        rw [List.drop_left, List.headD_cons, hget] at heq
        exact Option.noConfusion heq
      · next child heq =>
        rw [List.drop_left, List.headD_cons, hget] at heq
        obtain rfl : child = tb := (Option.some.inj heq).symm
        simp only [List.drop_left, List.drop_succ_cons, List.drop_zero,
          hwalk2, hrew]
    · simp only [stepsB, hskip]
      have harr : pre.length + 1 + pfx.length = pre.length + pfx.length + 1 := by
        omega
      rw [harr]
      exact hsb2
    · have hsetself : (childHashes cs).set b (trieHash tb) = childHashes cs := by
        apply set_getD_eq nullHash ?hh ?hl2
        case hl2 =>
          rw [length_childHashes]
          exact getD_lt_length hget
        case hh =>
          rw [childHashes_eq_map]
          have hblt : b < cs.length := getD_lt_length hget
          rw [List.getD_eq_getElem _ _ (by simpa using hblt), List.getElem_map]
          have hgetb : cs[b] = some tb := by
            rw [List.getD_eq_getElem _ _ hblt] at hget
            exact hget
          rw [hgetb]
          rfl
      rw [hverst, hsetself]
      rfl

-- -----------------------------------------------------------------------------
-- Inclusion verification is injective in the value
-- -----------------------------------------------------------------------------

theorem verify_incl_some {p : List Nat} {v : Bs} {c : Nat}
    {steps : List Step} {r : Option Bs}
    (h : verifyGo p (some v) true c steps = some r) : ∃ m, r = some m := by
  cases steps with
  | nil =>
    have e1 : verifyGo p (some v) true c [] =
        some (some (Leaf_computeHash (p.drop c) (hashB v))) := rfl
    rw [e1] at h
    exact ⟨_, (Option.some.inj h).symm⟩
  | cons st rest =>
    rcases hrec : verifyGo p (some v) true (c + 1 + st.skipOf) rest
      with _ | me?
    · rw [verifyGo, hrec] at h
      exact Option.noConfusion h
    · cases st with
      | branch s ns =>
        simp only [Step.skipOf] at hrec
        simp only [verifyGo, Step.skipOf, hrec] at h
        repeat' split at h
        all_goals
          first
            | exact ⟨_, (Option.some.inj h).symm⟩
            | exact Option.noConfusion h
      | fork s nib pfxN rt =>
        simp only [Step.skipOf] at hrec
        simp only [verifyGo, Step.skipOf, hrec] at h
        repeat' split at h
        all_goals
          first
            | exact ⟨_, (Option.some.inj h).symm⟩
            | exact Option.noConfusion h
      | leaf s nkey nval =>
        simp only [Step.skipOf] at hrec
        simp only [verifyGo, Step.skipOf, hrec] at h
        repeat' split at h
        all_goals
          first
            | exact ⟨_, (Option.some.inj h).symm⟩
            | exact Option.noConfusion h

theorem verify_value {p : List Nat} {v : Bs} :
    ∀ {steps : List Step} {c : Nat} {h : Bs},
    verifyGo p (some v) true c steps = some (some h) →
    ∀ v2 : Bs, ∃ h2, verifyGo p (some v2) true c steps = some (some h2) ∧
      (h2 = h → v2 = v) := by
  intro steps
  induction steps with
  | nil =>
    intro c h hv v2
    have hx : Leaf_computeHash (p.drop c) (hashB v) = h :=
      Option.some.inj (Option.some.inj hv)
    refine ⟨Leaf_computeHash (p.drop c) (hashB v2), rfl, ?_⟩
    intro heq
    rw [← hx] at heq
    exact Leaf_value_inj heq
  | cons st rest ih =>
    intro c h hv v2
    rcases hrec : verifyGo p (some v) true (c + 1 + st.skipOf) rest
      with _ | me?
    · rw [verifyGo, hrec] at hv
      exact Option.noConfusion hv
    · obtain ⟨m, rfl⟩ := verify_incl_some hrec
      obtain ⟨m2, hrec2, hm2⟩ := ih hrec v2
      cases st with
      | branch s ns =>
        simp only [Step.skipOf] at hrec hrec2
        simp only [verifyGo, Step.skipOf, hrec, Option.getD_some] at hv
        simp only [verifyGo, Step.skipOf, hrec2, Option.getD_some]
        split at hv
        · next h16 =>
          rw [if_pos h16]
          have hX := Option.some.inj (Option.some.inj hv)
          refine ⟨_, rfl, ?_⟩
          intro heq
          rw [← hX] at heq
          exact hm2 (merkleTable_inj h16 (Branch_root_inj heq))
        · exact Option.noConfusion hv
      | fork s nib pfxN rt =>
        simp only [Step.skipOf] at hrec hrec2
        simp only [verifyGo, Step.skipOf, hrec, Option.getD_some] at hv
        simp only [verifyGo, Step.skipOf, hrec2, Option.getD_some]
        split at hv
        · next hcond => exact absurd trivial hcond.1
        · next hcond =>
          split at hv
          · exact Option.noConfusion hv
          · next hnib =>
            split at hv
            · next hbounds =>
              rw [if_neg hcond, if_neg hnib, if_pos hbounds]
              have hX := Option.some.inj (Option.some.inj hv)
              refine ⟨_, rfl, ?_⟩
              intro heq
              rw [← hX] at heq
              exact hm2 (sparse_root_inj hbounds.1 (Branch_root_inj heq))
            · exact Option.noConfusion hv
      | leaf s nkey nval =>
        simp only [Step.skipOf] at hrec hrec2
        simp only [verifyGo, Step.skipOf, hrec, Option.getD_some] at hv
        simp only [verifyGo, Step.skipOf, hrec2, Option.getD_some]
        split at hv
        · next htk =>
          split at hv
          · exact Option.noConfusion hv
          · next hnn =>
            split at hv
            · next hcond => exact absurd trivial hcond.1
            · next hcond =>
              split at hv
              · next hbounds =>
                rw [if_pos htk, if_neg hnn, if_neg hcond, if_pos hbounds]
                have hX := Option.some.inj (Option.some.inj hv)
                refine ⟨_, rfl, ?_⟩
                intro heq
                rw [← hX] at heq
                exact hm2 (sparse_root_inj hbounds.1 (Branch_root_inj heq))
              · exact Option.noConfusion hv
        · exact Option.noConfusion hv

-- -----------------------------------------------------------------------------
-- The on-chain verifier agrees with the off-chain verifier
-- -----------------------------------------------------------------------------

theorem getD16_lt {p : List Nat} {i : Nat} (h : p.getD i 16 < 16) :
    i < p.length := by
  by_contra hge
  rw [List.getD_eq_default _ _ (Nat.le_of_not_lt hge)] at h
  omega

theorem path_nibble16 {p : List Nat} (hp : pathOK p) {i : Nat}
    (hi : i < 64) : nibble (pack p) i = p.getD i 16 := by
  rw [path_getD_pack hp i]
  exact getD_indep (by rw [hp.1]; exact hi) 0 16

theorem stepsOK_leaf {s : Nat} {nkey : List Nat} {nval : Bs}
    {rest : List Step}
    (h : stepsOK (.leaf s nkey nval :: rest) = true) :
    pathOK nkey ∧ stepsOK rest = true := by
  simp only [stepsOK, Bool.and_eq_true, beq_iff_eq, List.all_eq_true] at h
  refine ⟨⟨h.1.1, ?_⟩, h.2⟩
  intro x hx
  simpa using h.1.2 x hx

set_option maxHeartbeats 1000000 in
theorem incl_on {p : List Nat} (hp : pathOK p) {v : Bs} :
    ∀ (steps : List Step) (c : Nat), stepsB c steps = true →
    stepsOK steps = true → ∀ {h : Bs},
    verifyGo p (some v) true c steps = some (some h) →
    do_including (pack p) (hashB v) c (steps.map toOn) = some h := by
  intro steps
  induction steps with
  | nil =>
    intro c hsb hsok h hv
    have hc64 : c ≤ 64 := by simpa [stepsB] using hsb
    have hx : Leaf_computeHash (p.drop c) (hashB v) = h :=
      Option.some.inj (Option.some.inj hv)
    simp only [List.map_nil, do_including]
    rw [suffix_pack hp hc64, ← hx]
    rfl
  | cons st rest ih =>
    intro c hsb hsok h hv
    rcases hrec : verifyGo p (some v) true (c + 1 + st.skipOf) rest
      with _ | me?
    · rw [verifyGo, hrec] at hv
      exact Option.noConfusion hv
    · obtain ⟨m, rfl⟩ := verify_incl_some hrec
      have harr : c + 1 + st.skipOf = c + st.skipOf + 1 := by omega
      cases st with
      | branch s ns =>
        simp only [Step.skipOf] at hrec harr
        have hsb2 : stepsB (c + s + 1) rest = true := by
          have hh := hsb
          simp only [stepsB, Step.skipOf] at hh
          rw [← harr]
          exact hh
        have hsok2 : stepsOK rest = true := by simpa [stepsOK] using hsok
        have hrecI : verifyGo p (some v) true (c + s + 1) rest =
            some (some m) := by
          rw [← harr]
          exact hrec
        have hon := ih (c + s + 1) hsb2 hsok2 hrecI
        simp only [verifyGo, Step.skipOf, hrec, Option.getD_some] at hv
        split at hv
        · next h16 =>
          have hX := Option.some.inj (Option.some.inj hv)
          have harr2 : c + 1 + s - 1 = c + s := by omega
          rw [harr2] at h16
          rw [harr2] at hX
          rw [show c + s - c = s from by omega] at hX
          have hin : c + s < p.length := getD16_lt h16
          have hin64 : c + s < 64 := by
            rw [hp.1] at hin
            exact hin
          have hc64 : c + s ≤ 64 := by omega
          simp only [List.map_cons, toOn, do_including, hon, Option.map_some]
          simp only [do_branch]
          rw [path_nibble16 hp (by omega)]
          rw [nibbles_pack hp (by omega) hc64]
          rw [show c + s - c = s by omega]
          rw [merkleTable_eq_merkle_16 _ h16] at hX
          rw [← hX]
          rfl
        · exact Option.noConfusion hv
      | fork s nib pfxN rt =>
        simp only [Step.skipOf] at hrec harr
        have hsb2 : stepsB (c + s + 1) rest = true := by
          have hh := hsb
          simp only [stepsB, Step.skipOf] at hh
          rw [← harr]
          exact hh
        have hsok2 : stepsOK rest = true := by simpa [stepsOK] using hsok
        have hrecI : verifyGo p (some v) true (c + s + 1) rest =
            some (some m) := by
          rw [← harr]
          exact hrec
        have hon := ih (c + s + 1) hsb2 hsok2 hrecI
        simp only [verifyGo, Step.skipOf, hrec, Option.getD_some] at hv
        split at hv
        · next hcond => exact absurd trivial hcond.1
        · next hcond =>
          split at hv
          · exact Option.noConfusion hv
          · next hnib =>
            split at hv
            · next hbounds =>
              have hX := Option.some.inj (Option.some.inj hv)
              have harr2 : c + 1 + s - 1 = c + s := by omega
              rw [harr2] at hbounds hnib
              rw [harr2] at hX
              rw [show c + s - c = s from by omega] at hX
              have hin : c + s < p.length := getD16_lt hbounds.1
              have hin64 : c + s < 64 := by
                rw [hp.1] at hin
                exact hin
              have hc64 : c + s ≤ 64 := by omega
              simp only [List.map_cons, toOn, do_including, hon,
                Option.some_bind]
              simp only [do_fork]
              rw [path_nibble16 hp (by omega)]
              rw [nibbles_pack hp (by omega) hc64]
              rw [show c + s - c = s by omega]
              rw [if_neg (fun hh => hnib hh.symm)]
              rw [sparse16_merkleRoot _ _ hbounds.1 hbounds.2
                (fun hh => hnib hh.symm) m (combine (bs pfxN) rt)]
              rw [← hX]
              rfl
            · exact Option.noConfusion hv
      | leaf s nkey nval =>
        simp only [Step.skipOf] at hrec harr
        obtain ⟨hkOK, hsok2⟩ := stepsOK_leaf hsok
        have hsb2 : stepsB (c + s + 1) rest = true := by
          have hh := hsb
          simp only [stepsB, Step.skipOf] at hh
          rw [← harr]
          exact hh
        have hrecI : verifyGo p (some v) true (c + s + 1) rest =
            some (some m) := by
          rw [← harr]
          exact hrec
        have hon := ih (c + s + 1) hsb2 hsok2 hrecI
        simp only [verifyGo, Step.skipOf, hrec, Option.getD_some] at hv
        split at hv
        · next htk =>
          split at hv
          · exact Option.noConfusion hv
          · next hnn =>
            split at hv
            · next hcond => exact absurd trivial hcond.1
            · next hcond =>
              split at hv
              · next hbounds =>
                have hX := Option.some.inj (Option.some.inj hv)
                have harr2 : c + 1 + s - 1 = c + s := by omega
                rw [harr2] at hbounds hnn
                rw [harr2] at hX
                rw [show c + s - c = s from by omega] at hX
                rw [harr] at hX
                have hin : c + s < p.length := getD16_lt hbounds.1
                have hin64 : c + s < 64 := by
                  rw [hp.1] at hin
                  exact hin
                have hc64 : c + s ≤ 64 := by omega
                have hkin : c + s < 64 := by
                  have hh := getD16_lt hbounds.2
                  rw [hkOK.1] at hh
                  exact hh
                simp only [List.map_cons, toOn, do_including, hon,
                  Option.some_bind]
                simp only [do_fork]
                rw [path_nibble16 hp (by omega), path_nibble16 hkOK (by omega)]
                rw [nibbles_pack hp (by omega) hc64]
                rw [show c + s - c = s by omega]
                rw [if_neg (fun hh => hnn hh.symm)]
                rw [suffix_pack hkOK (by omega)]
                rw [sparse16_merkleRoot _ _ hbounds.1 hbounds.2
                  (fun hh => hnn hh.symm) m
                  (combine (bs (leafSuffixBytes (nkey.drop (c + s + 1)))) nval)]
                rw [← hX]
                rfl
              · exact Option.noConfusion hv
        · exact Option.noConfusion hv

set_option maxHeartbeats 1000000 in
theorem excl_on {p : List Nat} (hp : pathOK p) {val : Option Bs} :
    ∀ (steps : List Step) (c : Nat), stepsB c steps = true →
    stepsOK steps = true → ∀ {r : Option Bs},
    verifyGo p val false c steps = some r →
    do_excluding (pack p) c (steps.map toOn) = some (r.getD nullHash) := by
  intro steps
  induction steps with
  | nil =>
    intro c _ _ r hv
    have e1 : verifyGo p val false c [] = some none := rfl
    rw [e1] at hv
    obtain rfl : (none : Option Bs) = r := Option.some.inj hv
    rfl
  | cons st rest ih =>
    intro c hsb hsok r hv
    rcases hrec : verifyGo p val false (c + 1 + st.skipOf) rest with _ | me?
    · rw [verifyGo, hrec] at hv
      exact Option.noConfusion hv
    · have harr : c + 1 + st.skipOf = c + st.skipOf + 1 := by omega
      cases st with
      | branch s ns =>
        simp only [Step.skipOf] at hrec harr
        have hsb2 : stepsB (c + s + 1) rest = true := by
          have hh := hsb
          simp only [stepsB, Step.skipOf] at hh
          rw [← harr]
          exact hh
        have hsok2 : stepsOK rest = true := by simpa [stepsOK] using hsok
        have hrecI : verifyGo p val false (c + s + 1) rest = some me? := by
          rw [← harr]
          exact hrec
        have hon := ih (c + s + 1) hsb2 hsok2 hrecI
        simp only [verifyGo, Step.skipOf, hrec] at hv
        split at hv
        · next h16 =>
          obtain rfl := Option.some.inj hv
          have harr2 : c + 1 + s - 1 = c + s := by omega
          rw [harr2] at h16
          have hin : c + s < p.length := getD16_lt h16
          have hin64 : c + s < 64 := by
            rw [hp.1] at hin
            exact hin
          simp only [List.map_cons, toOn, do_excluding, hon, Option.map_some,
            Option.getD_some]
          simp only [do_branch]
          rw [harr2]
          rw [path_nibble16 hp (by omega)]
          rw [nibbles_pack hp (by omega) (by omega)]
          rw [show c + s - c = s from by omega]
          rw [merkleTable_eq_merkle_16 _ h16]
          rfl
        · exact Option.noConfusion hv
      | fork s nib pfxN rt =>
        simp only [Step.skipOf] at hrec harr
        cases rest with
        | nil =>
          have hc641 : c + 1 + s ≤ 64 := by
            simpa [stepsB, Step.skipOf] using hsb
          simp only [verifyGo, Step.skipOf, hrec, List.isEmpty_nil,
            Bool.false_eq_true, not_false_iff, eq_self_iff_true, true_and,
            and_true, and_self, if_true] at hv
          by_cases hs : s = 0
          · rw [if_pos hs] at hv
            obtain rfl := Option.some.inj hv
            subst hs
            simp only [List.map_cons, List.map_nil, toOn, do_excluding,
              Option.getD_some, if_pos rfl]
            rfl
          · rw [if_neg hs] at hv
            obtain rfl := Option.some.inj hv
            simp only [List.map_cons, List.map_nil, toOn, do_excluding,
              Option.getD_some, if_neg hs]
            rw [nibbles_pack hp (by omega) (by omega)]
            rw [show c + s - c = s from by omega]
            rfl
        | cons st2 rest2 =>
          have hsb2 : stepsB (c + s + 1) (st2 :: rest2) = true := by
            have hh := hsb
            simp only [stepsB, Step.skipOf] at hh
            rw [← harr]
            exact hh
          have hsok2 : stepsOK (st2 :: rest2) = true := by
            simpa [stepsOK] using hsok
          have hrecI : verifyGo p val false (c + s + 1) (st2 :: rest2) =
              some me? := by
            rw [← harr]
            exact hrec
          have hon := ih (c + s + 1) hsb2 hsok2 hrecI
          rw [verifyGo] at hv
          simp only [Step.skipOf] at hv
          rw [hrec] at hv
          simp only [List.isEmpty_cons, Bool.false_eq_true, not_false_iff,
            true_and, and_false, false_and, and_self, if_false] at hv
          by_cases hnib : nib = p.getD (c + 1 + s - 1) 16
          · rw [if_pos hnib] at hv
            exact Option.noConfusion hv
          · rw [if_neg hnib] at hv
            by_cases hbounds : p.getD (c + 1 + s - 1) 16 < 16 ∧ nib < 16
            · rw [if_pos hbounds] at hv
              obtain rfl := Option.some.inj hv
              have harr2 : c + 1 + s - 1 = c + s := by omega
              rw [harr2] at hbounds hnib
              have hin : c + s < p.length := getD16_lt hbounds.1
              have hin64 : c + s < 64 := by
                rw [hp.1] at hin
                exact hin
              have hmap : (Step.fork s nib pfxN rt :: st2 :: rest2).map toOn =
                  OStep.fork s nib pfxN rt :: toOn st2 ::
                    List.map toOn rest2 := rfl
              rw [hmap]
              rw [List.map_cons] at hon
              simp only [do_excluding, hon, Option.some_bind,
                Option.getD_some]
              simp only [do_fork]
              rw [harr2]
              rw [path_nibble16 hp (by omega)]
              rw [nibbles_pack hp (by omega) (by omega)]
              rw [show c + s - c = s from by omega]
              have hne2 : ¬(p.getD (c + s) 16 = nib) := fun hh => hnib hh.symm
              rw [if_neg hne2]
              rw [sparse16_merkleRoot _ _ hbounds.1 hbounds.2
                (fun hh => hnib hh.symm) (me?.getD nullHash)
                (combine (bs pfxN) rt)]
              rfl
            · rw [if_neg hbounds] at hv
              exact Option.noConfusion hv
      | leaf s nkey nval =>
        simp only [Step.skipOf] at hrec harr
        obtain ⟨hkOK, hsok2⟩ := stepsOK_leaf hsok
        cases rest with
        | nil =>
          have hc641 : c + 1 + s ≤ 64 := by
            simpa [stepsB, Step.skipOf] using hsb
          simp only [verifyGo, Step.skipOf, hrec, List.isEmpty_nil,
            Bool.false_eq_true, not_false_iff, eq_self_iff_true, true_and,
            and_true, and_self, if_true] at hv
          by_cases htk : nkey.take c = p.take c
          · rw [if_pos htk] at hv
            by_cases hnn : nkey.getD (c + 1 + s - 1) 16 =
                p.getD (c + 1 + s - 1) 16
            · rw [if_pos hnn] at hv
              exact Option.noConfusion hv
            · rw [if_neg hnn] at hv
              obtain rfl := Option.some.inj hv
              simp only [List.map_cons, List.map_nil, toOn, do_excluding,
                Option.getD_some]
              rw [suffix_pack hkOK (by omega)]
              rfl
          · rw [if_neg htk] at hv
            exact Option.noConfusion hv
        | cons st2 rest2 =>
          have hsb2 : stepsB (c + s + 1) (st2 :: rest2) = true := by
            have hh := hsb
            simp only [stepsB, Step.skipOf] at hh
            rw [← harr]
            exact hh
          have hrecI : verifyGo p val false (c + s + 1) (st2 :: rest2) =
              some me? := by
            rw [← harr]
            exact hrec
          have hon := ih (c + s + 1) hsb2 hsok2 hrecI
          rw [verifyGo] at hv
          simp only [Step.skipOf] at hv
          rw [hrec] at hv
          simp only [List.isEmpty_cons, Bool.false_eq_true, not_false_iff,
            true_and, and_false, false_and, and_self, if_false] at hv
          by_cases htk : nkey.take c = p.take c
          · rw [if_pos htk] at hv
            by_cases hnn : nkey.getD (c + 1 + s - 1) 16 =
                p.getD (c + 1 + s - 1) 16
            · rw [if_pos hnn] at hv
              exact Option.noConfusion hv
            · rw [if_neg hnn] at hv
              by_cases hbounds : p.getD (c + 1 + s - 1) 16 < 16 ∧
                  nkey.getD (c + 1 + s - 1) 16 < 16
              · rw [if_pos hbounds] at hv
                obtain rfl := Option.some.inj hv
                have harr2 : c + 1 + s - 1 = c + s := by omega
                rw [harr2] at hbounds hnn
                have hin : c + s < p.length := getD16_lt hbounds.1
                have hin64 : c + s < 64 := by
                  rw [hp.1] at hin
                  exact hin
                have hkin : c + s < 64 := by
                  have hh := getD16_lt hbounds.2
                  rw [hkOK.1] at hh
                  exact hh
                have hmap : (Step.leaf s nkey nval :: st2 :: rest2).map toOn =
                    OStep.leaf s (pack nkey) nval :: toOn st2 ::
                      List.map toOn rest2 := rfl
                rw [hmap]
                rw [List.map_cons] at hon
                simp only [do_excluding, hon, Option.some_bind,
                  Option.getD_some]
                simp only [do_fork]
                rw [harr2]
                rw [harr]
                rw [path_nibble16 hp (by omega),
                  path_nibble16 hkOK (by omega)]
                rw [nibbles_pack hp (by omega) (by omega)]
                rw [show c + s - c = s from by omega]
                have hne2 : ¬(p.getD (c + s) 16 = nkey.getD (c + s) 16) :=
                  fun hh => hnn hh.symm
                rw [if_neg hne2]
                rw [suffix_pack hkOK (by omega)]
                rw [sparse16_merkleRoot _ _ hbounds.1 hbounds.2
                  (fun hh => hnn hh.symm) (me?.getD nullHash)
                  (combine (bs (leafSuffixBytes (nkey.drop (c + s + 1))))
                    nval)]
                rfl
              · rw [if_neg hbounds] at hv
                exact Option.noConfusion hv
          · rw [if_neg htk] at hv
            exact Option.noConfusion hv

-- -----------------------------------------------------------------------------
-- C2: inclusion soundness of prove/verify/has
-- -----------------------------------------------------------------------------

/-- C2: for every (well-formed, hash-distinct) trie `T` and every pair
`(k, v)` stored in `T`, the proof produced by `prove(T, k)` carries `k`'s
path and `v`, verifying it in including mode yields exactly `root(T)`, and
the on-chain `has(root(T), k, v, proof)` returns true; for every value
`v' ≠ v`, verification with `v'` yields a hash different from `root(T)`,
and `has` returns false. -/
theorem claim_C2 {t : Trie} {full : List Nat} {v : Bs}
    (hwf : WFS [] t) (hdist : HDist t) (hmem : (full, v) ∈ binds t) :
    ∃ pf : PF, proveFn t full = some pf ∧ pf.path = full ∧
      pf.val = some v ∧
      verify pf true = some (trieHash t) ∧
      hasFn (trieHash t) (pack full) (hashB v) (pf.steps.map toOn) = true ∧
      ∀ v2 : Bs, v2 ≠ v →
        verify ⟨pf.path, some v2, pf.steps⟩ true ≠ some (trieHash t) ∧
        hasFn (trieHash t) (pack full) (hashB v2) (pf.steps.map toOn) =
          false := by
  have hp : pathOK full := binds_pathOK hwf (full, v) hmem
  obtain ⟨steps, hwalk, hsb, hsok, hver⟩ := walk_incl hwf hdist hmem
  simp only [List.length_nil, List.drop_zero] at hwalk hsb hver
  refine ⟨⟨full, some v, steps⟩, ?_, rfl, rfl, ?_, ?_, ?_⟩
  · rw [proveFn]
    exact hwalk
  · simp only [verify, hver]
  · have hinc := incl_on hp steps 0 hsb hsok hver
    simp [hasFn, including, hinc]
  · intro v2 hne
    obtain ⟨h2, hver2, himp⟩ := verify_value hver v2
    have hne2 : h2 ≠ trieHash t := fun hh => hne (himp hh)
    constructor
    · simp only [verify, hver2]
      exact fun hh => hne2 (Option.some.inj hh)
    · have hinc2 := incl_on hp steps 0 hsb hsok hver2
      simp [hasFn, including, hinc2, hne2]

set_option maxHeartbeats 2000000 in
theorem exBr_wfs : WFS [] exBr := by
  apply WFS.branch [] [] (vec2 0 exL2 1 exL3) (vec2_length 0 exL2 1 exL3)
    (by simp) (by decide)
  · intro i u hget
    have hi : i < 16 := by
      have hh := getD_lt_length hget
      rw [vec2_length] at hh
      exact hh
    rw [vec2_getD hi] at hget
    by_cases h0 : i = 0
    · subst h0
      rw [if_pos rfl] at hget
      obtain rfl : exL2 = u := Option.some.inj hget
      intro hemp
      exact Trie.noConfusion hemp
    · rw [if_neg h0] at hget
      by_cases h1 : i = 1
      · subst h1
        rw [if_pos rfl] at hget
        obtain rfl : exL3 = u := Option.some.inj hget
        intro hemp
        exact Trie.noConfusion hemp
      · rw [if_neg h1] at hget
        exact Option.noConfusion hget
  · intro i u hget
    have hi : i < 16 := by
      have hh := getD_lt_length hget
      rw [vec2_length] at hh
      exact hh
    rw [vec2_getD hi] at hget
    by_cases h0 : i = 0
    · subst h0
      rw [if_pos rfl] at hget
      obtain rfl : exL2 = u := Option.some.inj hget
      have hsh : exL2 = .leaf (exP0.drop 1) ([] ++ [] ++ [0] ++ exP0.drop 1)
          (bs [1]) := rfl
      rw [hsh]
      exact WFS.leaf _ _ _ (by decide) (by decide)
    · rw [if_neg h0] at hget
      by_cases h1 : i = 1
      · subst h1
        rw [if_pos rfl] at hget
        obtain rfl : exL3 = u := Option.some.inj hget
        have hsh : exL3 = .leaf (exP1.drop 1) ([] ++ [] ++ [1] ++ exP1.drop 1)
            (bs [2]) := rfl
        rw [hsh]
        exact WFS.leaf _ _ _ (by decide) (by decide)
      · rw [if_neg h1] at hget
        exact Option.noConfusion hget

set_option maxHeartbeats 2000000 in
theorem exBr_hdist : HDist exBr := by
  apply HDist.branch
  · intro i j ti tj hij hgi hgj
    have hi : i < 16 := by
      have hh := getD_lt_length hgi
      rw [vec2_length] at hh
      exact hh
    have hj : j < 16 := by
      have hh := getD_lt_length hgj
      rw [vec2_length] at hh
      exact hh
    rw [vec2_getD hi] at hgi
    rw [vec2_getD hj] at hgj
    by_cases hi0 : i = 0
    · subst hi0
      rw [if_pos rfl] at hgi
      obtain rfl : exL2 = ti := Option.some.inj hgi
      have hj0 : ¬ j = 0 := fun hh => hij (by rw [hh])
      rw [if_neg hj0] at hgj
      by_cases hj1 : j = 1
      · subst hj1
        rw [if_pos rfl] at hgj
        obtain rfl : exL3 = tj := Option.some.inj hgj
        decide
      · rw [if_neg hj1] at hgj
        exact Option.noConfusion hgj
    · rw [if_neg hi0] at hgi
      by_cases hi1 : i = 1
      · subst hi1
        rw [if_pos rfl] at hgi
        obtain rfl : exL3 = ti := Option.some.inj hgi
        have hj1 : ¬ j = 1 := fun hh => hij (by rw [hh])
        rw [if_neg hj1] at hgj
        by_cases hj0 : j = 0
        · subst hj0
          rw [if_pos rfl] at hgj
          obtain rfl : exL2 = tj := Option.some.inj hgj
          decide
        · rw [if_neg hj0] at hgj
          exact Option.noConfusion hgj
      · rw [if_neg hi1] at hgi
        exact Option.noConfusion hgi
  · intro i u hget
    have hi : i < 16 := by
      have hh := getD_lt_length hget
      rw [vec2_length] at hh
      exact hh
    rw [vec2_getD hi] at hget
    by_cases h0 : i = 0
    · subst h0
      rw [if_pos rfl] at hget
      obtain rfl : exL2 = u := Option.some.inj hget
      exact HDist.leaf _ _ _
    · rw [if_neg h0] at hget
      by_cases h1 : i = 1
      · subst h1
        rw [if_pos rfl] at hget
        obtain rfl : exL3 = u := Option.some.inj hget
        exact HDist.leaf _ _ _
      · rw [if_neg h1] at hget
        exact Option.noConfusion hget

set_option maxHeartbeats 2000000 in
/-- Witness for C2 on the two-leaf trie `exBr` at the binding
`(exP1, bs [2])`. -/
theorem claim_C2_witness :
    WFS [] exBr ∧ HDist exBr ∧ (exP1, bs [2]) ∈ binds exBr ∧
      (∃ pf : PF, proveFn exBr exP1 = some pf ∧ pf.path = exP1 ∧
        pf.val = some (bs [2]) ∧
        verify pf true = some (trieHash exBr) ∧
        hasFn (trieHash exBr) (pack exP1) (hashB (bs [2]))
          (pf.steps.map toOn) = true ∧
        ∀ v2 : Bs, v2 ≠ bs [2] →
          verify ⟨pf.path, some v2, pf.steps⟩ true ≠ some (trieHash exBr) ∧
          hasFn (trieHash exBr) (pack exP1) (hashB v2)
            (pf.steps.map toOn) = false) :=
  ⟨exBr_wfs, exBr_hdist, by decide,
    claim_C2 exBr_wfs exBr_hdist (by decide)⟩

-- -----------------------------------------------------------------------------
-- Insert support: permutations of bindings, slot updates
-- -----------------------------------------------------------------------------

theorem isPrefixOf_of_pre {a b : List Nat} (h : a <+: b) :
    a.isPrefixOf b = true := by
  obtain ⟨r, rfl⟩ := h
  exact isPrefixOf_append

theorem WFS_ne_empty {pre : List Nat} {u : Trie} (h : WFS pre u) :
    u ≠ .empty := by
  cases h <;> intro hemp <;> exact Trie.noConfusion hemp

theorem bindsL_replicate (n : Nat) :
    bindsL (List.replicate n (none : Option Trie)) = [] := by
  induction n with
  | zero => rfl
  | succ m ih => simpa [List.replicate, bindsL] using ih

theorem vec2_eq_set {i j : Nat} (hij : i ≠ j) (x y : Trie) :
    vec2 i x j y =
      ((List.replicate 16 (none : Option Trie)).set i (some x)).set j
        (some y) := by
  apply List.ext_getElem
  · simp [vec2]
  · intro k h1 h2
    have hk : k < 16 := by simpa [vec2] using h1
    simp only [vec2, List.getElem_map, List.getElem_range, List.getElem_set,
      List.getElem_replicate]
    by_cases hjk : j = k
    · subst hjk
      have hji : ¬ j = i := fun hh => hij hh.symm
      simp [hji]
    · rw [if_neg hjk]
      by_cases hik : i = k
      · subst hik
        simp
      · have hki : ¬ k = i := fun hh => hik hh.symm
        have hkj : ¬ k = j := fun hh => hjk hh.symm
        simp [hki, hkj, hik]

theorem bindsL_set_perm {cs : List (Option Trie)} {i : Nat}
    (hi : i < cs.length) (hnone : cs.getD i none = none) (x : Trie) :
    List.Perm (bindsL (cs.set i (some x))) (binds x ++ bindsL cs) := by
  induction cs generalizing i with
  | nil => simp at hi
  | cons c r ih =>
    cases i with
    | zero =>
      rw [List.getD_cons_zero] at hnone
      subst hnone
      rw [List.set_cons_zero]
      rw [show bindsL (some x :: r) = binds x ++ bindsL r from rfl]
      rw [show bindsL ((none : Option Trie) :: r) = bindsL r from rfl]
    | succ j =>
      rw [List.getD_cons_succ] at hnone
      rw [List.set_cons_succ]
      cases c with
      | none =>
        rw [show bindsL ((none : Option Trie) :: r.set j (some x)) =
          bindsL (r.set j (some x)) from rfl]
        rw [show bindsL ((none : Option Trie) :: r) = bindsL r from rfl]
        exact ih (by simpa using hi) hnone
      | some t0 =>
        rw [show bindsL (some t0 :: r.set j (some x)) =
          binds t0 ++ bindsL (r.set j (some x)) from rfl]
        rw [show bindsL (some t0 :: r) = binds t0 ++ bindsL r from rfl]
        have h1 : List.Perm (binds t0 ++ bindsL (r.set j (some x)))
            (binds t0 ++ (binds x ++ bindsL r)) :=
          List.Perm.append_left _ (ih (by simpa using hi) hnone)
        have h2 : List.Perm (binds t0 ++ (binds x ++ bindsL r))
            (binds x ++ (binds t0 ++ bindsL r)) := by
          rw [← List.append_assoc, ← List.append_assoc]
          exact List.Perm.append_right _ List.perm_append_comm
        exact h1.trans h2

theorem bindsL_set_cons_perm {cs : List (Option Trie)} {i : Nat} {y : Trie}
    (hy : cs.getD i none = some y) {x : Trie} {e : List Nat × Bs}
    (hx : List.Perm (binds x) (e :: binds y)) :
    List.Perm (bindsL (cs.set i (some x))) (e :: bindsL cs) := by
  induction cs generalizing i with
  | nil =>
    rw [getD_nil] at hy
    exact Option.noConfusion hy
  | cons c r ih =>
    cases i with
    | zero =>
      rw [List.getD_cons_zero] at hy
      subst hy
      rw [List.set_cons_zero]
      rw [show bindsL (some x :: r) = binds x ++ bindsL r from rfl]
      rw [show bindsL (some y :: r) = binds y ++ bindsL r from rfl]
      have h1 : List.Perm (binds x ++ bindsL r)
          ((e :: binds y) ++ bindsL r) := List.Perm.append_right _ hx
      exact h1
    | succ j =>
      rw [List.getD_cons_succ] at hy
      rw [List.set_cons_succ]
      cases c with
      | none =>
        rw [show bindsL ((none : Option Trie) :: r.set j (some x)) =
          bindsL (r.set j (some x)) from rfl]
        rw [show bindsL ((none : Option Trie) :: r) = bindsL r from rfl]
        exact ih hy
      | some t0 =>
        rw [show bindsL (some t0 :: r.set j (some x)) =
          binds t0 ++ bindsL (r.set j (some x)) from rfl]
        rw [show bindsL (some t0 :: r) = binds t0 ++ bindsL r from rfl]
        have h1 : List.Perm (binds t0 ++ bindsL (r.set j (some x)))
            (binds t0 ++ (e :: bindsL r)) :=
          List.Perm.append_left _ (ih hy)
        exact h1.trans List.perm_middle

theorem bindsL_vec2_perm {i j : Nat} (hij : i ≠ j) (hi : i < 16)
    (hj : j < 16) (x y : Trie) :
    List.Perm (bindsL (vec2 i x j y)) (binds x ++ binds y) := by
  rw [vec2_eq_set hij]
  have h1 : ((List.replicate 16 (none : Option Trie)).set i
      (some x)).getD j none = none := by
    rw [getD_set_ne _ (fun hh => hij hh)]
    exact getD_replicate_none
  have h2 : List.Perm (bindsL (((List.replicate 16
      (none : Option Trie)).set i (some x)).set j (some y)))
      (binds y ++ bindsL ((List.replicate 16 (none : Option Trie)).set i
        (some x))) := bindsL_set_perm (by simpa using hj) h1 y
  have h3 : List.Perm (bindsL ((List.replicate 16
      (none : Option Trie)).set i (some x)))
      (binds x ++ bindsL (List.replicate 16 (none : Option Trie))) :=
    bindsL_set_perm (by simpa using hi) getD_replicate_none x
  rw [bindsL_replicate, List.append_nil] at h3
  have h4 := h2.trans (List.Perm.append_left _ h3)
  exact h4.trans List.perm_append_comm

theorem someChildrenGo_filter_ge {cs : List (Option Trie)} {s m : Nat}
    (hm : m < s) :
    (someChildrenGo s cs).filter (fun q => q.2 != m) =
      someChildrenGo s cs := by
  apply List.filter_eq_self.2
  rintro ⟨u, k⟩ hmem
  obtain ⟨j, rfl, _⟩ := someChildrenGo_mem.1 hmem
  have hne : s + j ≠ m := by omega
  simpa using hne

theorem someChildrenGo_filter_set {cs : List (Option Trie)} {j : Nat}
    (hj : j < cs.length) : ∀ s,
    (someChildrenGo s cs).filter (fun q => q.2 != (s + j)) =
      someChildrenGo s (cs.set j none) := by
  induction cs generalizing j with
  | nil => simp at hj
  | cons c r ih =>
    intro s
    cases j with
    | zero =>
      rw [List.set_cons_zero]
      cases c with
      | none =>
        rw [show someChildrenGo s ((none : Option Trie) :: r) =
          someChildrenGo (s + 1) r from rfl]
        rw [show s + 0 = s from rfl]
        exact someChildrenGo_filter_ge (by omega)
      | some t0 =>
        rw [show someChildrenGo s (some t0 :: r) =
          (t0, s) :: someChildrenGo (s + 1) r from rfl]
        rw [show someChildrenGo s ((none : Option Trie) :: r) =
          someChildrenGo (s + 1) r from rfl]
        rw [List.filter_cons]
        have hcond : (((t0, s) : Trie × Nat).2 != s + 0) = false := by
          simp
        rw [hcond]
        simp only [Bool.false_eq_true, if_false]
        rw [show s + 0 = s from rfl]
        exact someChildrenGo_filter_ge (by omega)
    | succ m =>
      rw [List.set_cons_succ]
      have hj2 : m < r.length := by simpa using hj
      have harr : s + (m + 1) = (s + 1) + m := by omega
      cases c with
      | none =>
        rw [show someChildrenGo s ((none : Option Trie) :: r) =
          someChildrenGo (s + 1) r from rfl]
        rw [show someChildrenGo s ((none : Option Trie) :: r.set m none) =
          someChildrenGo (s + 1) (r.set m none) from rfl]
        rw [harr]
        exact ih hj2 (s + 1)
      | some t0 =>
        rw [show someChildrenGo s (some t0 :: r) =
          (t0, s) :: someChildrenGo (s + 1) r from rfl]
        rw [show someChildrenGo s (some t0 :: r.set m none) =
          (t0, s) :: someChildrenGo (s + 1) (r.set m none) from rfl]
        rw [List.filter_cons]
        have hcond : (((t0, s) : Trie × Nat).2 != s + (m + 1)) = true := by
          simp
        rw [hcond, if_pos rfl]
        rw [harr]
        rw [ih hj2 (s + 1)]

theorem someChildren_filter_set {cs : List (Option Trie)} {j : Nat}
    (hj : j < cs.length) :
    (someChildren cs).filter (fun q => q.2 != j) =
      someChildren (cs.set j none) := by
  have := someChildrenGo_filter_set hj 0
  simpa [someChildren] using this

set_option maxHeartbeats 4000000 in
theorem insert_main {pre : List Nat} {t : Trie} (hwf : WFS pre t) :
    ∀ {t' : Trie} {tail full : List Nat} {v : Bs},
    full = pre ++ tail → pathOK full →
    insertGo t tail full v = some t' →
    WFS pre t' ∧ List.Perm (binds t') ((full, v) :: binds t) ∧
      deleteGo t' tail full = some (some t) := by
  induction hwf with
  | leaf pre suf0 v0 hn hl =>
    intro t' tail full v hfp hfull hins
    have hlen64 : full.length = 64 := hfull.1
    have hplen : pre.length + suf0.length = 64 := by
      have hh := hl
      simp only [List.length_append] at hh
      omega
    have hnp : full.drop (full.length - suf0.length) = tail := by
      rw [hlen64, show 64 - suf0.length = pre.length from by omega, hfp,
        List.drop_left]
    simp only [insertGo, hnp] at hins
    split at hins
    · exact Option.noConfusion hins
    split at hins
    · exact Option.noConfusion hins
    next hsne =>
    split at hins
    · exact Option.noConfusion hins
    next hab =>
    split at hins
    · exact Option.noConfusion hins
    next h16 =>
    obtain rfl := Option.some.inj hins
    have hA16 : suf0.getD (cp2 suf0 tail).length 16 < 16 := by omega
    have hB16 : tail.getD (cp2 suf0 tail).length 16 < 16 := by omega
    have hAB : suf0.getD (cp2 suf0 tail).length 16 ≠
        tail.getD (cp2 suf0 tail).length 16 := hab
    have hBA : tail.getD (cp2 suf0 tail).length 16 ≠
        suf0.getD (cp2 suf0 tail).length 16 := fun hh => hab hh.symm
    have hasuf : (cp2 suf0 tail).length < suf0.length := getD16_lt hA16
    have hbtail : (cp2 suf0 tail).length < tail.length := getD16_lt hB16
    have hre1 : cp2 suf0 tail ++ suf0.getD (cp2 suf0 tail).length 16 ::
        suf0.drop ((cp2 suf0 tail).length + 1) = suf0 := by
      have hq := take_getD_drop hasuf 16
      rw [← List.prefix_iff_eq_take.1 (cp2_prefix_left suf0 tail)] at hq
      exact hq
    have hre2 : cp2 suf0 tail ++ tail.getD (cp2 suf0 tail).length 16 ::
        tail.drop ((cp2 suf0 tail).length + 1) = tail := by
      have hq := take_getD_drop hbtail 16
      rw [← List.prefix_iff_eq_take.1 (cp2_prefix_right suf0 tail)] at hq
      exact hq
    have hfw1 : (pre ++ cp2 suf0 tail ++
        [suf0.getD (cp2 suf0 tail).length 16]) ++
        suf0.drop ((cp2 suf0 tail).length + 1) = pre ++ suf0 := by
      simp only [List.append_assoc, List.singleton_append]
      rw [show pre ++ (cp2 suf0 tail ++ suf0.getD (cp2 suf0 tail).length 16 ::
        suf0.drop ((cp2 suf0 tail).length + 1)) =
        pre ++ (cp2 suf0 tail ++ suf0.getD (cp2 suf0 tail).length 16 ::
        suf0.drop ((cp2 suf0 tail).length + 1)) from rfl]
      rw [hre1]
    have hfw2 : (pre ++ cp2 suf0 tail ++
        [tail.getD (cp2 suf0 tail).length 16]) ++
        tail.drop ((cp2 suf0 tail).length + 1) = full := by
      simp only [List.append_assoc, List.singleton_append]
      rw [hre2, hfp]
    have hgA : (vec2 (suf0.getD (cp2 suf0 tail).length 16)
        (.leaf (suf0.drop ((cp2 suf0 tail).length + 1)) (pre ++ suf0) v0)
        (tail.getD (cp2 suf0 tail).length 16)
        (.leaf (tail.drop ((cp2 suf0 tail).length + 1)) full v)).getD
        (suf0.getD (cp2 suf0 tail).length 16) none =
        some (.leaf (suf0.drop ((cp2 suf0 tail).length + 1))
          (pre ++ suf0) v0) := by
      rw [vec2_getD hA16, if_pos rfl]
    have hgB : (vec2 (suf0.getD (cp2 suf0 tail).length 16)
        (.leaf (suf0.drop ((cp2 suf0 tail).length + 1)) (pre ++ suf0) v0)
        (tail.getD (cp2 suf0 tail).length 16)
        (.leaf (tail.drop ((cp2 suf0 tail).length + 1)) full v)).getD
        (tail.getD (cp2 suf0 tail).length 16) none =
        some (.leaf (tail.drop ((cp2 suf0 tail).length + 1)) full v) := by
      rw [vec2_getD hB16, if_neg hBA, if_pos rfl]
    refine ⟨?_, ?_, ?_⟩
    · apply WFS.branch
      · exact vec2_length _ _ _ _
      · intro x hx
        exact hn x (List.mem_append_right pre
          ((cp2_prefix_left suf0 tail).subset hx))
      · exact countSome_two hgA hgB hAB
      · intro i u hget
        have hi : i < 16 := by
          have hh := getD_lt_length hget
          rw [vec2_length] at hh
          exact hh
        rw [vec2_getD hi] at hget
        split at hget
        · obtain rfl := Option.some.inj hget
          exact fun hh => Trie.noConfusion hh
        · split at hget
          · obtain rfl := Option.some.inj hget
            exact fun hh => Trie.noConfusion hh
          · exact Option.noConfusion hget
      · intro i u hget
        have hi : i < 16 := by
          have hh := getD_lt_length hget
          rw [vec2_length] at hh
          exact hh
        rw [vec2_getD hi] at hget
        split at hget
        · next hiA =>
          obtain rfl := Option.some.inj hget
          subst hiA
          rw [show pre ++ suf0 = (pre ++ cp2 suf0 tail ++
            [suf0.getD (cp2 suf0 tail).length 16]) ++
            suf0.drop ((cp2 suf0 tail).length + 1) from hfw1.symm]
          apply WFS.leaf
          · rw [hfw1]
            exact hn
          · rw [hfw1]
            exact hl
        · split at hget
          · next hiB =>
            obtain rfl := Option.some.inj hget
            subst hiB
            rw [show full = (pre ++ cp2 suf0 tail ++
              [tail.getD (cp2 suf0 tail).length 16]) ++
              tail.drop ((cp2 suf0 tail).length + 1) from hfw2.symm]
            apply WFS.leaf
            · rw [hfw2]
              exact hfull.2
            · rw [hfw2]
              exact hfull.1
          · exact Option.noConfusion hget
    · rw [show binds (.branch (cp2 suf0 tail)
        (vec2 (suf0.getD (cp2 suf0 tail).length 16)
          (.leaf (suf0.drop ((cp2 suf0 tail).length + 1)) (pre ++ suf0) v0)
          (tail.getD (cp2 suf0 tail).length 16)
          (.leaf (tail.drop ((cp2 suf0 tail).length + 1)) full v))) =
        bindsL (vec2 (suf0.getD (cp2 suf0 tail).length 16)
          (.leaf (suf0.drop ((cp2 suf0 tail).length + 1)) (pre ++ suf0) v0)
          (tail.getD (cp2 suf0 tail).length 16)
          (.leaf (tail.drop ((cp2 suf0 tail).length + 1)) full v))
        from rfl]
      have hperm := bindsL_vec2_perm hAB hA16 hB16
        (.leaf (suf0.drop ((cp2 suf0 tail).length + 1)) (pre ++ suf0) v0)
        (.leaf (tail.drop ((cp2 suf0 tail).length + 1)) full v)
      rw [show binds (Trie.leaf (suf0.drop ((cp2 suf0 tail).length + 1))
        (pre ++ suf0) v0) = [((pre ++ suf0), v0)] from rfl] at hperm
      rw [show binds (Trie.leaf (tail.drop ((cp2 suf0 tail).length + 1))
        full v) = [(full, v)] from rfl] at hperm
      rw [show binds (Trie.leaf suf0 (pre ++ suf0) v0) =
        [((pre ++ suf0), v0)] from rfl]
      exact hperm.trans (List.Perm.swap _ _ _)
    · rw [deleteGo]
      rw [if_pos hB16]
      split
      · next heq =>
        rw [hgB] at heq
        exact Option.noConfusion heq
      · next child heq =>
        rw [hgB] at heq
        obtain rfl := Option.some.inj heq
        have hdel : deleteGo
            (.leaf (tail.drop ((cp2 suf0 tail).length + 1)) full v)
            (tail.drop ((cp2 suf0 tail).length + 1)) full = some none := by
          rw [deleteGo, if_pos rfl]
        simp only [hdel]
        have hslots : ∀ k, ((vec2 (suf0.getD (cp2 suf0 tail).length 16)
            (.leaf (suf0.drop ((cp2 suf0 tail).length + 1)) (pre ++ suf0) v0)
            (tail.getD (cp2 suf0 tail).length 16)
            (.leaf (tail.drop ((cp2 suf0 tail).length + 1)) full v)).set
              (tail.getD (cp2 suf0 tail).length 16) none).getD k none =
            if k = suf0.getD (cp2 suf0 tail).length 16 then
              some (.leaf (suf0.drop ((cp2 suf0 tail).length + 1))
                (pre ++ suf0) v0)
            else none := by
          intro k
          by_cases hkB : k = tail.getD (cp2 suf0 tail).length 16
          · subst hkB
            rw [getD_set_self (by rw [vec2_length]; exact hB16)]
            rw [if_neg hBA]
          · rw [getD_set_ne _ (fun hh => hkB hh.symm)]
            by_cases hk16 : k < 16
            · rw [vec2_getD hk16]
              by_cases hkA : k = suf0.getD (cp2 suf0 tail).length 16
              · rw [if_pos hkA, if_pos hkA]
              · rw [if_neg hkA, if_neg hkB, if_neg hkA]
            · rw [List.getD_eq_default _ _
                (by rw [vec2_length]; omega)]
              rw [if_neg (by omega)]
        have hsc := someChildren_single hslots
          (by rw [List.length_set, vec2_length]; exact hA16)
        simp only [hsc]
        rw [hre1]
  | branch pre pfx cs hlen hnib hcount hne hch ih =>
    intro t' tail full v hfp hfull hins
    simp only [insertGo, getD_headD_drop] at hins
    split at hins
    · -- prefix split: the path diverges inside the branch prefix
      next hsplit =>
      split at hins
      · exact Option.noConfusion hins
      next hab =>
      split at hins
      · exact Option.noConfusion hins
      next h16 =>
      obtain rfl := Option.some.inj hins
      have hA16 : tail.getD (cp2 pfx tail).length 16 < 16 := by omega
      have hB16 : pfx.getD (cp2 pfx tail).length 16 < 16 := by omega
      have hAB : tail.getD (cp2 pfx tail).length 16 ≠
          pfx.getD (cp2 pfx tail).length 16 := hab
      have hBA : pfx.getD (cp2 pfx tail).length 16 ≠
          tail.getD (cp2 pfx tail).length 16 := fun hh => hab hh.symm
      have hatail : (cp2 pfx tail).length < tail.length := getD16_lt hA16
      have hre2 : cp2 pfx tail ++ pfx.getD (cp2 pfx tail).length 16 ::
          pfx.drop ((cp2 pfx tail).length + 1) = pfx := by
        have hq := take_getD_drop hsplit 16
        rw [← List.prefix_iff_eq_take.1 (cp2_prefix_left pfx tail)] at hq
        exact hq
      have hre1 : cp2 pfx tail ++ tail.getD (cp2 pfx tail).length 16 ::
          tail.drop ((cp2 pfx tail).length + 1) = tail := by
        have hq := take_getD_drop hatail 16
        rw [← List.prefix_iff_eq_take.1 (cp2_prefix_right pfx tail)] at hq
        exact hq
      have hfw1 : (pre ++ cp2 pfx tail ++
          [tail.getD (cp2 pfx tail).length 16]) ++
          tail.drop ((cp2 pfx tail).length + 1) = full := by
        simp only [List.append_assoc, List.singleton_append]
        rw [hre1, hfp]
      have hdropdrop : (tail.drop (cp2 pfx tail).length).drop 1 =
          tail.drop ((cp2 pfx tail).length + 1) := by
        rw [List.drop_drop]
      rw [hdropdrop] at hins ⊢
      have hgA : (vec2 (tail.getD (cp2 pfx tail).length 16)
          (.leaf (tail.drop ((cp2 pfx tail).length + 1)) full v)
          (pfx.getD (cp2 pfx tail).length 16)
          (.branch (pfx.drop ((cp2 pfx tail).length + 1)) cs)).getD
          (tail.getD (cp2 pfx tail).length 16) none =
          some (.leaf (tail.drop ((cp2 pfx tail).length + 1)) full v) := by
        rw [vec2_getD hA16, if_pos rfl]
      have hgB : (vec2 (tail.getD (cp2 pfx tail).length 16)
          (.leaf (tail.drop ((cp2 pfx tail).length + 1)) full v)
          (pfx.getD (cp2 pfx tail).length 16)
          (.branch (pfx.drop ((cp2 pfx tail).length + 1)) cs)).getD
          (pfx.getD (cp2 pfx tail).length 16) none =
          some (.branch (pfx.drop ((cp2 pfx tail).length + 1)) cs) := by
        rw [vec2_getD hB16, if_neg hBA, if_pos rfl]
      refine ⟨?_, ?_, ?_⟩
      · apply WFS.branch
        · exact vec2_length _ _ _ _
        · intro x hx
          exact hnib x ((cp2_prefix_left pfx tail).subset hx)
        · exact countSome_two hgA hgB hAB
        · intro i u hget
          have hi : i < 16 := by
            have hh := getD_lt_length hget
            rw [vec2_length] at hh
            exact hh
          rw [vec2_getD hi] at hget
          split at hget
          · obtain rfl := Option.some.inj hget
            exact fun hh => Trie.noConfusion hh
          · split at hget
            · obtain rfl := Option.some.inj hget
              exact fun hh => Trie.noConfusion hh
            · exact Option.noConfusion hget
        · intro i u hget
          have hi : i < 16 := by
            have hh := getD_lt_length hget
            rw [vec2_length] at hh
            exact hh
          rw [vec2_getD hi] at hget
          split at hget
          · next hiA =>
            obtain rfl := Option.some.inj hget
            subst hiA
            rw [show full = (pre ++ cp2 pfx tail ++
              [tail.getD (cp2 pfx tail).length 16]) ++
              tail.drop ((cp2 pfx tail).length + 1) from hfw1.symm]
            apply WFS.leaf
            · rw [hfw1]
              exact hfull.2
            · rw [hfw1]
              exact hfull.1
          · split at hget
            · next hiB =>
              obtain rfl := Option.some.inj hget
              subst hiB
              apply WFS.branch
              · exact hlen
              · intro x hx
                exact hnib x (List.mem_of_mem_drop hx)
              · exact hcount
              · exact hne
              · intro k tk hk
                have hq := hch k tk hk
                have hpath : (pre ++ cp2 pfx tail ++
                    [pfx.getD (cp2 pfx tail).length 16]) ++
                    pfx.drop ((cp2 pfx tail).length + 1) ++ [k] =
                    pre ++ pfx ++ [k] := by
                  conv_rhs => rw [← hre2]
                  simp only [List.append_assoc, List.singleton_append,
                    List.cons_append, List.nil_append]
                rw [hpath]
                exact hq
            · exact Option.noConfusion hget
      · rw [show binds (.branch (cp2 pfx tail)
          (vec2 (tail.getD (cp2 pfx tail).length 16)
            (.leaf (tail.drop ((cp2 pfx tail).length + 1)) full v)
            (pfx.getD (cp2 pfx tail).length 16)
            (.branch (pfx.drop ((cp2 pfx tail).length + 1)) cs))) =
          bindsL (vec2 (tail.getD (cp2 pfx tail).length 16)
            (.leaf (tail.drop ((cp2 pfx tail).length + 1)) full v)
            (pfx.getD (cp2 pfx tail).length 16)
            (.branch (pfx.drop ((cp2 pfx tail).length + 1)) cs)) from rfl]
        have hperm := bindsL_vec2_perm hAB hA16 hB16
          (.leaf (tail.drop ((cp2 pfx tail).length + 1)) full v)
          (.branch (pfx.drop ((cp2 pfx tail).length + 1)) cs)
        rw [show binds (Trie.leaf (tail.drop ((cp2 pfx tail).length + 1))
          full v) = [(full, v)] from rfl] at hperm
        rw [show binds (Trie.branch (pfx.drop ((cp2 pfx tail).length + 1))
          cs) = bindsL cs from rfl] at hperm
        rw [show binds (Trie.branch pfx cs) = bindsL cs from rfl]
        exact hperm
      · rw [deleteGo]
        rw [if_pos hA16]
        split
        · next heq =>
          rw [hgA] at heq
          exact Option.noConfusion heq
        · next child heq =>
          rw [hgA] at heq
          obtain rfl := Option.some.inj heq
          have hdel : deleteGo
              (.leaf (tail.drop ((cp2 pfx tail).length + 1)) full v)
              (tail.drop ((cp2 pfx tail).length + 1)) full = some none := by
            rw [deleteGo, if_pos rfl]
          simp only [hdel]
          have hslots : ∀ k, ((vec2 (tail.getD (cp2 pfx tail).length 16)
              (.leaf (tail.drop ((cp2 pfx tail).length + 1)) full v)
              (pfx.getD (cp2 pfx tail).length 16)
              (.branch (pfx.drop ((cp2 pfx tail).length + 1)) cs)).set
                (tail.getD (cp2 pfx tail).length 16) none).getD k none =
              if k = pfx.getD (cp2 pfx tail).length 16 then
                some (.branch (pfx.drop ((cp2 pfx tail).length + 1)) cs)
              else none := by
            intro k
            by_cases hkA : k = tail.getD (cp2 pfx tail).length 16
            · subst hkA
              rw [getD_set_self (by rw [vec2_length]; exact hA16)]
              rw [if_neg hAB]
            · rw [getD_set_ne _ (fun hh => hkA hh.symm)]
              by_cases hk16 : k < 16
              · rw [vec2_getD hk16]
                rw [if_neg hkA]
              · rw [List.getD_eq_default _ _
                  (by rw [vec2_length]; omega)]
                rw [if_neg (by omega)]
          have hsc := someChildren_single hslots
            (by rw [List.length_set, vec2_length]; exact hB16)
          simp only [hsc]
          rw [show cp2 pfx tail ++ pfx.getD (cp2 pfx tail).length 16 ::
            pfx.drop ((cp2 pfx tail).length + 1) = pfx from hre2]
    · -- the branch prefix is fully consumed
      next hnosplit =>
      have hceq : cp2 pfx tail = pfx :=
        List.IsPrefix.eq_of_length (cp2_prefix_left pfx tail)
          (le_antisymm (List.IsPrefix.length_le (cp2_prefix_left pfx tail))
            (Nat.le_of_not_lt hnosplit))
      rw [hceq] at hins
      split at hins
      · next h16 =>
        have hth16 : tail.getD pfx.length 16 < 16 := h16
        have hptail : pfx.length < tail.length := getD16_lt hth16
        have hre : pfx ++ tail.getD pfx.length 16 ::
            tail.drop (pfx.length + 1) = tail := by
          have hq := take_getD_drop hptail 16
          have hpr : pfx <+: tail := hceq ▸ cp2_prefix_right pfx tail
          rw [← List.prefix_iff_eq_take.1 hpr] at hq
          exact hq
        have hdropdrop : (tail.drop pfx.length).drop 1 =
            tail.drop (pfx.length + 1) := by
          rw [List.drop_drop]
        rw [hdropdrop] at hins
        have hfw : (pre ++ pfx ++ [tail.getD pfx.length 16]) ++
            tail.drop (pfx.length + 1) = full := by
          simp only [List.append_assoc, List.singleton_append]
          rw [hre, hfp]
        split at hins
        · -- empty slot: a fresh leaf is inserted
          next heq =>
          rw [getD_headD_drop] at heq
          obtain rfl := Option.some.inj hins
          refine ⟨?_, ?_, ?_⟩
          · apply WFS.branch
            · rw [List.length_set]
              exact hlen
            · exact hnib
            · exact le_trans hcount (countSome_set_le _)
            · intro i u hget
              by_cases hiT : i = tail.getD pfx.length 16
              · subst hiT
                rw [getD_set_self (by rw [hlen]; exact hth16)] at hget
                obtain rfl := Option.some.inj hget
                exact fun hh => Trie.noConfusion hh
              · rw [getD_set_ne _ (fun hh => hiT hh.symm)] at hget
                exact hne i u hget
            · intro i u hget
              by_cases hiT : i = tail.getD pfx.length 16
              · subst hiT
                rw [getD_set_self (by rw [hlen]; exact hth16)] at hget
                obtain rfl := Option.some.inj hget
                rw [show full = (pre ++ pfx ++ [tail.getD pfx.length 16]) ++
                  tail.drop (pfx.length + 1) from hfw.symm]
                apply WFS.leaf
                · rw [hfw]
                  exact hfull.2
                · rw [hfw]
                  exact hfull.1
              · rw [getD_set_ne _ (fun hh => hiT hh.symm)] at hget
                exact hch i u hget
          · rw [show binds (.branch pfx (cs.set (tail.getD pfx.length 16)
              (some (.leaf (tail.drop (pfx.length + 1)) full v)))) =
              bindsL (cs.set (tail.getD pfx.length 16)
                (some (.leaf (tail.drop (pfx.length + 1)) full v)))
              from rfl]
            rw [show binds (Trie.branch pfx cs) = bindsL cs from rfl]
            have hperm := bindsL_set_perm (by rw [hlen]; exact hth16) heq
              (.leaf (tail.drop (pfx.length + 1)) full v)
            rw [show binds (Trie.leaf (tail.drop (pfx.length + 1)) full v) =
              [(full, v)] from rfl] at hperm
            exact hperm
          · rw [deleteGo]
            rw [if_pos hth16]
            split
            · next heq2 =>
              rw [getD_set_self (by rw [hlen]; exact hth16)] at heq2
              exact Option.noConfusion heq2
            · next child heq2 =>
              rw [getD_set_self (by rw [hlen]; exact hth16)] at heq2
              obtain rfl := Option.some.inj heq2
              have hdel : deleteGo
                  (.leaf (tail.drop (pfx.length + 1)) full v)
                  (tail.drop (pfx.length + 1)) full = some none := by
                rw [deleteGo, if_pos rfl]
              simp only [hdel]
              rw [List.set_set]
              rw [set_getD_eq none heq (by rw [hlen]; exact hth16)]
              rcases hsc : someChildren cs with _ | ⟨x, l⟩
              · exfalso
                have hq := someChildren_length cs
                rw [hsc] at hq
                simp at hq
                omega
              · rcases l with _ | ⟨y, l2⟩
                · exfalso
                  have hq := someChildren_length cs
                  rw [hsc] at hq
                  simp at hq
                  omega
                · rfl
        · -- occupied slot: recursive insert into the child
          next ch heq =>
          rw [getD_headD_drop] at heq
          rcases hrec2 : insertGo ch (tail.drop (pfx.length + 1)) full v
            with _ | ch'
          · rw [hrec2] at hins
            exact Option.noConfusion hins
          · rw [hrec2] at hins
            obtain rfl := Option.some.inj hins
            have hfp2 : full = (pre ++ pfx ++ [tail.getD pfx.length 16]) ++
                tail.drop (pfx.length + 1) := hfw.symm
            obtain ⟨ihA, ihB, ihD⟩ :=
              ih (tail.getD pfx.length 16) ch heq hfp2 hfull hrec2
            refine ⟨?_, ?_, ?_⟩
            · apply WFS.branch
              · rw [List.length_set]
                exact hlen
              · exact hnib
              · rw [countSome_set_some_eq heq]
                exact hcount
              · intro i u hget
                by_cases hiT : i = tail.getD pfx.length 16
                · subst hiT
                  rw [getD_set_self (by rw [hlen]; exact hth16)] at hget
                  obtain rfl := Option.some.inj hget
                  exact WFS_ne_empty ihA
                · rw [getD_set_ne _ (fun hh => hiT hh.symm)] at hget
                  exact hne i u hget
              · intro i u hget
                by_cases hiT : i = tail.getD pfx.length 16
                · subst hiT
                  rw [getD_set_self (by rw [hlen]; exact hth16)] at hget
                  obtain rfl := Option.some.inj hget
                  exact ihA
                · rw [getD_set_ne _ (fun hh => hiT hh.symm)] at hget
                  exact hch i u hget
            · rw [show binds (.branch pfx
                (cs.set (tail.getD pfx.length 16) (some ch'))) =
                bindsL (cs.set (tail.getD pfx.length 16) (some ch'))
                from rfl]
              rw [show binds (Trie.branch pfx cs) = bindsL cs from rfl]
              exact bindsL_set_cons_perm heq ihB
            · rw [deleteGo]
              rw [if_pos hth16]
              split
              · next heq2 =>
                rw [getD_set_self (by rw [hlen]; exact hth16)] at heq2
                exact Option.noConfusion heq2
              · next child heq2 =>
                rw [getD_set_self (by rw [hlen]; exact hth16)] at heq2
                obtain rfl := Option.some.inj heq2
                simp only [ihD]
                rw [List.set_set]
                rw [set_getD_eq none heq (by rw [hlen]; exact hth16)]
                rcases hsc : someChildren cs with _ | ⟨x, l⟩
                · exfalso
                  have hq := someChildren_length cs
                  rw [hsc] at hq
                  simp at hq
                  omega
                · rcases l with _ | ⟨y, l2⟩
                  · exfalso
                    have hq := someChildren_length cs
                    rw [hsc] at hq
                    simp at hq
                    omega
                  · rfl
      · exact Option.noConfusion hins

theorem WFS_branch_le {pre pfx : List Nat} {cs : List (Option Trie)}
    (hwf : WFS pre (.branch pfx cs)) : pre.length + pfx.length + 1 ≤ 64 := by
  cases hwf with
  | branch _ _ _ hlen hnib hcount hne hch =>
    obtain ⟨i, u, hget⟩ := countSome_exists (le_trans one_le_two hcount)
    have hwfu := hch i u hget
    have hnn := binds_ne_nil hwfu
    cases hbu : binds u with
    | nil => exact absurd hbu hnn
    | cons x xs =>
      obtain ⟨p, w⟩ := x
      have hx : (p, w) ∈ binds u := hbu ▸ List.mem_cons_self (p, w) xs
      obtain ⟨tail2, htail2⟩ := binds_full hwfu hx
      have hlp : p.length = 64 := (binds_pathOK hwfu (p, w) hx).1
      rw [htail2] at hlp
      simp only [List.length_append, List.length_cons,
        List.length_singleton] at hlp
      omega

theorem childHashes_set (cs : List (Option Trie)) (i : Nat)
    (x : Option Trie) :
    childHashes (cs.set i x) = (childHashes cs).set i (childHash x) := by
  rw [childHashes_eq_map, childHashes_eq_map, List.map_set]

theorem childHashes_getD {cs : List (Option Trie)} {i : Nat}
    (hi : i < cs.length) :
    (childHashes cs).getD i nullHash = childHash (cs.getD i none) := by
  rw [childHashes_eq_map, List.getD_eq_getElem _ _ (by simpa using hi),
    List.getElem_map, List.getD_eq_getElem _ _ hi]

theorem childHashes_set_back {cs : List (Option Trie)} {i : Nat}
    (hi : i < cs.length) (x : Option Trie) :
    (childHashes (cs.set i x)).set i (childHash (cs.getD i none)) =
      childHashes cs := by
  rw [childHashes_set, List.set_set]
  exact set_getD_eq nullHash (childHashes_getD hi)
    (by rw [length_childHashes]; exact hi)

set_option maxHeartbeats 4000000 in
theorem insert_excl {pre : List Nat} {t : Trie} (hwf : WFS pre t) :
    ∀ {t' : Trie} {tail full : List Nat} {v : Bs},
    full = pre ++ tail → pathOK full →
    insertGo t tail full v = some t' → HDist t' →
    ∃ steps, walkGo t' tail = some ⟨full, some v, steps⟩ ∧
      stepsB pre.length steps = true ∧ stepsOK steps = true ∧
      verifyGo full (some v) false pre.length steps =
        some (some (trieHash t)) := by
  induction hwf with
  | leaf pre suf0 v0 hn hl =>
    intro t' tail full v hfp hfull hins hdist2
    obtain ⟨hwf2, hperm2, hdel2⟩ :=
      insert_main (WFS.leaf pre suf0 v0 hn hl) hfp hfull hins
    have hlen64 : full.length = 64 := hfull.1
    have hplen : pre.length + suf0.length = 64 := by
      have hh := hl
      simp only [List.length_append] at hh
      omega
    have hnp : full.drop (full.length - suf0.length) = tail := by
      rw [hlen64, show 64 - suf0.length = pre.length from by omega, hfp,
        List.drop_left]
    simp only [insertGo, hnp] at hins
    split at hins
    · exact Option.noConfusion hins
    split at hins
    · exact Option.noConfusion hins
    next hsne =>
    split at hins
    · exact Option.noConfusion hins
    next hab =>
    split at hins
    · exact Option.noConfusion hins
    next h16 =>
    obtain rfl := Option.some.inj hins
    have hA16 : suf0.getD (cp2 suf0 tail).length 16 < 16 := by omega
    have hB16 : tail.getD (cp2 suf0 tail).length 16 < 16 := by omega
    have hBA : tail.getD (cp2 suf0 tail).length 16 ≠
        suf0.getD (cp2 suf0 tail).length 16 := fun hh => hab hh.symm
    have hasuf : (cp2 suf0 tail).length < suf0.length := getD16_lt hA16
    have hbtail : (cp2 suf0 tail).length < tail.length := getD16_lt hB16
    have hre1 : cp2 suf0 tail ++ suf0.getD (cp2 suf0 tail).length 16 ::
        suf0.drop ((cp2 suf0 tail).length + 1) = suf0 := by
      have hq := take_getD_drop hasuf 16
      rw [← List.prefix_iff_eq_take.1 (cp2_prefix_left suf0 tail)] at hq
      exact hq
    have hre2 : cp2 suf0 tail ++ tail.getD (cp2 suf0 tail).length 16 ::
        tail.drop ((cp2 suf0 tail).length + 1) = tail := by
      have hq := take_getD_drop hbtail 16
      rw [← List.prefix_iff_eq_take.1 (cp2_prefix_right suf0 tail)] at hq
      exact hq
    have hgB : (vec2 (suf0.getD (cp2 suf0 tail).length 16)
        (.leaf (suf0.drop ((cp2 suf0 tail).length + 1)) (pre ++ suf0) v0)
        (tail.getD (cp2 suf0 tail).length 16)
        (.leaf (tail.drop ((cp2 suf0 tail).length + 1)) full v)).getD
        (tail.getD (cp2 suf0 tail).length 16) none =
        some (.leaf (tail.drop ((cp2 suf0 tail).length + 1)) full v) := by
      rw [vec2_getD hB16, if_neg hBA, if_pos rfl]
    have hnemp2 : ∀ i u, (vec2 (suf0.getD (cp2 suf0 tail).length 16)
        (.leaf (suf0.drop ((cp2 suf0 tail).length + 1)) (pre ++ suf0) v0)
        (tail.getD (cp2 suf0 tail).length 16)
        (.leaf (tail.drop ((cp2 suf0 tail).length + 1)) full v)).getD
          i none = some u → u ≠ .empty := by
      cases hwf2 with
      | branch _ _ _ _ _ _ hne2 _ => exact hne2
    have hdis2 : ∀ i j ti tj, i ≠ j →
        (vec2 (suf0.getD (cp2 suf0 tail).length 16)
          (.leaf (suf0.drop ((cp2 suf0 tail).length + 1)) (pre ++ suf0) v0)
          (tail.getD (cp2 suf0 tail).length 16)
          (.leaf (tail.drop ((cp2 suf0 tail).length + 1)) full v)).getD
          i none = some ti →
        (vec2 (suf0.getD (cp2 suf0 tail).length 16)
          (.leaf (suf0.drop ((cp2 suf0 tail).length + 1)) (pre ++ suf0) v0)
          (tail.getD (cp2 suf0 tail).length 16)
          (.leaf (tail.drop ((cp2 suf0 tail).length + 1)) full v)).getD
          j none = some tj →
        trieHash ti ≠ trieHash tj := by
      cases hdist2 with
      | branch _ _ hd _ => exact hd
    have hme := findIdx_childHash hgB hnemp2 hdis2
    have hslots : ∀ k, ((vec2 (suf0.getD (cp2 suf0 tail).length 16)
        (.leaf (suf0.drop ((cp2 suf0 tail).length + 1)) (pre ++ suf0) v0)
        (tail.getD (cp2 suf0 tail).length 16)
        (.leaf (tail.drop ((cp2 suf0 tail).length + 1)) full v)).set
          (tail.getD (cp2 suf0 tail).length 16) none).getD k none =
        if k = suf0.getD (cp2 suf0 tail).length 16 then
          some (.leaf (suf0.drop ((cp2 suf0 tail).length + 1))
            (pre ++ suf0) v0)
        else none := by
      intro k
      by_cases hkB : k = tail.getD (cp2 suf0 tail).length 16
      · subst hkB
        rw [getD_set_self (by rw [vec2_length]; exact hB16)]
        rw [if_neg hBA]
      · rw [getD_set_ne _ (fun hh => hkB hh.symm)]
        by_cases hk16 : k < 16
        · rw [vec2_getD hk16]
          by_cases hkA : k = suf0.getD (cp2 suf0 tail).length 16
          · rw [if_pos hkA, if_pos hkA]
          · rw [if_neg hkA, if_neg hkB, if_neg hkA]
        · rw [List.getD_eq_default _ _ (by rw [vec2_length]; omega)]
          rw [if_neg (by omega)]
    have hfil : (someChildren (vec2 (suf0.getD (cp2 suf0 tail).length 16)
        (.leaf (suf0.drop ((cp2 suf0 tail).length + 1)) (pre ++ suf0) v0)
        (tail.getD (cp2 suf0 tail).length 16)
        (.leaf (tail.drop ((cp2 suf0 tail).length + 1)) full v))).filter
          (fun q => q.2 != tail.getD (cp2 suf0 tail).length 16) =
        [(.leaf (suf0.drop ((cp2 suf0 tail).length + 1)) (pre ++ suf0) v0,
          suf0.getD (cp2 suf0 tail).length 16)] := by
      rw [someChildren_filter_set (by rw [vec2_length]; exact hB16)]
      exact someChildren_single hslots
        (by rw [List.length_set, vec2_length]; exact hA16)
    have hrew : rewindStep
        (.leaf (tail.drop ((cp2 suf0 tail).length + 1)) full v)
        (cp2 suf0 tail).length
        (vec2 (suf0.getD (cp2 suf0 tail).length 16)
          (.leaf (suf0.drop ((cp2 suf0 tail).length + 1)) (pre ++ suf0) v0)
          (tail.getD (cp2 suf0 tail).length 16)
          (.leaf (tail.drop ((cp2 suf0 tail).length + 1)) full v)) =
        some (.leaf (cp2 suf0 tail).length (pre ++ suf0) (hashB v0)) := by
      simp only [rewindStep]
      rw [hme]
      rw [if_pos (show tail.getD (cp2 suf0 tail).length 16 <
        (vec2 (suf0.getD (cp2 suf0 tail).length 16)
          (.leaf (suf0.drop ((cp2 suf0 tail).length + 1)) (pre ++ suf0) v0)
          (tail.getD (cp2 suf0 tail).length 16)
          (.leaf (tail.drop ((cp2 suf0 tail).length + 1)) full v)).length
        from by rw [vec2_length]; exact hB16)]
      rw [hfil]
    have hdd : (tail.drop (cp2 suf0 tail).length).drop 1 =
        tail.drop ((cp2 suf0 tail).length + 1) := by
      rw [List.drop_drop]
    have hwleaf : walkGo
        (.leaf (tail.drop ((cp2 suf0 tail).length + 1)) full v)
        (tail.drop ((cp2 suf0 tail).length + 1)) =
        some ⟨full, some v, []⟩ := by
      simp only [walkGo]
      rw [if_pos isPrefixOf_self]
      simp
    have hsplitF : full = (pre ++ cp2 suf0 tail) ++
        tail.getD (cp2 suf0 tail).length 16 ::
        tail.drop ((cp2 suf0 tail).length + 1) := by
      rw [hfp, List.append_assoc, hre2]
    have hsplitK : pre ++ suf0 = (pre ++ cp2 suf0 tail) ++
        suf0.getD (cp2 suf0 tail).length 16 ::
        suf0.drop ((cp2 suf0 tail).length + 1) := by
      rw [List.append_assoc, hre1]
    have hthis : full.getD (pre.length + (cp2 suf0 tail).length) 16 =
        tail.getD (cp2 suf0 tail).length 16 := by
      rw [hsplitF]
      have hq := getD_at (pre ++ cp2 suf0 tail)
        (tail.getD (cp2 suf0 tail).length 16)
        (tail.drop ((cp2 suf0 tail).length + 1)) 16
      simpa [List.length_append] using hq
    have hnN : (pre ++ suf0).getD (pre.length + (cp2 suf0 tail).length) 16 =
        suf0.getD (cp2 suf0 tail).length 16 := by
      rw [hsplitK]
      have hq := getD_at (pre ++ cp2 suf0 tail)
        (suf0.getD (cp2 suf0 tail).length 16)
        (suf0.drop ((cp2 suf0 tail).length + 1)) 16
      simpa [List.length_append] using hq
    refine ⟨[.leaf (cp2 suf0 tail).length (pre ++ suf0) (hashB v0)],
      ?_, ?_, ?_, ?_⟩
    · simp only [walkGo, getD_headD_drop]
      rw [if_pos (isPrefixOf_of_pre (cp2_prefix_right suf0 tail)),
        if_pos hB16]
      split
      · next heq2 =>
        rw [getD_headD_drop, hgB] at heq2
        exact Option.noConfusion heq2
      · next child heq2 =>
        rw [getD_headD_drop, hgB] at heq2
        obtain rfl : child = _ := (Option.some.inj heq2).symm
        rw [hdd]
        simp only [hwleaf, hrew]
    · simp only [stepsB, Step.skipOf, decide_eq_true_eq]
      omega
    · simp only [stepsOK, Bool.and_eq_true, beq_iff_eq, List.all_eq_true]
      refine ⟨⟨hl, ?_⟩, trivial⟩
      intro x hx
      simpa using hn x hx
    · rw [verifyGo]
      simp only [Step.skipOf]
      rw [show verifyGo full (some v) false
        (pre.length + 1 + (cp2 suf0 tail).length) [] = some none from rfl]
      simp only [List.isEmpty_nil, Option.getD_none, Bool.false_eq_true,
        not_false_iff, eq_self_iff_true, true_and, and_self, if_true]
      have htk : (pre ++ suf0).take pre.length = full.take pre.length := by
        rw [hfp, List.take_left, List.take_left]
      rw [if_pos htk]
      rw [show pre.length + 1 + (cp2 suf0 tail).length - 1 =
        pre.length + (cp2 suf0 tail).length from by omega]
      rw [hnN, hthis]
      rw [if_neg hab]
      rw [List.drop_left]
      rfl
  | branch pre pfx cs hlen hnib hcount hne hch ih =>
    intro t' tail full v hfp hfull hins hdist2
    obtain ⟨hwf2, hperm2, hdel2⟩ :=
      insert_main (WFS.branch pre pfx cs hlen hnib hcount hne hch)
        hfp hfull hins
    have hdepth : pre.length + pfx.length + 1 ≤ 64 :=
      WFS_branch_le (WFS.branch pre pfx cs hlen hnib hcount hne hch)
    simp only [insertGo, getD_headD_drop] at hins
    split at hins
    · -- prefix split: the path diverges inside the branch prefix
      next hsplit =>
      split at hins
      · exact Option.noConfusion hins
      next hab =>
      split at hins
      · exact Option.noConfusion hins
      next h16 =>
      obtain rfl := Option.some.inj hins
      have hA16 : tail.getD (cp2 pfx tail).length 16 < 16 := by omega
      have hB16 : pfx.getD (cp2 pfx tail).length 16 < 16 := by omega
      have hAB : tail.getD (cp2 pfx tail).length 16 ≠
          pfx.getD (cp2 pfx tail).length 16 := hab
      have hatail : (cp2 pfx tail).length < tail.length := getD16_lt hA16
      have hre2 : cp2 pfx tail ++ pfx.getD (cp2 pfx tail).length 16 ::
          pfx.drop ((cp2 pfx tail).length + 1) = pfx := by
        have hq := take_getD_drop hsplit 16
        rw [← List.prefix_iff_eq_take.1 (cp2_prefix_left pfx tail)] at hq
        exact hq
      have hdropdrop : (tail.drop (cp2 pfx tail).length).drop 1 =
          tail.drop ((cp2 pfx tail).length + 1) := by
        rw [List.drop_drop]
      rw [hdropdrop] at hwf2 hperm2 hdel2 hdist2 ⊢
      have hgA : (vec2 (tail.getD (cp2 pfx tail).length 16)
          (.leaf (tail.drop ((cp2 pfx tail).length + 1)) full v)
          (pfx.getD (cp2 pfx tail).length 16)
          (.branch (pfx.drop ((cp2 pfx tail).length + 1)) cs)).getD
          (tail.getD (cp2 pfx tail).length 16) none =
          some (.leaf (tail.drop ((cp2 pfx tail).length + 1)) full v) := by
        rw [vec2_getD hA16, if_pos rfl]
      have hnemp2 : ∀ i u, (vec2 (tail.getD (cp2 pfx tail).length 16)
          (.leaf (tail.drop ((cp2 pfx tail).length + 1)) full v)
          (pfx.getD (cp2 pfx tail).length 16)
          (.branch (pfx.drop ((cp2 pfx tail).length + 1)) cs)).getD
            i none = some u → u ≠ .empty := by
        cases hwf2 with
        | branch _ _ _ _ _ _ hne2 _ => exact hne2
      have hdis2 : ∀ i j ti tj, i ≠ j →
          (vec2 (tail.getD (cp2 pfx tail).length 16)
            (.leaf (tail.drop ((cp2 pfx tail).length + 1)) full v)
            (pfx.getD (cp2 pfx tail).length 16)
            (.branch (pfx.drop ((cp2 pfx tail).length + 1)) cs)).getD
            i none = some ti →
          (vec2 (tail.getD (cp2 pfx tail).length 16)
            (.leaf (tail.drop ((cp2 pfx tail).length + 1)) full v)
            (pfx.getD (cp2 pfx tail).length 16)
            (.branch (pfx.drop ((cp2 pfx tail).length + 1)) cs)).getD
            j none = some tj →
          trieHash ti ≠ trieHash tj := by
        cases hdist2 with
        | branch _ _ hd _ => exact hd
      have hme := findIdx_childHash hgA hnemp2 hdis2
      have hslots : ∀ k, ((vec2 (tail.getD (cp2 pfx tail).length 16)
          (.leaf (tail.drop ((cp2 pfx tail).length + 1)) full v)
          (pfx.getD (cp2 pfx tail).length 16)
          (.branch (pfx.drop ((cp2 pfx tail).length + 1)) cs)).set
            (tail.getD (cp2 pfx tail).length 16) none).getD k none =
          if k = pfx.getD (cp2 pfx tail).length 16 then
            some (.branch (pfx.drop ((cp2 pfx tail).length + 1)) cs)
          else none := by
        intro k
        by_cases hkA : k = tail.getD (cp2 pfx tail).length 16
        · subst hkA
          rw [getD_set_self (by rw [vec2_length]; exact hA16)]
          rw [if_neg hAB]
        · rw [getD_set_ne _ (fun hh => hkA hh.symm)]
          by_cases hk16 : k < 16
          · rw [vec2_getD hk16]
            rw [if_neg hkA]
          · rw [List.getD_eq_default _ _ (by rw [vec2_length]; omega)]
            rw [if_neg (by omega)]
      have hfil : (someChildren (vec2 (tail.getD (cp2 pfx tail).length 16)
          (.leaf (tail.drop ((cp2 pfx tail).length + 1)) full v)
          (pfx.getD (cp2 pfx tail).length 16)
          (.branch (pfx.drop ((cp2 pfx tail).length + 1)) cs))).filter
            (fun q => q.2 != tail.getD (cp2 pfx tail).length 16) =
          [(.branch (pfx.drop ((cp2 pfx tail).length + 1)) cs,
            pfx.getD (cp2 pfx tail).length 16)] := by
        rw [someChildren_filter_set (by rw [vec2_length]; exact hA16)]
        exact someChildren_single hslots
          (by rw [List.length_set, vec2_length]; exact hB16)
      have hrew : rewindStep
          (.leaf (tail.drop ((cp2 pfx tail).length + 1)) full v)
          (cp2 pfx tail).length
          (vec2 (tail.getD (cp2 pfx tail).length 16)
            (.leaf (tail.drop ((cp2 pfx tail).length + 1)) full v)
            (pfx.getD (cp2 pfx tail).length 16)
            (.branch (pfx.drop ((cp2 pfx tail).length + 1)) cs)) =
          some (.fork (cp2 pfx tail).length
            (pfx.getD (cp2 pfx tail).length 16)
            (pfx.drop ((cp2 pfx tail).length + 1))
            (merkleRoot (childHashes cs))) := by
        simp only [rewindStep]
        rw [hme]
        rw [if_pos (show tail.getD (cp2 pfx tail).length 16 <
          (vec2 (tail.getD (cp2 pfx tail).length 16)
            (.leaf (tail.drop ((cp2 pfx tail).length + 1)) full v)
            (pfx.getD (cp2 pfx tail).length 16)
            (.branch (pfx.drop ((cp2 pfx tail).length + 1)) cs)).length
          from by rw [vec2_length]; exact hA16)]
        rw [hfil]
      have hwleaf : walkGo
          (.leaf (tail.drop ((cp2 pfx tail).length + 1)) full v)
          (tail.drop ((cp2 pfx tail).length + 1)) =
          some ⟨full, some v, []⟩ := by
        simp only [walkGo]
        rw [if_pos isPrefixOf_self]
        simp
      refine ⟨[.fork (cp2 pfx tail).length
          (pfx.getD (cp2 pfx tail).length 16)
          (pfx.drop ((cp2 pfx tail).length + 1))
          (merkleRoot (childHashes cs))], ?_, ?_, rfl, ?_⟩
      · simp only [walkGo, getD_headD_drop]
        rw [if_pos (isPrefixOf_of_pre (cp2_prefix_right pfx tail)),
          if_pos hA16]
        split
        · next heq2 =>
          rw [getD_headD_drop, hgA] at heq2
          exact Option.noConfusion heq2
        · next child heq2 =>
          rw [getD_headD_drop, hgA] at heq2
          obtain rfl : child = _ := (Option.some.inj heq2).symm
          rw [hdropdrop]
          simp only [hwleaf, hrew]
      · simp only [stepsB, Step.skipOf, decide_eq_true_eq]
        omega
      · rw [verifyGo]
        simp only [Step.skipOf]
        rw [show verifyGo full (some v) false
          (pre.length + 1 + (cp2 pfx tail).length) [] = some none from rfl]
        simp only [List.isEmpty_nil, Option.getD_none, Bool.false_eq_true,
          not_false_iff, eq_self_iff_true, true_and, and_self, if_true]
        by_cases hc0 : (cp2 pfx tail).length = 0
        · rw [if_pos hc0]
          have hcnil : cp2 pfx tail = [] := List.length_eq_zero.1 hc0
          have hre0 := hre2
          rw [hcnil] at hre0 ⊢
          simp only [List.nil_append, List.length_nil, Nat.zero_add] at hre0 ⊢
          rw [hre0]
          rfl
        · rw [if_neg hc0]
          rw [show full.drop pre.length = tail from by
            rw [hfp, List.drop_left]]
          rw [show tail.take (cp2 pfx tail).length = cp2 pfx tail from
            (List.prefix_iff_eq_take.1 (cp2_prefix_right pfx tail)).symm]
          rw [hre2]
          rfl
    · -- the branch prefix is fully consumed
      next hnosplit =>
      have hceq : cp2 pfx tail = pfx :=
        List.IsPrefix.eq_of_length (cp2_prefix_left pfx tail)
          (le_antisymm (List.IsPrefix.length_le (cp2_prefix_left pfx tail))
            (Nat.le_of_not_lt hnosplit))
      rw [hceq] at hins
      split at hins
      · next h16 =>
        have hth16 : tail.getD pfx.length 16 < 16 := h16
        have hptail : pfx.length < tail.length := getD16_lt hth16
        have hpr : pfx <+: tail := hceq ▸ cp2_prefix_right pfx tail
        have hre : pfx ++ tail.getD pfx.length 16 ::
            tail.drop (pfx.length + 1) = tail := by
          have hq := take_getD_drop hptail 16
          rw [← List.prefix_iff_eq_take.1 hpr] at hq
          exact hq
        have hdropdrop : (tail.drop pfx.length).drop 1 =
            tail.drop (pfx.length + 1) := by
          rw [List.drop_drop]
        rw [hdropdrop] at hins
        have hsplitF : full = (pre ++ pfx) ++ tail.getD pfx.length 16 ::
            tail.drop (pfx.length + 1) := by
          rw [hfp, List.append_assoc, hre]
        have hthis : full.getD (pre.length + pfx.length) 16 =
            tail.getD pfx.length 16 := by
          rw [hsplitF]
          have hq := getD_at (pre ++ pfx) (tail.getD pfx.length 16)
            (tail.drop (pfx.length + 1)) 16
          simpa [List.length_append] using hq
        have htailtake : tail.take pfx.length = pfx :=
          (List.prefix_iff_eq_take.1 hpr).symm
        split at hins
        · -- empty slot: a fresh leaf is inserted
          next heq =>
          rw [getD_headD_drop] at heq
          obtain rfl := Option.some.inj hins
          have hTlt : tail.getD pfx.length 16 < cs.length := hlen ▸ hth16
          have hgT : (cs.set (tail.getD pfx.length 16)
              (some (.leaf (tail.drop (pfx.length + 1)) full v))).getD
              (tail.getD pfx.length 16) none =
              some (.leaf (tail.drop (pfx.length + 1)) full v) :=
            getD_set_self hTlt _ _
          have hnemp2 : ∀ i u, (cs.set (tail.getD pfx.length 16)
              (some (.leaf (tail.drop (pfx.length + 1)) full v))).getD
              i none = some u → u ≠ .empty := by
            cases hwf2 with
            | branch _ _ _ _ _ _ hne2 _ => exact hne2
          have hdis2 : ∀ i j ti tj, i ≠ j →
              (cs.set (tail.getD pfx.length 16)
                (some (.leaf (tail.drop (pfx.length + 1)) full v))).getD
                i none = some ti →
              (cs.set (tail.getD pfx.length 16)
                (some (.leaf (tail.drop (pfx.length + 1)) full v))).getD
                j none = some tj →
              trieHash ti ≠ trieHash tj := by
            cases hdist2 with
            | branch _ _ hd _ => exact hd
          have hme := findIdx_childHash hgT hnemp2 hdis2
          have hfil : (someChildren (cs.set (tail.getD pfx.length 16)
              (some (.leaf (tail.drop (pfx.length + 1)) full v)))).filter
                (fun q => q.2 != tail.getD pfx.length 16) =
              someChildren cs := by
            rw [someChildren_filter_set
              (by rw [List.length_set, hlen]; exact hth16)]
            rw [List.set_set]
            rw [set_getD_eq none heq hTlt]
          have hrew : rewindStep (.leaf (tail.drop (pfx.length + 1)) full v)
              pfx.length (cs.set (tail.getD pfx.length 16)
                (some (.leaf (tail.drop (pfx.length + 1)) full v))) =
              some (.branch pfx.length
                (merkleProof (childHashes (cs.set (tail.getD pfx.length 16)
                  (some (.leaf (tail.drop (pfx.length + 1)) full v))))
                  (tail.getD pfx.length 16))) := by
            simp only [rewindStep]
            rw [hme]
            rw [if_pos (show tail.getD pfx.length 16 <
              (cs.set (tail.getD pfx.length 16)
                (some (.leaf (tail.drop (pfx.length + 1)) full v))).length
              from by rw [List.length_set, hlen]; exact hth16)]
            rw [hfil]
            rcases hsc : someChildren cs with _ | ⟨x, _ | ⟨y, l2⟩⟩
            · exfalso
              have hq := someChildren_length cs
              rw [hsc] at hq
              simp at hq
              omega
            · exfalso
              have hq := someChildren_length cs
              rw [hsc] at hq
              simp at hq
              omega
            · rfl
          have hwleaf : walkGo (.leaf (tail.drop (pfx.length + 1)) full v)
              (tail.drop (pfx.length + 1)) = some ⟨full, some v, []⟩ := by
            simp only [walkGo]
            rw [if_pos isPrefixOf_self]
            simp
          refine ⟨[.branch pfx.length
            (merkleProof (childHashes (cs.set (tail.getD pfx.length 16)
              (some (.leaf (tail.drop (pfx.length + 1)) full v))))
              (tail.getD pfx.length 16))], ?_, ?_, rfl, ?_⟩
          · simp only [walkGo, getD_headD_drop]
            rw [if_pos (isPrefixOf_of_pre hpr), if_pos hth16]
            split
            · next heq2 =>
              rw [getD_headD_drop, hgT] at heq2
              exact Option.noConfusion heq2
            · next child heq2 =>
              rw [getD_headD_drop, hgT] at heq2
              obtain rfl : child = _ := (Option.some.inj heq2).symm
              rw [hdropdrop]
              simp only [hwleaf, hrew]
          · simp only [stepsB, Step.skipOf, decide_eq_true_eq]
            omega
          · rw [verifyGo]
            simp only [Step.skipOf]
            rw [show verifyGo full (some v) false
              (pre.length + 1 + pfx.length) [] = some none from rfl]
            simp only [List.isEmpty_nil, Option.getD_none]
            rw [show pre.length + 1 + pfx.length - 1 =
              pre.length + pfx.length from by omega]
            rw [hthis]
            rw [if_pos hth16]
            rw [show pre.length + pfx.length - pre.length = pfx.length
              from by omega]
            rw [show full.drop pre.length = tail from by
              rw [hfp, List.drop_left]]
            rw [htailtake]
            rw [merkleTable_merkleProof
              (childHashes (cs.set (tail.getD pfx.length 16)
                (some (.leaf (tail.drop (pfx.length + 1)) full v))))
              (by rw [length_childHashes, List.length_set, hlen])
              (tail.getD pfx.length 16) hth16 nullHash]
            have hback := childHashes_set_back hTlt
              (some (.leaf (tail.drop (pfx.length + 1)) full v))
            rw [heq] at hback
            rw [show childHash none = nullHash from rfl] at hback
            rw [hback]
            rfl
        · -- occupied slot: recursive insert into the child
          next ch heq =>
          rw [getD_headD_drop] at heq
          rcases hrec2 : insertGo ch (tail.drop (pfx.length + 1)) full v
            with _ | ch'
          · rw [hrec2] at hins
            exact Option.noConfusion hins
          · rw [hrec2] at hins
            obtain rfl := Option.some.inj hins
            have hTlt : tail.getD pfx.length 16 < cs.length := hlen ▸ hth16
            have hgT : (cs.set (tail.getD pfx.length 16) (some ch')).getD
                (tail.getD pfx.length 16) none = some ch' :=
              getD_set_self hTlt _ _
            have hdisC : ∀ i j ti tj, i ≠ j →
                (cs.set (tail.getD pfx.length 16) (some ch')).getD
                  i none = some ti →
                (cs.set (tail.getD pfx.length 16) (some ch')).getD
                  j none = some tj →
                trieHash ti ≠ trieHash tj := by
              cases hdist2 with
              | branch _ _ hd _ => exact hd
            have hdistC : HDist ch' := by
              cases hdist2 with
              | branch _ _ _ hdc => exact hdc _ _ hgT
            have hnemp2 : ∀ i u,
                (cs.set (tail.getD pfx.length 16) (some ch')).getD
                  i none = some u → u ≠ .empty := by
              cases hwf2 with
              | branch _ _ _ _ _ _ hne2 _ => exact hne2
            have hwfn2 : ∀ i u,
                (cs.set (tail.getD pfx.length 16) (some ch')).getD
                  i none = some u → WFS (pre ++ pfx ++ [i]) u := by
              cases hwf2 with
              | branch _ _ _ _ _ _ _ hch2 => exact hch2
            have hfp2 : full = (pre ++ pfx ++ [tail.getD pfx.length 16]) ++
                tail.drop (pfx.length + 1) := by
              simp only [List.append_assoc, List.singleton_append]
              rw [hre, hfp]
            obtain ⟨steps2, hwalk2, hsb2, hsok2, hver2⟩ :=
              ih (tail.getD pfx.length 16) ch heq hfp2 hfull hrec2 hdistC
            have hlen3 : (pre ++ pfx ++ [tail.getD pfx.length 16]).length =
                pre.length + pfx.length + 1 := by
              simp
              omega
            rw [hlen3] at hsb2 hver2
            have hfull2 : full = pre ++ pfx ++ tail.getD pfx.length 16 ::
                tail.drop (pfx.length + 1) := by
              rw [hfp2]
              simp
            obtain ⟨st, hrewst, hskip, hsokst, hverst⟩ :=
              step_verify (by rw [List.length_set]; exact hlen) hgT hnemp2
                hwfn2 hdisC hfull2 hver2 hsok2
            refine ⟨st :: steps2, ?_, ?_, hsokst, ?_⟩
            · simp only [walkGo, getD_headD_drop]
              rw [if_pos (isPrefixOf_of_pre hpr), if_pos hth16]
              split
              · next heq2 =>
                rw [getD_headD_drop, hgT] at heq2
                exact Option.noConfusion heq2
              · next child heq2 =>
                rw [getD_headD_drop, hgT] at heq2
                obtain rfl : child = ch' := (Option.some.inj heq2).symm
                rw [hdropdrop]
                simp only [hwalk2, hrewst]
            · simp only [stepsB, hskip]
              rw [show pre.length + 1 + pfx.length =
                pre.length + pfx.length + 1 from by omega]
              exact hsb2
            · rw [hverst]
              have hback := childHashes_set_back hTlt (some ch')
              rw [heq] at hback
              rw [show childHash (some ch) = trieHash ch from rfl] at hback
              rw [hback]
              rfl
      · exact Option.noConfusion hins

theorem cp2_stop (d : Nat) : ∀ {a b : List Nat},
    (cp2 a b).length < a.length → (cp2 a b).length < b.length →
    a.getD (cp2 a b).length d ≠ b.getD (cp2 a b).length d := by
  intro a
  induction a with
  | nil =>
    intro b ha _
    simp [cp2] at ha
  | cons x t ih =>
    intro b ha hb
    cases b with
    | nil => simp [cp2] at hb
    | cons y s =>
      by_cases hxy : x = y
      · have hcp : cp2 (x :: t) (y :: s) = x :: cp2 t s := by
          simp [cp2, hxy]
        rw [hcp] at ha hb ⊢
        simp only [List.length_cons, List.getD_cons_succ]
        simp only [List.length_cons] at ha hb
        exact ih (by omega) (by omega)
      · have hcp : cp2 (x :: t) (y :: s) = [] := by
          simp [cp2, hxy]
        rw [hcp]
        simpa using hxy

theorem insert_succeeds {pre : List Nat} {t : Trie} (hwf : WFS pre t) :
    ∀ {tail full : List Nat} (v : Bs),
    full = pre ++ tail → pathOK full →
    full ∉ (binds t).map Prod.fst →
    ∃ t', insertGo t tail full v = some t' := by
  induction hwf with
  | leaf pre suf0 v0 hn hl =>
    intro tail full v hfp hfull hnot
    have hlen64 : full.length = 64 := hfull.1
    have hplen : pre.length + suf0.length = 64 := by
      have hh := hl
      simp only [List.length_append] at hh
      omega
    have htlen : tail.length = suf0.length := by
      have hh : full.length = pre.length + tail.length := by
        rw [hfp]
        simp
      omega
    have hs0 : ¬(suf0.length = 0) := by
      intro h0
      apply hnot
      have hsnil : suf0 = [] := List.length_eq_zero.1 h0
      have htnil : tail = [] := List.length_eq_zero.1 (by omega)
      rw [hfp, htnil, hsnil]
      simp [binds]
    have hsne : ¬(suf0 = tail) := by
      intro hst
      apply hnot
      rw [hfp, ← hst]
      simp [binds]
    have hnp : full.drop (full.length - suf0.length) = tail := by
      rw [hlen64, show 64 - suf0.length = pre.length from by omega, hfp,
        List.drop_left]
    obtain ⟨hclt, hcd⟩ := cp2_mismatch hsne htlen.symm 16
    have hct : (cp2 suf0 tail).length < tail.length := by omega
    have ha16 : suf0.getD (cp2 suf0 tail).length 16 < 16 := by
      rw [List.getD_eq_getElem _ _ hclt]
      exact hn _ (List.mem_append_right pre (List.getElem_mem hclt))
    have hb16 : tail.getD (cp2 suf0 tail).length 16 < 16 := by
      rw [List.getD_eq_getElem _ _ hct]
      apply hfull.2
      rw [hfp]
      exact List.mem_append_right pre (List.getElem_mem hct)
    refine ⟨?_, ?_⟩
    rotate_left
    simp only [insertGo, hnp]
    rw [if_neg hs0, if_neg hsne, if_neg hcd, if_neg (by omega :
      ¬(16 ≤ suf0.getD (cp2 suf0 tail).length 16 ∨
        16 ≤ tail.getD (cp2 suf0 tail).length 16))]
    exact rfl
  | branch pre pfx cs hlen hnib hcount hne hch ih =>
    intro tail full v hfp hfull hnot
    have hdepth : pre.length + pfx.length + 1 ≤ 64 :=
      WFS_branch_le (WFS.branch pre pfx cs hlen hnib hcount hne hch)
    have htlen : tail.length = 64 - pre.length := by
      have hh : full.length = pre.length + tail.length := by
        rw [hfp]
        simp
      have hl64 := hfull.1
      omega
    have hclep : (cp2 pfx tail).length ≤ pfx.length :=
      List.IsPrefix.length_le (cp2_prefix_left pfx tail)
    by_cases hsplit : (cp2 pfx tail).length < pfx.length
    · have hct : (cp2 pfx tail).length < tail.length := by omega
      have hcd := cp2_stop 16 hsplit hct
      have ha16 : pfx.getD (cp2 pfx tail).length 16 < 16 := by
        rw [List.getD_eq_getElem _ _ hsplit]
        exact hnib _ (List.getElem_mem hsplit)
      have hb16 : tail.getD (cp2 pfx tail).length 16 < 16 := by
        rw [List.getD_eq_getElem _ _ hct]
        apply hfull.2
        rw [hfp]
        exact List.mem_append_right pre (List.getElem_mem hct)
      refine ⟨?_, ?_⟩
      rotate_left
      simp only [insertGo, getD_headD_drop]
      rw [if_pos hsplit, if_neg (show ¬(tail.getD (cp2 pfx tail).length 16 =
        pfx.getD (cp2 pfx tail).length 16) from fun hh => hcd hh.symm),
        if_neg (by omega : ¬(16 ≤ tail.getD (cp2 pfx tail).length 16 ∨
          16 ≤ pfx.getD (cp2 pfx tail).length 16))]
      exact rfl
    · have hceq : cp2 pfx tail = pfx :=
        List.IsPrefix.eq_of_length (cp2_prefix_left pfx tail)
          (le_antisymm hclep (Nat.le_of_not_lt hsplit))
      have hplt : pfx.length < tail.length := by omega
      have hth16 : tail.getD (cp2 pfx tail).length 16 < 16 := by
        rw [hceq, List.getD_eq_getElem _ _ hplt]
        apply hfull.2
        rw [hfp]
        exact List.mem_append_right pre (List.getElem_mem hplt)
      simp only [insertGo, getD_headD_drop]
      rw [if_neg hsplit, if_pos hth16]
      split
      · exact ⟨_, rfl⟩
      · next ch heq =>
        rw [getD_headD_drop, hceq] at heq
        have hpr : pfx <+: tail := hceq ▸ cp2_prefix_right pfx tail
        have hre : pfx ++ tail.getD pfx.length 16 ::
            tail.drop (pfx.length + 1) = tail := by
          have hq := take_getD_drop hplt 16
          rw [← List.prefix_iff_eq_take.1 hpr] at hq
          exact hq
        have hfp2 : full = (pre ++ pfx ++ [tail.getD pfx.length 16]) ++
            tail.drop (pfx.length + 1) := by
          simp only [List.append_assoc, List.singleton_append]
          rw [hre, hfp]
        have hnot2 : full ∉ (binds ch).map Prod.fst := by
          intro hmem
          apply hnot
          obtain ⟨x, hx, hfx⟩ := List.mem_map.1 hmem
          exact List.mem_map.2 ⟨x, bindsL_of_getD heq hx, hfx⟩
        obtain ⟨ch', hch'⟩ := ih _ ch heq v hfp2 hfull hnot2
        rw [show (tail.drop (cp2 pfx tail).length).drop 1 =
          tail.drop (pfx.length + 1) from by rw [hceq, List.drop_drop]]
        rw [hch']
        exact ⟨_, rfl⟩

/-- C8: for every well-formed (possibly empty) trie `T` and key `k` (given
by its 64-nibble path) not present in `T`, inserting `(k, v)` succeeds, and
deleting `k` from the result returns a trie whose root hash equals
`root(T)` (indeed the original trie itself, including the collapsing of a
Branch left with a single child back into the node it replaced). -/
theorem claim_C8 {t : Trie} {full : List Nat} {v : Bs}
    (hwf : t = .empty ∨ WFS [] t) (hfull : pathOK full)
    (hnot : full ∉ (binds t).map Prod.fst) :
    ∃ t' t2, insertFn t full v = some t' ∧ deleteFn t' full = some t2 ∧
      trieHash t2 = trieHash t := by
  rcases hwf with rfl | hwf
  · have h1 : insertGo .empty full full v = some (.leaf full full v) := by
      simp only [insertGo]
    have h2 : deleteGo (.leaf full full v) full full = some none := by
      rw [deleteGo, if_pos rfl]
    refine ⟨.leaf full full v, .empty, h1, ?_, rfl⟩
    simp only [deleteFn, h2]
  · obtain ⟨t', hins⟩ :=
      insert_succeeds hwf v (List.nil_append full).symm hfull hnot
    obtain ⟨hwf2, hperm2, hdel2⟩ :=
      insert_main hwf (List.nil_append full).symm hfull hins
    refine ⟨t', t, hins, ?_, rfl⟩
    simp only [deleteFn, hdel2]

/-- Witness for C8: inserting the path `exP1` into the one-leaf trie
`exLeaf` and deleting it again returns `exLeaf` itself. -/
theorem claim_C8_witness :
    (exLeaf = .empty ∨ WFS [] exLeaf) ∧ pathOK exP1 ∧
      exP1 ∉ (binds exLeaf).map Prod.fst ∧
      ∃ t' t2, insertFn exLeaf exP1 (bs [2]) = some t' ∧
        deleteFn t' exP1 = some t2 ∧ trieHash t2 = trieHash exLeaf := by
  have hwf : exLeaf = .empty ∨ WFS [] exLeaf :=
    Or.inr (WFS.leaf [] exP0 (bs [1]) (by decide) (by decide))
  have hfull : pathOK exP1 := ⟨by decide, by decide⟩
  have hnot : exP1 ∉ (binds exLeaf).map Prod.fst := by decide
  exact ⟨hwf, hfull, hnot, claim_C8 hwf hfull hnot⟩

/-- C1 (amended: for the non-empty tries `T`; on the empty trie the current
off-chain verifier returns `undefined` in excluding mode instead of
`NULL_HASH`, see the counterexample): if inserting `(k, v)` into `T` gives
`T'` and the proof `p` is generated for `k` from `T'`, then `p` carries
`k`'s path and `v`, verifying `p` in excluding mode yields exactly
`root(T)`, verifying it in including mode yields exactly `root(T')`, and
the on-chain `insert(from_root(root(T)), k, v, p)` succeeds with result
root `root(T')`. -/
theorem claim_C1 {t t' : Trie} {full : List Nat} {v : Bs}
    (hwf : WFS [] t) (hfull : pathOK full)
    (hins : insertFn t full v = some t') (hdist : HDist t') :
    ∃ pf : PF, proveFn t' full = some pf ∧ pf.path = full ∧
      pf.val = some v ∧
      verify pf false = some (trieHash t) ∧
      verify pf true = some (trieHash t') ∧
      onInsert (trieHash t) (pack full) (hashB v) (pf.steps.map toOn) =
        some (trieHash t') := by
  obtain ⟨hwf2, hperm2, hdel2⟩ :=
    insert_main hwf (List.nil_append full).symm hfull hins
  obtain ⟨steps, hwalk, hsb, hsok, hverE⟩ :=
    insert_excl hwf (List.nil_append full).symm hfull hins hdist
  simp only [List.length_nil] at hsb hverE
  have hmem : (full, v) ∈ binds t' :=
    hperm2.mem_iff.2 (List.mem_cons_self _ _)
  obtain ⟨steps1, hwalk1, hsb1, hsok1, hverI⟩ := walk_incl hwf2 hdist hmem
  simp only [List.length_nil, List.drop_zero] at hwalk1 hsb1 hverI
  have hsteps : steps1 = steps := by
    rw [hwalk] at hwalk1
    exact (congrArg PF.steps (Option.some.inj hwalk1)).symm
  subst hsteps
  refine ⟨⟨full, some v, steps1⟩, ?_, rfl, rfl, ?_, ?_, ?_⟩
  · rw [proveFn]
    exact hwalk
  · simp only [verify, hverE]
  · simp only [verify, hverI]
  · have hexc := excl_on hfull steps1 0 hsb hsok hverE
    simp only [Option.getD_some] at hexc
    have hinc := incl_on hfull steps1 0 hsb hsok hverI
    simp only [onInsert, excluding, including]
    rw [hexc]
    simp only [Option.some_bind, eq_self_iff_true, if_true]
    exact hinc

/-- C1 counterexample (empty trie): inserting into the empty trie and
proving the new key gives a proof with no steps; the current off-chain
`verify` in excluding mode returns `undefined` on it (modelled as `none`),
not the empty trie's root `NULL_HASH`, so the claim's excluding clause
fails for `T = empty`. -/
theorem claim_C1_counterexample :
    insertFn .empty exP0 (bs [1]) = some exLeaf ∧
      proveFn exLeaf exP0 = some ⟨exP0, some (bs [1]), []⟩ ∧
      verify ⟨exP0, some (bs [1]), []⟩ false = none ∧
      verify ⟨exP0, some (bs [1]), []⟩ false ≠ some (trieHash .empty) := by
  refine ⟨?_, ?_, rfl, fun h => Option.noConfusion h⟩
  · show insertGo .empty exP0 exP0 (bs [1]) = some exLeaf
    simp only [insertGo]
    rfl
  · show walkGo (.leaf exP0 exP0 (bs [1])) exP0 =
      some ⟨exP0, some (bs [1]), []⟩
    simp only [walkGo]
    rw [if_pos isPrefixOf_self]
    simp

/-- Witness for C1 (amended) at the concrete one-leaf trie `exLeaf` and
the fresh path `exP1`. -/
theorem claim_C1_witness :
    WFS [] exLeaf ∧ pathOK exP1 ∧
      insertFn exLeaf exP1 (bs [2]) = some exBr ∧ HDist exBr ∧
      ∃ pf : PF, proveFn exBr exP1 = some pf ∧ pf.path = exP1 ∧
        pf.val = some (bs [2]) ∧
        verify pf false = some (trieHash exLeaf) ∧
        verify pf true = some (trieHash exBr) ∧
        onInsert (trieHash exLeaf) (pack exP1) (hashB (bs [2]))
          (pf.steps.map toOn) = some (trieHash exBr) := by
  have hwf : WFS [] exLeaf :=
    WFS.leaf [] exP0 (bs [1]) (by decide) (by decide)
  have hfull : pathOK exP1 := ⟨by decide, by decide⟩
  have hins : insertFn exLeaf exP1 (bs [2]) = some exBr := by
    show insertGo (.leaf exP0 exP0 (bs [1])) exP1 exP1 (bs [2]) = some exBr
    simp only [insertGo]
    rfl
  exact ⟨hwf, hfull, hins, exBr_hdist,
    claim_C1 hwf hfull hins exBr_hdist⟩

theorem countSome_two_exists {cs : List (Option Trie)}
    (h : 2 ≤ countSome cs) :
    ∃ i j ui uj, i ≠ j ∧ cs.getD i none = some ui ∧
      cs.getD j none = some uj := by
  induction cs with
  | nil => simp [countSome] at h
  | cons c r ih =>
    cases c with
    | none =>
      obtain ⟨i, j, ui, uj, hij, hgi, hgj⟩ :=
        ih (by simpa [countSome, List.filter_cons] using h)
      exact ⟨i + 1, j + 1, ui, uj, by omega,
        by simpa [List.getD_cons_succ] using hgi,
        by simpa [List.getD_cons_succ] using hgj⟩
    | some u =>
      have hr : 1 ≤ countSome r := by
        simpa [countSome, List.filter_cons] using h
      obtain ⟨k, w, hk⟩ := countSome_exists hr
      exact ⟨0, k + 1, u, w, by omega, rfl,
        by simpa [List.getD_cons_succ] using hk⟩

theorem binds_child_nib {pre pfx : List Nat} {i : Nat} {u : Trie}
    (hwf : WFS (pre ++ pfx ++ [i]) u) :
    ∀ x ∈ binds u, x.1.getD (pre.length + pfx.length) 16 = i := by
  intro x hx
  obtain ⟨f, w⟩ := x
  obtain ⟨tail, htail⟩ := binds_full hwf hx
  show f.getD (pre.length + pfx.length) 16 = i
  rw [htail]
  rw [show (pre ++ pfx ++ [i]) ++ tail = (pre ++ pfx) ++ i :: tail from
    by simp]
  have hq := getD_at (pre ++ pfx) i tail 16
  simpa [List.length_append] using hq

theorem binds_branch_two {pre pfx : List Nat} {cs : List (Option Trie)}
    (hwf : WFS pre (.branch pfx cs)) :
    2 ≤ (binds (.branch pfx cs)).length := by
  cases hwf with
  | branch _ _ _ hlen hnib hcount hne hch =>
    obtain ⟨i, j, ui, uj, hij, hgi, hgj⟩ := countSome_two_exists hcount
    obtain ⟨xi, hxi⟩ :=
      List.exists_mem_of_ne_nil _ (binds_ne_nil (hch i ui hgi))
    obtain ⟨xj, hxj⟩ :=
      List.exists_mem_of_ne_nil _ (binds_ne_nil (hch j uj hgj))
    have hmi : xi ∈ bindsL cs := bindsL_of_getD hgi hxi
    have hmj : xj ∈ bindsL cs := bindsL_of_getD hgj hxj
    have hxij : xi ≠ xj := by
      intro hh
      have h1 := binds_child_nib (hch i ui hgi) xi hxi
      have h2 := binds_child_nib (hch j uj hgj) xj hxj
      rw [hh] at h1
      exact hij (h1.symm.trans h2)
    exact two_mem_le_length hmi hmj hxij

theorem bindsL_shape {pre pfx : List Nat} {cs : List (Option Trie)}
    (hch : ∀ k u, cs.getD k none = some u → WFS (pre ++ pfx ++ [k]) u) :
    ∀ x ∈ bindsL cs, ∃ k tail, x.1 = (pre ++ pfx) ++ k :: tail := by
  intro x hx
  obtain ⟨f, w⟩ := x
  obtain ⟨k, u, hget, hxu⟩ := bindsL_mem hx
  obtain ⟨tail, htail⟩ := binds_full (hch k u hget) hxu
  refine ⟨k, tail, ?_⟩
  show f = (pre ++ pfx) ++ k :: tail
  rw [htail]
  simp

theorem bindsL_filter (n : Nat) : ∀ (cs : List (Option Trie)) (s i : Nat),
    (∀ k u, cs.getD k none = some u →
      ∀ x ∈ binds u, x.1.getD n 16 = s + k) →
    (bindsL cs).filter (fun x => x.1.getD n 16 == s + i) =
      (match cs.getD i none with | some u => binds u | none => []) := by
  intro cs
  induction cs with
  | nil =>
    intro s i _
    rw [show (([] : List (Option Trie)).getD i none) = none from
      getD_nil i none]
    rfl
  | cons c r ih =>
    intro s i hk
    cases c with
    | none =>
      rw [show bindsL (none :: r) = bindsL r from rfl]
      cases i with
      | zero =>
        rw [show ((none :: r) : List (Option Trie)).getD 0 none = none from
          rfl]
        apply List.filter_eq_nil_iff.2
        intro x hx
        obtain ⟨k, u, hget, hxu⟩ := bindsL_mem hx
        have hq := hk (k + 1) u
          (by simpa [List.getD_cons_succ] using hget) x hxu
        simp only [hq, beq_iff_eq]
        omega
      | succ j =>
        rw [show ((none :: r) : List (Option Trie)).getD (j + 1) none =
          r.getD j none from rfl]
        have hk2 : ∀ k u, r.getD k none = some u →
            ∀ x ∈ binds u, x.1.getD n 16 = (s + 1) + k := by
          intro k u hget x hxu
          have hq := hk (k + 1) u
            (by simpa [List.getD_cons_succ] using hget) x hxu
          omega
        have hq := ih (s + 1) j hk2
        rw [show s + (j + 1) = (s + 1) + j from by omega]
        exact hq
    | some u0 =>
      rw [show bindsL (some u0 :: r) = binds u0 ++ bindsL r from rfl]
      rw [List.filter_append]
      cases i with
      | zero =>
        rw [show ((some u0 :: r) : List (Option Trie)).getD 0 none =
          some u0 from rfl]
        have h1 : (binds u0).filter
            (fun x => x.1.getD n 16 == s + 0) = binds u0 := by
          apply List.filter_eq_self.2
          intro x hx
          have hq := hk 0 u0 rfl x hx
          simp only [beq_iff_eq]
          exact hq
        have h2 : (bindsL r).filter
            (fun x => x.1.getD n 16 == s + 0) = [] := by
          apply List.filter_eq_nil_iff.2
          intro x hx
          obtain ⟨k, u, hget, hxu⟩ := bindsL_mem hx
          have hq := hk (k + 1) u
            (by simpa [List.getD_cons_succ] using hget) x hxu
          simp only [hq, beq_iff_eq]
          omega
        rw [h1, h2, List.append_nil]
      | succ j =>
        rw [show ((some u0 :: r) : List (Option Trie)).getD (j + 1) none =
          r.getD j none from rfl]
        have h1 : (binds u0).filter
            (fun x => x.1.getD n 16 == s + (j + 1)) = [] := by
          apply List.filter_eq_nil_iff.2
          intro x hx
          have hq := hk 0 u0 rfl x hx
          simp only [hq, beq_iff_eq]
          omega
        have hk2 : ∀ k u, r.getD k none = some u →
            ∀ x ∈ binds u, x.1.getD n 16 = (s + 1) + k := by
          intro k u hget x hxu
          have hq := hk (k + 1) u
            (by simpa [List.getD_cons_succ] using hget) x hxu
          omega
        have h2 := ih (s + 1) j hk2
        rw [h1, List.nil_append]
        rw [show s + (j + 1) = (s + 1) + j from by omega]
        exact h2

theorem canonical {pre : List Nat} {t1 : Trie} (hwf1 : WFS pre t1) :
    ∀ {t2 : Trie}, WFS pre t2 → List.Perm (binds t1) (binds t2) →
      t1 = t2 := by
  induction hwf1 with
  | leaf pre suf1 v1 hn1 hl1 =>
    intro t2 hwf2 hperm
    cases hwf2 with
    | leaf _ suf2 v2 hn2 hl2 =>
      rw [show binds (.leaf suf1 (pre ++ suf1) v1) =
        [((pre ++ suf1), v1)] from rfl] at hperm
      rw [show binds (.leaf suf2 (pre ++ suf2) v2) =
        [((pre ++ suf2), v2)] from rfl] at hperm
      have heq := List.perm_singleton.1 hperm
      have heq2 : ((pre ++ suf1), v1) = ((pre ++ suf2), v2) := by
        exact List.head_eq_of_cons_eq heq
      have hkey : pre ++ suf1 = pre ++ suf2 := congrArg Prod.fst heq2
      have hsuf : suf1 = suf2 := List.append_cancel_left hkey
      have hval : v1 = v2 := congrArg Prod.snd heq2
      rw [hsuf, hval]
    | branch _ pfx2 cs2 hlen2 hnib2 hcount2 hne2 hch2 =>
      exfalso
      have h2 := binds_branch_two
        (WFS.branch pre pfx2 cs2 hlen2 hnib2 hcount2 hne2 hch2)
      have hlen := hperm.length_eq
      rw [show binds (.leaf suf1 (pre ++ suf1) v1) =
        [((pre ++ suf1), v1)] from rfl] at hlen
      simp only [List.length_singleton] at hlen
      omega
  | branch pre pfx1 cs1 hlen1 hnib1 hcount1 hne1 hch1 ih =>
    intro t2 hwf2 hperm
    cases hwf2 with
    | leaf _ suf2 v2 hn2 hl2 =>
      exfalso
      have h2 := binds_branch_two
        (WFS.branch pre pfx1 cs1 hlen1 hnib1 hcount1 hne1 hch1)
      have hlen := hperm.length_eq
      rw [show binds (.leaf suf2 (pre ++ suf2) v2) =
        [((pre ++ suf2), v2)] from rfl] at hlen
      simp only [List.length_singleton] at hlen
      omega
    | branch _ pfx2 cs2 hlen2 hnib2 hcount2 hne2 hch2 =>
      rw [show binds (.branch pfx1 cs1) = bindsL cs1 from rfl,
        show binds (.branch pfx2 cs2) = bindsL cs2 from rfl] at hperm
      obtain ⟨i, j, ui, uj, hij, hgi, hgj⟩ := countSome_two_exists hcount1
      obtain ⟨xi, hxi⟩ :=
        List.exists_mem_of_ne_nil _ (binds_ne_nil (hch1 i ui hgi))
      obtain ⟨xj, hxj⟩ :=
        List.exists_mem_of_ne_nil _ (binds_ne_nil (hch1 j uj hgj))
      have hnibi := binds_child_nib (hch1 i ui hgi) xi hxi
      have hnibj := binds_child_nib (hch1 j uj hgj) xj hxj
      have hmi2 : xi ∈ bindsL cs2 :=
        hperm.mem_iff.1 (bindsL_of_getD hgi hxi)
      have hmj2 : xj ∈ bindsL cs2 :=
        hperm.mem_iff.1 (bindsL_of_getD hgj hxj)
      obtain ⟨ki2, taili2, hshi⟩ := bindsL_shape hch2 xi hmi2
      obtain ⟨kj2, tailj2, hshj⟩ := bindsL_shape hch2 xj hmj2
      obtain ⟨ki1, taili1, hshi1⟩ :=
        bindsL_shape hch1 xi (bindsL_of_getD hgi hxi)
      have hlp : pfx1.length = pfx2.length := by
        by_contra hne12
        rcases Nat.lt_or_ge pfx1.length pfx2.length with hlt | hge
        · have hlt2 : pre.length + pfx1.length <
              (pre ++ pfx2).length := by
            simp only [List.length_append]
            omega
          have hi2 : xi.1.getD (pre.length + pfx1.length) 16 =
              (pre ++ pfx2).getD (pre.length + pfx1.length) 16 := by
            rw [hshi, List.getD_eq_getElem _ _ (by simp; omega),
              List.getD_eq_getElem _ _ hlt2,
              List.getElem_append_left hlt2]
          have hj2 : xj.1.getD (pre.length + pfx1.length) 16 =
              (pre ++ pfx2).getD (pre.length + pfx1.length) 16 := by
            rw [hshj, List.getD_eq_getElem _ _ (by simp; omega),
              List.getD_eq_getElem _ _ hlt2,
              List.getElem_append_left hlt2]
          rw [hnibi] at hi2
          rw [hnibj] at hj2
          exact hij (hi2.trans hj2.symm)
        · have hlt : pfx2.length < pfx1.length := by omega
          have hlt2 : pre.length + pfx2.length <
              (pre ++ pfx1).length := by
            simp only [List.length_append]
            omega
          -- two distinct children of cs2 give keys differing at
          -- position pre.length + pfx2.length, yet both lie under
          -- the longer pfx1 prefix
          obtain ⟨i2, j2, ui2, uj2, hij2, hgi2, hgj2⟩ :=
            countSome_two_exists hcount2
          obtain ⟨yi, hyi⟩ :=
            List.exists_mem_of_ne_nil _ (binds_ne_nil (hch2 i2 ui2 hgi2))
          obtain ⟨yj, hyj⟩ :=
            List.exists_mem_of_ne_nil _ (binds_ne_nil (hch2 j2 uj2 hgj2))
          have hnyi := binds_child_nib (hch2 i2 ui2 hgi2) yi hyi
          have hnyj := binds_child_nib (hch2 j2 uj2 hgj2) yj hyj
          have hmyi : yi ∈ bindsL cs1 :=
            hperm.mem_iff.2 (bindsL_of_getD hgi2 hyi)
          have hmyj : yj ∈ bindsL cs1 :=
            hperm.mem_iff.2 (bindsL_of_getD hgj2 hyj)
          obtain ⟨ka, taila, hsha⟩ := bindsL_shape hch1 yi hmyi
          obtain ⟨kb, tailb, hshb⟩ := bindsL_shape hch1 yj hmyj
          have hi2 : yi.1.getD (pre.length + pfx2.length) 16 =
              (pre ++ pfx1).getD (pre.length + pfx2.length) 16 := by
            rw [hsha, List.getD_eq_getElem _ _ (by simp; omega),
              List.getD_eq_getElem _ _ hlt2,
              List.getElem_append_left hlt2]
          have hj2 : yj.1.getD (pre.length + pfx2.length) 16 =
              (pre ++ pfx1).getD (pre.length + pfx2.length) 16 := by
            rw [hshb, List.getD_eq_getElem _ _ (by simp; omega),
              List.getD_eq_getElem _ _ hlt2,
              List.getElem_append_left hlt2]
          rw [hnyi] at hi2
          rw [hnyj] at hj2
          exact hij2 (hi2.trans hj2.symm)
      have hpfx : pfx1 = pfx2 := by
        have ht1 : xi.1.take (pre.length + pfx1.length) = pre ++ pfx1 := by
          rw [hshi1, show pre.length + pfx1.length =
            (pre ++ pfx1).length from by simp, List.take_left]
        have ht2 : xi.1.take (pre.length + pfx2.length) = pre ++ pfx2 := by
          rw [hshi, show pre.length + pfx2.length =
            (pre ++ pfx2).length from by simp, List.take_left]
        rw [hlp] at ht1
        have hpp : (pre ++ pfx1 : List Nat) = pre ++ pfx2 :=
          ht1.symm.trans ht2
        exact List.append_cancel_left hpp
      subst hpfx
      have hslot : ∀ d, cs1.getD d none = cs2.getD d none := by
        intro d
        have hf1 := bindsL_filter (pre.length + pfx1.length) cs1 0 d
          (fun k u hget x hx => by
            have hq := binds_child_nib (hch1 k u hget) x hx
            omega)
        have hf2 := bindsL_filter (pre.length + pfx1.length) cs2 0 d
          (fun k u hget x hx => by
            have hq := binds_child_nib (hch2 k u hget) x hx
            omega)
        have hpermf := hperm.filter
          (fun x => x.1.getD (pre.length + pfx1.length) 16 == 0 + d)
        rw [hf1, hf2] at hpermf
        rcases hd1 : cs1.getD d none with _ | u1 <;>
          rcases hd2 : cs2.getD d none with _ | u2
        · rfl
        · rw [hd1, hd2] at hpermf
          exact absurd (List.perm_nil.1 hpermf.symm)
            (binds_ne_nil (hch2 d u2 hd2))
        · rw [hd1, hd2] at hpermf
          exact absurd (List.perm_nil.1 hpermf)
            (binds_ne_nil (hch1 d u1 hd1))
        · rw [hd1, hd2] at hpermf
          rw [ih d u1 hd1 (hch2 d u2 hd2) hpermf]
      have hcs : cs1 = cs2 := by
        apply List.ext_getElem (by rw [hlen1, hlen2])
        intro k h1 h2
        have hq := hslot k
        rw [List.getD_eq_getElem _ _ h1, List.getD_eq_getElem _ _ h2] at hq
        exact hq
      rw [hcs]

theorem canonical_or {t1 t2 : Trie} (h1 : t1 = .empty ∨ WFS [] t1)
    (h2 : t2 = .empty ∨ WFS [] t2)
    (hperm : List.Perm (binds t1) (binds t2)) : t1 = t2 := by
  rcases h1 with rfl | hwf1
  · rcases h2 with rfl | hwf2
    · rfl
    · exfalso
      have hnil : binds t2 = [] := List.perm_nil.1 hperm.symm
      exact binds_ne_nil hwf2 hnil
  · rcases h2 with rfl | hwf2
    · exfalso
      have hnil : binds t1 = [] := List.perm_nil.1 hperm
      exact binds_ne_nil hwf1 hnil
    · exact canonical hwf1 hwf2 hperm

theorem insertList_cons (t : Trie) (k : List Nat) (w : Bs)
    (r : List (List Nat × Bs)) :
    insertList t ((k, w) :: r) =
      (insertFn t k w).bind fun t1 => insertList t1 r := by
  simp [insertList, List.foldlM_cons]

theorem insertList_good : ∀ (l : List (List Nat × Bs)) (t : Trie),
    (t = .empty ∨ WFS [] t) →
    (∀ x ∈ l, pathOK x.1) →
    ((binds t).map Prod.fst ++ l.map Prod.fst).Nodup →
    ∃ t', insertList t l = some t' ∧ (t' = .empty ∨ WFS [] t') ∧
      List.Perm (binds t') (binds t ++ l) := by
  intro l
  induction l with
  | nil =>
    intro t hwf _ _
    exact ⟨t, rfl, hwf, by simp⟩
  | cons kv r ihr =>
    obtain ⟨k, w⟩ := kv
    intro t hwf hpok hnodup
    have hkok : pathOK k := hpok (k, w) (List.mem_cons_self _ _)
    rcases hwf with rfl | hwf
    · have h1 : insertFn .empty k w = some (.leaf k k w) := by
        show insertGo .empty k k w = some (.leaf k k w)
        simp only [insertGo]
      have hwl : WFS [] (.leaf k k w) :=
        WFS.leaf [] k w (fun x hx => hkok.2 x hx) hkok.1
      have hnodup2 :
          ((binds (.leaf k k w)).map Prod.fst ++ r.map Prod.fst).Nodup := by
        simpa using hnodup
      obtain ⟨t', hfold, hwf', hperm'⟩ := ihr (.leaf k k w) (Or.inr hwl)
        (fun x hx => hpok x (List.mem_cons_of_mem _ hx)) hnodup2
      refine ⟨t', ?_, hwf', ?_⟩
      · rw [insertList_cons, h1, Option.some_bind]
        exact hfold
      · simpa using hperm'
    · have hknotin : k ∉ (binds t).map Prod.fst := by
        intro hmem
        exact List.disjoint_of_nodup_append hnodup hmem
          (List.mem_cons_self _ _)
      obtain ⟨t1, hins⟩ :=
        insert_succeeds hwf w (List.nil_append k).symm hkok hknotin
      obtain ⟨hwf1, hperm1, _⟩ :=
        insert_main hwf (List.nil_append k).symm hkok hins
      have hnodup2 : ((binds t1).map Prod.fst ++ r.map Prod.fst).Nodup := by
        have hpk : List.Perm ((binds t1).map Prod.fst)
            (k :: (binds t).map Prod.fst) := by
          simpa using hperm1.map Prod.fst
        apply (List.Perm.nodup_iff (hpk.append_right (r.map Prod.fst))).2
        rw [List.cons_append]
        exact (List.perm_middle.nodup_iff).1 hnodup
      obtain ⟨t', hfold, hwf', hperm'⟩ := ihr t1 (Or.inr hwf1)
        (fun x hx => hpok x (List.mem_cons_of_mem _ hx)) hnodup2
      have hinsF : insertFn t k w = some t1 := hins
      refine ⟨t', ?_, hwf', ?_⟩
      · rw [insertList_cons, hinsF, Option.some_bind]
        exact hfold
      · refine hperm'.trans ?_
        refine (hperm1.append_right r).trans ?_
        rw [List.cons_append]
        exact List.perm_middle.symm

theorem foldl_cp2_acc : ∀ (ws : List (List Nat)) (acc : List Nat),
    ws.foldl cp2 acc <+: acc := by
  intro ws
  induction ws with
  | nil => intro acc; exact List.prefix_refl acc
  | cons b ws ih =>
    intro acc
    exact (ih (cp2 acc b)).trans (cp2_prefix_left acc b)

theorem foldl_cp2_mem : ∀ (ws : List (List Nat)) (acc x : List Nat),
    x ∈ ws → ws.foldl cp2 acc <+: x := by
  intro ws
  induction ws with
  | nil =>
    intro acc x hx
    exact absurd hx (List.not_mem_nil x)
  | cons b ws ih =>
    intro acc x hx
    rcases List.mem_cons.1 hx with rfl | hx2
    · exact (foldl_cp2_acc ws (cp2 acc x)).trans (cp2_prefix_right acc x)
    · exact ih (cp2 acc b) x hx2

theorem commonPrefixL_pre_each {l : List (List Nat)} :
    ∀ x ∈ l, commonPrefixL l <+: x := by
  intro x hx
  cases l with
  | nil => exact absurd hx (List.not_mem_nil x)
  | cons w ws =>
    rcases List.mem_cons.1 hx with rfl | hx2
    · exact foldl_cp2_acc ws x
    · exact foldl_cp2_mem ws w x hx2

theorem foldl_cp2_pre {q : List Nat} : ∀ (ws : List (List Nat))
    (acc : List Nat), q <+: acc → (∀ x ∈ ws, q <+: x) →
    q <+: ws.foldl cp2 acc := by
  intro ws
  induction ws with
  | nil => intro acc hacc _; exact hacc
  | cons b ws ih =>
    intro acc hacc hall
    exact ih (cp2 acc b)
      (prefix_cp2 hacc (hall b (List.mem_cons_self b ws)))
      (fun x hx => hall x (List.mem_cons_of_mem b hx))

theorem commonPrefixL_pre_all {q : List Nat} (l : List (List Nat))
    (hne : l ≠ []) (h : ∀ x ∈ l, q <+: x) : q <+: commonPrefixL l := by
  cases l with
  | nil => exact absurd rfl hne
  | cons w ws =>
    exact foldl_cp2_pre ws w (h w (List.mem_cons_self w ws))
      (fun x hx => h x (List.mem_cons_of_mem w hx))

theorem getD_map_range {α : Type} (f : Nat → α) (n i : Nat) (hi : i < n)
    (d : α) : ((List.range n).map f).getD i d = f i := by
  rw [List.getD_eq_getElem _ _ (by simpa using hi), List.getElem_map,
    List.getElem_range]

theorem sizeL_ge : ∀ (cs : List (Option Trie)) (i : Nat) (u : Trie),
    cs.getD i none = some u → sizeT u ≤ sizeL cs := by
  intro cs
  induction cs with
  | nil =>
    intro i u h
    rw [getD_nil] at h
    exact Option.noConfusion h
  | cons c r ih =>
    intro i u h
    cases i with
    | zero =>
      cases c with
      | none => exact Option.noConfusion h
      | some t =>
        obtain rfl : t = u := Option.some.inj h
        rw [show sizeL (some t :: r) = sizeT t + sizeL r from rfl]
        omega
    | succ j =>
      have hr : r.getD j none = some u := by
        simpa [List.getD_cons_succ] using h
      cases c with
      | none =>
        rw [show sizeL (none :: r) = sizeL r from rfl]
        exact ih j u hr
      | some t =>
        rw [show sizeL (some t :: r) = sizeT t + sizeL r from rfl]
        have := ih j u hr
        omega

theorem sizeT_pos {pre : List Nat} {t : Trie} (hwf : WFS pre t) :
    1 ≤ sizeT t := by
  induction hwf with
  | leaf pre suf v hn hl => exact le_refl 1
  | branch pre pfx cs hlen hnib hcount hne hch ih =>
    obtain ⟨i, u, hget⟩ := countSome_exists (le_trans one_le_two hcount)
    have h1 := ih i u hget
    have h2 := sizeL_ge cs i u hget
    rw [show sizeT (.branch pfx cs) = sizeL cs from rfl]
    omega

theorem mapM_somes {α : Type} : ∀ (l : List α),
    (l.map some).mapM (id : Option α → Option α) = some l := by
  intro l
  induction l with
  | nil => rfl
  | cons a r ih =>
    rw [List.map_cons, List.mapM_cons, ih]
    rfl

theorem bindsL_opt : ∀ (ts : List Trie),
    (∀ t ∈ ts, sizeT t = 0 → binds t = []) →
    bindsL (ts.map fun t => if sizeT t = 0 then none else some t) =
      (ts.map binds).flatten := by
  intro ts
  induction ts with
  | nil => intro _; rfl
  | cons t r ih =>
    intro h
    rw [List.map_cons, List.map_cons, List.flatten_cons]
    by_cases h0 : sizeT t = 0
    · rw [if_pos h0]
      rw [show bindsL (none :: r.map fun t => if sizeT t = 0 then none
        else some t) = bindsL (r.map fun t => if sizeT t = 0 then none
        else some t) from rfl]
      rw [ih (fun u hu => h u (List.mem_cons_of_mem t hu))]
      rw [h t (List.mem_cons_self t r) h0, List.nil_append]
    · rw [if_neg h0]
      rw [show bindsL (some t :: r.map fun t => if sizeT t = 0 then none
        else some t) = binds t ++ bindsL (r.map fun t =>
        if sizeT t = 0 then none else some t) from rfl]
      rw [ih (fun u hu => h u (List.mem_cons_of_mem t hu))]

theorem bucket_perm {α : Type} (key : α → Nat) :
    ∀ (ds : List Nat), ds.Nodup → ∀ (l : List α),
    (∀ x ∈ l, key x ∈ ds) →
    List.Perm ((ds.map fun d => l.filter fun x => key x == d).flatten) l := by
  intro ds
  induction ds with
  | nil =>
    intro _ l h
    cases l with
    | nil => rfl
    | cons a r =>
      exact absurd (h a (List.mem_cons_self a r)) (List.not_mem_nil _)
  | cons d ds ih =>
    intro hnd l h
    have hnd2 := List.nodup_cons.1 hnd
    rw [List.map_cons, List.flatten_cons]
    have hmaps : (ds.map fun d2 => l.filter fun x => key x == d2) =
        ds.map fun d2 => (l.filter fun x => !(key x == d)).filter
          fun x => key x == d2 := by
      apply List.map_congr_left
      intro d2 hd2
      rw [List.filter_filter]
      apply List.filter_congr
      intro x _
      by_cases hxd2 : key x = d2
      · have hxd : ¬(key x = d) := by
          intro hh
          exact hnd2.1 (hh ▸ hxd2 ▸ hd2)
        simp only [hxd2, hxd]
        simp
        exact fun hh => hnd2.1 (hh ▸ hd2)
      · simp [hxd2]
    rw [hmaps]
    have hih := ih hnd2.2 (l.filter fun x => !(key x == d)) (by
      intro x hx
      have hxl := List.mem_of_mem_filter hx
      have hxp := List.of_mem_filter hx
      rcases List.mem_cons.1 (h x hxl) with he | hm
      · exfalso
        rw [he] at hxp
        simp at hxp
      · exact hm)
    exact (List.Perm.append_left _ hih).trans (List.filter_append_perm _ l)

theorem flatten_perm {β : Type} : ∀ (ds : List Nat)
    (F G : Nat → List β), (∀ d ∈ ds, List.Perm (F d) (G d)) →
    List.Perm ((ds.map F).flatten) ((ds.map G).flatten) := by
  intro ds
  induction ds with
  | nil => intro F G _; rfl
  | cons d ds ih =>
    intro F G h
    rw [List.map_cons, List.map_cons, List.flatten_cons, List.flatten_cons]
    exact (h d (List.mem_cons_self d ds)).append
      (ih F G (fun d2 hd2 => h d2 (List.mem_cons_of_mem d hd2)))

theorem fromLoop_single_sound (fuel : Nat) (pre : List Nat) (kv : KV)
    (t : Trie) (ht : fromLoopF fuel [kv] = some t)
    (hsh : kv.full = pre ++ kv.rem) (hpok : pathOK kv.full) :
    (t = .empty ∨ WFS pre t) ∧
      List.Perm (binds t)
        ([kv].map fun kv2 => (kv2.full, kv2.val)) := by
  have hsteq : fromLoopF fuel [kv] =
      if kv.rem.isEmpty then none
      else some (.leaf (commonPrefixL [kv.rem]) kv.full kv.val) := by
    cases fuel with
    | zero => rfl
    | succ n => rfl
  rw [hsteq] at ht
  split at ht
  · exact Option.noConfusion ht
  · obtain rfl := Option.some.inj ht
    refine ⟨Or.inr ?_, List.Perm.refl _⟩
    rw [show commonPrefixL [kv.rem] = kv.rem from rfl]
    rw [hsh]
    apply WFS.leaf
    · rw [← hsh]
      exact hpok.2
    · rw [← hsh]
      exact hpok.1

theorem mapM_eq_some {α : Type} : ∀ (l : List (Option α)) (ts : List α),
    l.mapM (id : Option α → Option α) = some ts → l = ts.map some := by
  intro l
  induction l with
  | nil =>
    intro ts ht
    have h3 : (some [] : Option (List α)) = some ts := ht
    rw [(Option.some.inj h3).symm]
    rfl
  | cons x r ih =>
    intro ts ht
    rw [List.mapM_cons] at ht
    cases x with
    | none => exact Option.noConfusion ht
    | some a =>
      rcases hr : r.mapM (id : Option α → Option α) with _ | as
      · rw [hr] at ht
        exact Option.noConfusion ht
      · rw [hr] at ht
        have h3 : (some (a :: as) : Option (List α)) = some ts := ht
        obtain rfl := (Option.some.inj h3)
        rw [List.map_cons, ih as hr]

set_option maxHeartbeats 4000000 in
theorem fromLoop_sound : ∀ (fuel : Nat) (pre : List Nat) (kvs : List KV)
    (t : Trie), fromLoopF fuel kvs = some t →
    (∀ kv ∈ kvs, kv.full = pre ++ kv.rem) →
    (∀ kv ∈ kvs, pathOK kv.full) →
    (kvs.map KV.rem).Nodup →
    (t = .empty ∨ WFS pre t) ∧
      List.Perm (binds t) (kvs.map fun kv => (kv.full, kv.val)) := by
  intro fuel
  induction fuel with
  | zero =>
    intro pre kvs t ht hsh hpok hnodup
    cases kvs with
    | nil =>
      obtain rfl := Option.some.inj ht
      exact ⟨Or.inl rfl, List.Perm.refl _⟩
    | cons kv1 r1 =>
      cases r1 with
      | nil =>
        exact fromLoop_single_sound 0 pre kv1 t ht
          (hsh kv1 (List.mem_cons_self _ _))
          (hpok kv1 (List.mem_cons_self _ _))
      | cons kv2 rest => exact Option.noConfusion ht
  | succ f ihf =>
    intro pre kvs t ht hsh hpok hnodup
    cases kvs with
    | nil =>
      obtain rfl := Option.some.inj ht
      exact ⟨Or.inl rfl, List.Perm.refl _⟩
    | cons kv1 r1 =>
      cases r1 with
      | nil =>
        exact fromLoop_single_sound (f + 1) pre kv1 t ht
          (hsh kv1 (List.mem_cons_self _ _))
          (hpok kv1 (List.mem_cons_self _ _))
      | cons kv2 rest =>
        have hmem1 : kv1 ∈ (kv1 :: kv2 :: rest) := List.mem_cons_self _ _
        have hmem2 : kv2 ∈ (kv1 :: kv2 :: rest) := List.mem_cons_of_mem _
          (List.mem_cons_self _ _)
        have hremlen : ∀ kv ∈ (kv1 :: kv2 :: rest), pre.length + kv.rem.length = 64 := by
          intro kv hkv
          have h1 := (hpok kv hkv).1
          rw [hsh kv hkv] at h1
          simp only [List.length_append] at h1
          omega
        have hpfx_each : ∀ kv ∈ (kv1 :: kv2 :: rest), (commonPrefixL (List.map KV.rem (kv1 :: kv2 :: rest))) <+: kv.rem := by
          intro kv hkv
          exact commonPrefixL_pre_each _ (List.mem_map_of_mem KV.rem hkv)
        have hne12 : kv1.rem ≠ kv2.rem := by
          have hq := hnodup
          simp only [List.map_cons, List.nodup_cons] at hq
          intro heq
          exact hq.1 (by rw [heq]; exact List.mem_cons_self _ _)
        have hstrict : ∀ kv ∈ (kv1 :: kv2 :: rest), (commonPrefixL (List.map KV.rem (kv1 :: kv2 :: rest))).length < kv.rem.length := by
          intro kv hkv
          by_contra hge
          have hpk : (commonPrefixL (List.map KV.rem (kv1 :: kv2 :: rest))) = kv.rem :=
            (hpfx_each kv hkv).eq_of_length
              (le_antisymm (hpfx_each kv hkv).length_le
                (Nat.le_of_not_lt hge))
          have hlen1 : (commonPrefixL (List.map KV.rem (kv1 :: kv2 :: rest))).length = kv1.rem.length := by
            have e1 := hremlen kv hkv
            have e2 := hremlen kv1 hmem1
            rw [hpk]
            omega
          have hlen2 : (commonPrefixL (List.map KV.rem (kv1 :: kv2 :: rest))).length = kv2.rem.length := by
            have e1 := hremlen kv hkv
            have e2 := hremlen kv2 hmem2
            rw [hpk]
            omega
          have h1 : (commonPrefixL (List.map KV.rem (kv1 :: kv2 :: rest))) = kv1.rem :=
            (hpfx_each kv1 hmem1).eq_of_length hlen1
          have h2 : (commonPrefixL (List.map KV.rem (kv1 :: kv2 :: rest))) = kv2.rem :=
            (hpfx_each kv2 hmem2).eq_of_length hlen2
          exact hne12 (h1.symm.trans h2)
        have hremtake : ∀ kv ∈ (kv1 :: kv2 :: rest), kv.rem.take (commonPrefixL (List.map KV.rem (kv1 :: kv2 :: rest))).length = (commonPrefixL (List.map KV.rem (kv1 :: kv2 :: rest))) := by
          intro kv hkv
          exact (List.prefix_iff_eq_take.1 (hpfx_each kv hkv)).symm
        have hrecon : ∀ kv ∈ (kv1 :: kv2 :: rest), (commonPrefixL (List.map KV.rem (kv1 :: kv2 :: rest))) ++ kv.rem.getD (commonPrefixL (List.map KV.rem (kv1 :: kv2 :: rest))).length 16 ::
            kv.rem.drop ((commonPrefixL (List.map KV.rem (kv1 :: kv2 :: rest))).length + 1) = kv.rem := by
          intro kv hkv
          have hq := take_getD_drop (hstrict kv hkv) 16
          rw [hremtake kv hkv] at hq
          exact hq
        have hnib16 : ∀ kv ∈ (kv1 :: kv2 :: rest), kv.rem.getD (commonPrefixL (List.map KV.rem (kv1 :: kv2 :: rest))).length 16 < 16 := by
          intro kv hkv
          rw [List.getD_eq_getElem _ _ (hstrict kv hkv)]
          apply (hpok kv hkv).2
          rw [hsh kv hkv]
          exact List.mem_append_right pre
            (List.getElem_mem (hstrict kv hkv))
        -- membership structure of the nibble buckets
        have hmemB : ∀ d x, x ∈ (List.map (fun q => KV.mk (q.rem.drop 1) q.full q.val) (List.filter (fun q => q.rem.headD 16 == d) (List.map (fun q => KV.mk (q.rem.drop (commonPrefixL (List.map KV.rem (kv1 :: kv2 :: rest))).length) q.full q.val) (kv1 :: kv2 :: rest)))) → ∃ kv, kv ∈ (kv1 :: kv2 :: rest) ∧
            kv.rem.getD (commonPrefixL (List.map KV.rem (kv1 :: kv2 :: rest))).length 16 = d ∧
            x = KV.mk (kv.rem.drop ((commonPrefixL (List.map KV.rem (kv1 :: kv2 :: rest))).length + 1)) kv.full kv.val := by
          intro d x hx
          obtain ⟨y, hyf, rfl⟩ := List.mem_map.1 hx
          obtain ⟨hyS, hyp⟩ := List.mem_filter.1 hyf
          obtain ⟨kv, hkv, rfl⟩ := List.mem_map.1 hyS
          refine ⟨kv, hkv, ?_, ?_⟩
          · have hq : ((kv.rem.drop (commonPrefixL (List.map KV.rem (kv1 :: kv2 :: rest))).length).headD 16 == d) = true :=
              hyp
            have hq2 := beq_iff_eq.1 hq
            rw [getD_headD_drop] at hq2
            exact hq2
          · show KV.mk ((kv.rem.drop (commonPrefixL (List.map KV.rem (kv1 :: kv2 :: rest))).length).drop 1) kv.full kv.val =
              KV.mk (kv.rem.drop ((commonPrefixL (List.map KV.rem (kv1 :: kv2 :: rest))).length + 1)) kv.full kv.val
            rw [List.drop_drop]
        -- hypotheses of the induction hypothesis, per bucket
        have hA : ∀ d, ∀ x ∈ (List.map (fun q => KV.mk (q.rem.drop 1) q.full q.val) (List.filter (fun q => q.rem.headD 16 == d) (List.map (fun q => KV.mk (q.rem.drop (commonPrefixL (List.map KV.rem (kv1 :: kv2 :: rest))).length) q.full q.val) (kv1 :: kv2 :: rest)))),
            x.full = (pre ++ (commonPrefixL (List.map KV.rem (kv1 :: kv2 :: rest))) ++ [d]) ++ x.rem := by
          intro d x hx
          obtain ⟨kv, hkv, hnib, rfl⟩ := hmemB d x hx
          show kv.full = (pre ++ (commonPrefixL (List.map KV.rem (kv1 :: kv2 :: rest))) ++ [d]) ++
            kv.rem.drop ((commonPrefixL (List.map KV.rem (kv1 :: kv2 :: rest))).length + 1)
          rw [hsh kv hkv]
          rw [show (pre ++ (commonPrefixL (List.map KV.rem (kv1 :: kv2 :: rest))) ++ [d]) ++
            kv.rem.drop ((commonPrefixL (List.map KV.rem (kv1 :: kv2 :: rest))).length + 1) =
            pre ++ ((commonPrefixL (List.map KV.rem (kv1 :: kv2 :: rest))) ++ [d] ++ kv.rem.drop ((commonPrefixL (List.map KV.rem (kv1 :: kv2 :: rest))).length + 1)) from by
              simp [List.append_assoc]]
          rw [show (commonPrefixL (List.map KV.rem (kv1 :: kv2 :: rest))) ++ [d] ++ kv.rem.drop ((commonPrefixL (List.map KV.rem (kv1 :: kv2 :: rest))).length + 1) =
            (commonPrefixL (List.map KV.rem (kv1 :: kv2 :: rest))) ++ d :: kv.rem.drop ((commonPrefixL (List.map KV.rem (kv1 :: kv2 :: rest))).length + 1) from by
              simp [List.append_assoc]]
          rw [← hnib, hrecon kv hkv]
        have hB : ∀ d, ∀ x ∈ (List.map (fun q => KV.mk (q.rem.drop 1) q.full q.val) (List.filter (fun q => q.rem.headD 16 == d) (List.map (fun q => KV.mk (q.rem.drop (commonPrefixL (List.map KV.rem (kv1 :: kv2 :: rest))).length) q.full q.val) (kv1 :: kv2 :: rest)))), pathOK x.full := by
          intro d x hx
          obtain ⟨kv, hkv, _, rfl⟩ := hmemB d x hx
          exact hpok kv hkv
        have hfull_nodup : ((kv1 :: kv2 :: rest).map KV.full).Nodup := by
          rw [show (kv1 :: kv2 :: rest).map KV.full = ((kv1 :: kv2 :: rest).map KV.rem).map
            (fun r => pre ++ r) from by
              rw [List.map_map]
              exact (List.map_congr_left (fun kv hkv => hsh kv hkv))]
          apply List.Nodup.map_on ?_ hnodup
          intro x _ y _ he
          exact List.append_cancel_left he
        have hBfulls : ∀ d, ((List.map (fun q => KV.mk (q.rem.drop 1) q.full q.val) (List.filter (fun q => q.rem.headD 16 == d) (List.map (fun q => KV.mk (q.rem.drop (commonPrefixL (List.map KV.rem (kv1 :: kv2 :: rest))).length) q.full q.val) (kv1 :: kv2 :: rest))))).map KV.full =
            (List.filter (fun q => q.rem.headD 16 == d) (List.map (fun q => KV.mk (q.rem.drop (commonPrefixL (List.map KV.rem (kv1 :: kv2 :: rest))).length) q.full q.val) (kv1 :: kv2 :: rest))).map
              KV.full := by
          intro d
          rw [List.map_map]
          exact List.map_congr_left (fun kv _ => rfl)
        have hSTfull : (List.map (fun q => KV.mk (q.rem.drop (commonPrefixL (List.map KV.rem (kv1 :: kv2 :: rest))).length) q.full q.val) (kv1 :: kv2 :: rest)).map KV.full = (kv1 :: kv2 :: rest).map KV.full := by
          rw [List.map_map]
          exact List.map_congr_left (fun kv _ => rfl)
        have hfn : ∀ d, (((List.map (fun q => KV.mk (q.rem.drop 1) q.full q.val) (List.filter (fun q => q.rem.headD 16 == d) (List.map (fun q => KV.mk (q.rem.drop (commonPrefixL (List.map KV.rem (kv1 :: kv2 :: rest))).length) q.full q.val) (kv1 :: kv2 :: rest))))).map KV.full).Nodup := by
          intro d
          rw [hBfulls d]
          apply List.Nodup.sublist
            (List.Sublist.map KV.full (List.filter_sublist (List.map (fun q => KV.mk (q.rem.drop (commonPrefixL (List.map KV.rem (kv1 :: kv2 :: rest))).length) q.full q.val) (kv1 :: kv2 :: rest))))
          rw [hSTfull]
          exact hfull_nodup
        have hC : ∀ d, (((List.map (fun q => KV.mk (q.rem.drop 1) q.full q.val) (List.filter (fun q => q.rem.headD 16 == d) (List.map (fun q => KV.mk (q.rem.drop (commonPrefixL (List.map KV.rem (kv1 :: kv2 :: rest))).length) q.full q.val) (kv1 :: kv2 :: rest))))).map KV.rem).Nodup := by
          intro d
          apply List.Nodup.map_on ?_ (List.Nodup.of_map KV.full (hfn d))
          intro x hx y hy hrem
          have hfull : x.full = y.full := by
            rw [hA d x hx, hA d y hy, hrem]
          exact List.inj_on_of_nodup_map (hfn d) hx hy hfull
        -- invert the success hypothesis
        simp only [fromLoopF] at ht
        split at ht
        · exact Option.noConfusion ht
        next hanyF =>
        rcases hmm : ((List.range 16).map fun d => fromLoopF f ((List.map (fun q => KV.mk (q.rem.drop 1) q.full q.val) (List.filter (fun q => q.rem.headD 16 == d) (List.map (fun q => KV.mk (q.rem.drop (commonPrefixL (List.map KV.rem (kv1 :: kv2 :: rest))).length) q.full q.val) (kv1 :: kv2 :: rest)))))).mapM
            (id : Option Trie → Option Trie) with _ | ts
        · rw [hmm] at ht
          exact Option.noConfusion ht
        rw [hmm] at ht
        have ht2 : (if 2 ≤ countSome
              (ts.map fun u => if sizeT u = 0 then none else some u) then
            some (Trie.branch (commonPrefixL (List.map KV.rem (kv1 :: kv2 :: rest)))
              (ts.map fun u => if sizeT u = 0 then none else some u))
          else none) = some t := ht
        split at ht2
        swap
        · exact Option.noConfusion ht2
        next hcnt =>
        obtain rfl := Option.some.inj ht2
        have hsubseq : ((List.range 16).map fun d => fromLoopF f ((List.map (fun q => KV.mk (q.rem.drop 1) q.full q.val) (List.filter (fun q => q.rem.headD 16 == d) (List.map (fun q => KV.mk (q.rem.drop (commonPrefixL (List.map KV.rem (kv1 :: kv2 :: rest))).length) q.full q.val) (kv1 :: kv2 :: rest)))))) =
            ts.map some := mapM_eq_some _ ts hmm
        have hts16 : ts.length = 16 := by
          have hq := congrArg List.length hsubseq
          simpa using hq.symm
        have hFd : ∀ d, d < 16 →
            fromLoopF f ((List.map (fun q => KV.mk (q.rem.drop 1) q.full q.val) (List.filter (fun q => q.rem.headD 16 == d) (List.map (fun q => KV.mk (q.rem.drop (commonPrefixL (List.map KV.rem (kv1 :: kv2 :: rest))).length) q.full q.val) (kv1 :: kv2 :: rest))))) = some (ts.getD d .empty) := by
          intro d hd
          have h1 := congrArg (fun l => l.getD d none) hsubseq
          simp only at h1
          rw [show (((List.range 16).map fun d => fromLoopF f ((List.map (fun q => KV.mk (q.rem.drop 1) q.full q.val) (List.filter (fun q => q.rem.headD 16 == d) (List.map (fun q => KV.mk (q.rem.drop (commonPrefixL (List.map KV.rem (kv1 :: kv2 :: rest))).length) q.full q.val) (kv1 :: kv2 :: rest))))))).getD
            d none = fromLoopF f ((List.map (fun q => KV.mk (q.rem.drop 1) q.full q.val) (List.filter (fun q => q.rem.headD 16 == d) (List.map (fun q => KV.mk (q.rem.drop (commonPrefixL (List.map KV.rem (kv1 :: kv2 :: rest))).length) q.full q.val) (kv1 :: kv2 :: rest))))) from
            getD_map_range _ 16 d hd none] at h1
          rw [show ((ts.map some).getD d none) =
            some (ts.getD d .empty) from by
              rw [List.getD_eq_getElem _ _
                (by rw [List.length_map, hts16]; exact hd),
                List.getElem_map,
                List.getD_eq_getElem _ _ (by rw [hts16]; exact hd)]] at h1
          exact h1
        have hsound : ∀ d, d < 16 →
            (ts.getD d .empty = .empty ∨
              WFS (pre ++ (commonPrefixL (List.map KV.rem (kv1 :: kv2 :: rest))) ++ [d]) (ts.getD d .empty)) ∧
            List.Perm (binds (ts.getD d .empty))
              (((List.map (fun q => KV.mk (q.rem.drop 1) q.full q.val) (List.filter (fun q => q.rem.headD 16 == d) (List.map (fun q => KV.mk (q.rem.drop (commonPrefixL (List.map KV.rem (kv1 :: kv2 :: rest))).length) q.full q.val) (kv1 :: kv2 :: rest))))).map fun kv => (kv.full, kv.val)) := by
          intro d hd
          exact ihf (pre ++ (commonPrefixL (List.map KV.rem (kv1 :: kv2 :: rest))) ++ [d]) ((List.map (fun q => KV.mk (q.rem.drop 1) q.full q.val) (List.filter (fun q => q.rem.headD 16 == d) (List.map (fun q => KV.mk (q.rem.drop (commonPrefixL (List.map KV.rem (kv1 :: kv2 :: rest))).length) q.full q.val) (kv1 :: kv2 :: rest))))) (ts.getD d .empty)
            (hFd d hd) (hA d) (hB d) (hC d)
        have hgzero : ∀ d, d < 16 → sizeT (ts.getD d .empty) = 0 →
            binds (ts.getD d .empty) = [] := by
          intro d hd h0
          rcases (hsound d hd).1 with he | hw
          · rw [he]
            rfl
          · exact absurd h0 (by have := sizeT_pos hw; omega)
        have hgwf : ∀ d, d < 16 → sizeT (ts.getD d .empty) ≠ 0 →
            WFS (pre ++ (commonPrefixL (List.map KV.rem (kv1 :: kv2 :: rest))) ++ [d]) (ts.getD d .empty) := by
          intro d hd h0
          rcases (hsound d hd).1 with he | hw
          · exact absurd (by rw [he]; rfl) h0
          · exact hw
        have hCget : ∀ d, d < 16 →
            (ts.map fun u => if sizeT u = 0 then none else some u).getD
              d none =
            if sizeT (ts.getD d .empty) = 0 then none
            else some (ts.getD d .empty) := by
          intro d hd
          rw [List.getD_eq_getElem _ _
            (by rw [List.length_map, hts16]; exact hd), List.getElem_map,
            List.getD_eq_getElem _ _ (by rw [hts16]; exact hd)]
        have hCs : ∀ d u,
            (ts.map fun u => if sizeT u = 0 then none else some u).getD
              d none = some u →
            d < 16 ∧ u = ts.getD d .empty ∧
              sizeT (ts.getD d .empty) ≠ 0 := by
          intro d u hget
          have hd : d < 16 := by
            have hq := getD_lt_length hget
            rw [List.length_map, hts16] at hq
            exact hq
          rw [hCget d hd] at hget
          by_cases h0 : sizeT (ts.getD d .empty) = 0
          · rw [if_pos h0] at hget
            exact Option.noConfusion hget
          · rw [if_neg h0] at hget
            exact ⟨hd, (Option.some.inj hget).symm, h0⟩
        constructor
        · right
          apply WFS.branch
          · rw [List.length_map, hts16]
          · intro x hx
            have hxr : x ∈ kv1.rem := (hpfx_each kv1 hmem1).subset hx
            apply (hpok kv1 hmem1).2
            rw [hsh kv1 hmem1]
            exact List.mem_append_right pre hxr
          · exact hcnt
          · intro i u hget
            obtain ⟨hi, rfl, h0⟩ := hCs i u hget
            exact WFS_ne_empty (hgwf i hi h0)
          · intro i u hget
            obtain ⟨hi, rfl, h0⟩ := hCs i u hget
            exact hgwf i hi h0
        · rw [show binds (.branch (commonPrefixL (List.map KV.rem (kv1 :: kv2 :: rest)))
            (ts.map fun u => if sizeT u = 0 then none else some u)) =
            bindsL (ts.map fun u => if sizeT u = 0 then none else some u)
            from rfl]
          rw [bindsL_opt _ (by
            intro u hu
            obtain ⟨i, hi, rfl⟩ := List.mem_iff_getElem.1 hu
            have hi16 : i < 16 := by rw [← hts16]; exact hi
            rw [show ts[i] = ts.getD i .empty from
              (List.getD_eq_getElem _ _ hi).symm]
            exact hgzero i hi16)]
          rw [show ts.map binds = (List.range 16).map
            (fun d => binds (ts.getD d .empty)) from by
              apply List.ext_getElem
              · simp [hts16]
              · intro k h1 h2
                have hk16 : k < 16 := by simpa using h2
                rw [List.getElem_map, List.getElem_map,
                  List.getElem_range,
                  List.getD_eq_getElem _ _ (by rw [hts16]; exact hk16)]]
          refine (flatten_perm (List.range 16) _
            (fun d => ((List.map (fun q => KV.mk (q.rem.drop 1) q.full q.val) (List.filter (fun q => q.rem.headD 16 == d) (List.map (fun q => KV.mk (q.rem.drop (commonPrefixL (List.map KV.rem (kv1 :: kv2 :: rest))).length) q.full q.val) (kv1 :: kv2 :: rest))))).map fun kv => (kv.full, kv.val))
            (fun d hd => (hsound d (List.mem_range.1 hd)).2)).trans ?_
          rw [show ((List.range 16).map fun d =>
              ((List.map (fun q => KV.mk (q.rem.drop 1) q.full q.val) (List.filter (fun q => q.rem.headD 16 == d) (List.map (fun q => KV.mk (q.rem.drop (commonPrefixL (List.map KV.rem (kv1 :: kv2 :: rest))).length) q.full q.val) (kv1 :: kv2 :: rest))))).map fun kv => (kv.full, kv.val)) =
              ((List.range 16).map fun d =>
                List.filter (fun q => q.rem.headD 16 == d) (List.map (fun q => KV.mk (q.rem.drop (commonPrefixL (List.map KV.rem (kv1 :: kv2 :: rest))).length) q.full q.val) (kv1 :: kv2 :: rest))).map
                (List.map fun kv => (kv.full, kv.val)) from by
            rw [List.map_map]
            apply List.map_congr_left
            intro d _
            show ((List.map (fun q => KV.mk (q.rem.drop 1) q.full q.val) (List.filter (fun q => q.rem.headD 16 == d) (List.map (fun q => KV.mk (q.rem.drop (commonPrefixL (List.map KV.rem (kv1 :: kv2 :: rest))).length) q.full q.val) (kv1 :: kv2 :: rest))))).map (fun kv => (kv.full, kv.val)) =
              (List.filter (fun q => q.rem.headD 16 == d) (List.map (fun q => KV.mk (q.rem.drop (commonPrefixL (List.map KV.rem (kv1 :: kv2 :: rest))).length) q.full q.val) (kv1 :: kv2 :: rest))).map
                (fun kv => (kv.full, kv.val))
            rw [List.map_map]
            exact List.map_congr_left (fun kv _ => rfl)]
          rw [← List.map_flatten]
          have hbp := (bucket_perm (fun q => q.rem.headD 16)
            (List.range 16) (List.nodup_range 16) (List.map (fun q => KV.mk (q.rem.drop (commonPrefixL (List.map KV.rem (kv1 :: kv2 :: rest))).length) q.full q.val) (kv1 :: kv2 :: rest)) (by
              intro x hx
              obtain ⟨kv, hkv, rfl⟩ := List.mem_map.1 hx
              apply List.mem_range.2
              show (kv.rem.drop (commonPrefixL (List.map KV.rem (kv1 :: kv2 :: rest))).length).headD 16 < 16
              rw [getD_headD_drop]
              exact hnib16 kv hkv)).map
            (fun kv => (kv.full, kv.val))
          refine hbp.trans ?_
          rw [List.map_map]
          exact List.Perm.of_eq (List.map_congr_left (fun kv _ => rfl))

/-- C3 (amended: the insertion-order canonicality holds unconditionally,
and `Trie.fromList` agrees with it whenever it succeeds; `Trie.fromList`
itself can throw on valid distinct-key inputs - its recursive loop calls
`commonPrefix`, which asserts its words non-empty, on a singleton bucket
whose remaining path is empty, see the counterexample): for every list of
distinct key/value pairs (keys given by their 64-nibble paths) and any two
permutations of it, inserting the pairs one by one into an empty trie
yields the same trie - hence the same root hash - in either order; and
whenever `Trie.fromList` succeeds on the list, its root equals that
insertion root. -/
theorem claim_C3 {l l2 l3 : List (List Nat × Bs)}
    (h2 : List.Perm l l2) (h3 : List.Perm l l3)
    (hpok : ∀ x ∈ l, pathOK x.1) (hnodup : (l.map Prod.fst).Nodup) :
    ∃ t1, insertList .empty l2 = some t1 ∧ insertList .empty l3 = some t1 ∧
      ∀ tf, fromListFn l = some tf → tf = t1 ∧
        trieHash tf = trieHash t1 := by
  have hpok2 : ∀ x ∈ l2, pathOK x.1 := fun x hx =>
    hpok x (h2.mem_iff.2 hx)
  have hnodup2 : (l2.map Prod.fst).Nodup :=
    ((h2.map Prod.fst).nodup_iff).1 hnodup
  have hpok3 : ∀ x ∈ l3, pathOK x.1 := fun x hx =>
    hpok x (h3.mem_iff.2 hx)
  have hnodup3 : (l3.map Prod.fst).Nodup :=
    ((h3.map Prod.fst).nodup_iff).1 hnodup
  obtain ⟨t1, hins2, hwf1, hperm1⟩ := insertList_good l2 .empty (Or.inl rfl)
    hpok2 (by simpa using hnodup2)
  obtain ⟨t2, hins3, hwf2, hperm2⟩ := insertList_good l3 .empty (Or.inl rfl)
    hpok3 (by simpa using hnodup3)
  have hp1 : List.Perm (binds t1) l2 := by simpa using hperm1
  have hp2 : List.Perm (binds t2) l3 := by simpa using hperm2
  have heq21 : t2 = t1 :=
    canonical_or hwf2 hwf1
      (hp2.trans (h3.symm.trans (h2.trans hp1.symm)))
  refine ⟨t1, hins2, by rw [← heq21]; exact hins3, ?_⟩
  intro tf htf
  have htf2 : fromLoopF 65 (l.map fun kv => (⟨kv.1, kv.1, kv.2⟩ : KV)) =
      some tf := htf
  obtain ⟨hwtf, hptf⟩ := fromLoop_sound 65 []
    (l.map fun kv => (⟨kv.1, kv.1, kv.2⟩ : KV)) tf htf2
    (by
      intro kv hkv
      obtain ⟨x, hx, rfl⟩ := List.mem_map.1 hkv
      exact (List.nil_append x.1).symm)
    (by
      intro kv hkv
      obtain ⟨x, hx, rfl⟩ := List.mem_map.1 hkv
      exact hpok x hx)
    (by
      rw [List.map_map]
      rw [show l.map (KV.rem ∘ fun kv => (⟨kv.1, kv.1, kv.2⟩ : KV)) =
        l.map Prod.fst from List.map_congr_left (fun x _ => rfl)]
      exact hnodup)
  have hptf2 : List.Perm (binds tf) l := by
    refine hptf.trans ?_
    rw [List.map_map]
    rw [show l.map ((fun kv => (kv.full, kv.val)) ∘
      fun kv => (⟨kv.1, kv.1, kv.2⟩ : KV)) = l.map id from
      List.map_congr_left (fun x _ => rfl)]
    rw [List.map_id]
  have heqf : tf = t1 :=
    canonical_or hwtf hwf1 (hptf2.trans (h2.trans hp1.symm))
  exact ⟨heqf, by rw [heqf]⟩

/-- C3 counterexample to the original claim: the two valid, distinct keys
with paths `exP0` and `exP2` share their first 63 nibbles, so the
`fromList` recursion reaches a singleton bucket whose remaining path is
empty and `commonPrefix` throws (`none` in the model), while inserting the
two pairs succeeds in both orders and yields the same trie - so the
claimed `Trie.fromList` root does not exist. -/
theorem claim_C3_counterexample :
    pathOK exP0 ∧ pathOK exP2 ∧ exP0 ≠ exP2 ∧
      fromListFn [(exP0, bs [1]), (exP2, bs [2])] = none ∧
      ∃ t1, insertList .empty [(exP0, bs [1]), (exP2, bs [2])] = some t1 ∧
        insertList .empty [(exP2, bs [2]), (exP0, bs [1])] = some t1 := by
  have h1 : insertFn .empty exP0 (bs [1]) =
      some (.leaf exP0 exP0 (bs [1])) := by
    show insertGo .empty exP0 exP0 (bs [1]) =
      some (.leaf exP0 exP0 (bs [1]))
    simp only [insertGo]
  have h2 : insertFn .empty exP2 (bs [2]) =
      some (.leaf exP2 exP2 (bs [2])) := by
    show insertGo .empty exP2 exP2 (bs [2]) =
      some (.leaf exP2 exP2 (bs [2]))
    simp only [insertGo]
  have h3 : insertFn (.leaf exP0 exP0 (bs [1])) exP2 (bs [2]) =
      some (.branch (cp2 exP0 exP2)
        (vec2 (exP0.getD (cp2 exP0 exP2).length 16)
          (.leaf (exP0.drop ((cp2 exP0 exP2).length + 1)) exP0 (bs [1]))
          (exP2.getD (cp2 exP0 exP2).length 16)
          (.leaf (exP2.drop ((cp2 exP0 exP2).length + 1)) exP2
            (bs [2])))) := by
    show insertGo (.leaf exP0 exP0 (bs [1])) exP2 exP2 (bs [2]) = _
    simp only [insertGo]
    rfl
  have h4 : insertFn (.leaf exP2 exP2 (bs [2])) exP0 (bs [1]) =
      some (.branch (cp2 exP2 exP0)
        (vec2 (exP2.getD (cp2 exP2 exP0).length 16)
          (.leaf (exP2.drop ((cp2 exP2 exP0).length + 1)) exP2 (bs [2]))
          (exP0.getD (cp2 exP2 exP0).length 16)
          (.leaf (exP0.drop ((cp2 exP2 exP0).length + 1)) exP0
            (bs [1])))) := by
    show insertGo (.leaf exP2 exP2 (bs [2])) exP0 exP0 (bs [1]) = _
    simp only [insertGo]
    rfl
  refine ⟨⟨by decide, by decide⟩, ⟨by decide, by decide⟩, by decide,
    rfl, ?_⟩
  refine ⟨.branch (cp2 exP0 exP2)
    (vec2 (exP0.getD (cp2 exP0 exP2).length 16)
      (.leaf (exP0.drop ((cp2 exP0 exP2).length + 1)) exP0 (bs [1]))
      (exP2.getD (cp2 exP0 exP2).length 16)
      (.leaf (exP2.drop ((cp2 exP0 exP2).length + 1)) exP2 (bs [2]))),
    ?_, ?_⟩
  · rw [insertList_cons, h1, Option.some_bind, insertList_cons, h3,
      Option.some_bind]
    rfl
  · rw [insertList_cons, h2, Option.some_bind, insertList_cons, h4,
      Option.some_bind]
    rfl

/-- Witness for C3 (amended): the two-key list over the example paths,
its swap and itself. -/
theorem claim_C3_witness :
    List.Perm [(exP0, bs [1]), (exP1, bs [2])]
        [(exP1, bs [2]), (exP0, bs [1])] ∧
      List.Perm [(exP0, bs [1]), (exP1, bs [2])]
        [(exP0, bs [1]), (exP1, bs [2])] ∧
      (∀ x ∈ [(exP0, bs [1]), (exP1, bs [2])], pathOK x.1) ∧
      ([(exP0, bs [1]), (exP1, bs [2])].map Prod.fst).Nodup ∧
      ∃ t1,
        insertList .empty [(exP1, bs [2]), (exP0, bs [1])] = some t1 ∧
        insertList .empty [(exP0, bs [1]), (exP1, bs [2])] = some t1 ∧
        ∀ tf, fromListFn [(exP0, bs [1]), (exP1, bs [2])] = some tf →
          tf = t1 ∧ trieHash tf = trieHash t1 := by
  have hperm : List.Perm [(exP0, bs [1]), (exP1, bs [2])]
      [(exP1, bs [2]), (exP0, bs [1])] := List.Perm.swap _ _ _
  have hrefl : List.Perm [(exP0, bs [1]), (exP1, bs [2])]
      [(exP0, bs [1]), (exP1, bs [2])] := List.Perm.refl _
  have hpok : ∀ x ∈ [(exP0, bs [1]), (exP1, bs [2])], pathOK x.1 := by
    intro x hx
    rcases List.mem_cons.1 hx with rfl | hx2
    · exact ⟨by decide, by decide⟩
    · rcases List.mem_cons.1 hx2 with rfl | hx3
      · exact ⟨by decide, by decide⟩
      · exact absurd hx3 (List.not_mem_nil _)
  have hnodup : (([(exP0, bs [1]), (exP1, bs [2])]).map Prod.fst).Nodup := by
    decide
  exact ⟨hperm, hrefl, hpok, hnodup,
    claim_C3 hperm hrefl hpok hnodup⟩

/-- Witness for C5 (amended) at the concrete children `exChildren`, `me = 5`. -/
theorem claim_C5_witness :
    exChildren.length = 16 ∧ (5 : Nat) < 16 ∧
      ((merkleProof exChildren 5).getD 3 nullHash =
          exChildren.getD (Nat.xor 5 1) nullHash ∧
        (merkleProof exChildren 5).getD 0 nullHash =
          merkleRoot (if 5 ≤ 7 then exChildren.drop 8 else exChildren.take 8) ∧
        merkleTable 5 nullHash
          ((merkleProof exChildren 5).getD 0 nullHash)
          ((merkleProof exChildren 5).getD 1 nullHash)
          ((merkleProof exChildren 5).getD 2 nullHash)
          ((merkleProof exChildren 5).getD 3 nullHash) =
        merkleRoot (exChildren.set 5 nullHash)) :=
  ⟨by decide, by decide, claim_C5 exChildren (by decide) 5 (by decide) nullHash⟩

end MPF
